import Mathlib

/-!
Verification development for the applicant-tracking reconciliation engine.

The JavaScript source operates on spreadsheet tables; here the tables are
modelled as Lean lists of row records, spreadsheet cells as `String` values
(a cell holding a `=HYPERLINK(url,label)` formula is modelled by its displayed
value, i.e. the label, which is what every `getValues`-style read in the
source observes), and the wall clock (`Date.now()` / `nowDetroit()`) as an
explicit parameter.  String operations of the source (`trim`, `toLowerCase`,
`split`, …) are implemented by structural recursion on the character list of
the string so that every definition evaluates inside the kernel.
-/

namespace ATS

/-- JS `String.prototype.trim` whitespace test (restricted to the ASCII
whitespace characters that occur in cell data). -/
def isWs (c : Char) : Bool :=
  decide (c = ' ') || decide (c = '\t') || decide (c = '\n') || decide (c = '\r')

/-- Drop leading whitespace from a character list. -/
def dropWs (l : List Char) : List Char := l.dropWhile isWs

/-- `trim` on a character list: drop leading and trailing whitespace. -/
def trimL (l : List Char) : List Char :=
  ((dropWs l).reverse.dropWhile isWs).reverse

/-- `String.prototype.trim`. -/
def trimS (s : String) : String := ⟨trimL s.data⟩

/-- `String.prototype.toLowerCase` (ASCII, as `Char.toLower`). -/
def lowerS (s : String) : String := ⟨s.data.map Char.toLower⟩

/-- `_normStr_(v)` from CandidatesSync.gs: stringify and trim. -/
def normStr (s : String) : String := trimS s

/-- Split a character list at every occurrence of the separator character,
like JS `String.prototype.split` with a one-character separator. -/
def splitOnC (sep : Char) : List Char → List (List Char)
  | [] => [[]]
  | c :: rest =>
    let r := splitOnC sep rest
    if c = sep then [] :: r
    else (c :: r.headD []) :: r.tail

/-- The segment of a string before its first `sep`, i.e. `s.split(sep)[0]`. -/
def takeUntilC (sep : Char) : List Char → List Char
  | [] => []
  | c :: rest => if c = sep then [] else c :: takeUntilC sep rest

/-- `normEmail` from Util.gs: lowercase + trim; for the gmail family
additionally remove dots from the local part and drop any `+tag` suffix,
rebuilding the address on the `gmail.com` domain. -/
def normEmail (s : String) : String :=
  let email : List Char := (trimL s.data).map Char.toLower
  if email = [] ∨ ¬ email.contains '@' then ⟨email⟩
  else
    let parts := splitOnC '@' email
    if parts.length ≠ 2 then ⟨email⟩
    else
      let locl := parts.headD []
      let domain := (parts.tail).headD []
      if domain = "gmail.com".data ∨ domain = "googlemail.com".data then
        let cleanLocal := takeUntilC '+' (locl.filter (fun c => c ≠ '.'))
        ⟨cleanLocal ++ "@gmail.com".data⟩
      else ⟨email⟩

/-- `normPhone` from Util.gs: strip all non-digit characters. -/
def normPhone (s : String) : String := ⟨s.data.filter Char.isDigit⟩

/-- Helper for `natDecimal`: most-significant-first digits of `n`, with
explicit fuel so the recursion is structural. -/
def natDecimalAux : Nat → Nat → List Char
  | 0, _ => []
  | fuel + 1, n =>
    if n = 0 then []
    else natDecimalAux fuel (n / 10) ++ [Char.ofNat (48 + n % 10)]

/-- Decimal representation of a natural number (the digits produced by JS
string coercion of `Date.now()`). -/
def natDecimal (n : Nat) : List Char :=
  if n = 0 then ['0'] else natDecimalAux (n + 1) n

/-- Value of a most-significant-first digit list, used to show `natDecimal`
is injective. -/
def decimalVal (l : List Char) : Nat :=
  l.foldl (fun a c => a * 10 + (c.toNat - 48)) 0

/-- `keyFor(jobId, email)` from Util.gs.  `now` models the `Date.now()`
reading taken when both identity components are empty. -/
def keyFor (now : Nat) (jobId email : String) : String :=
  let jid := trimS jobId
  let em := normEmail email
  if jid = "" ∧ em = "" then ⟨"_EMPTY_KEY_".data ++ natDecimal now⟩
  else jid ++ "|" ++ em

/-- `_canonReqStatus_` from CandidatesSync.gs: trim/lowercase, map the five
known statuses to their canonical spelling, title-case anything else. -/
def canonReqStatus (sRaw : String) : String :=
  let s : List Char := (trimL sRaw.data).map Char.toLower
  if s = [] then ""
  else if s = "open".data then "Open"
  else if s = "on hold".data then "On Hold"
  else if s = "closed".data then "Closed"
  else if s = "pending approval".data then "Pending Approval"
  else if s = "hired".data then "Hired"
  else ⟨(s.headD ' ').toUpper :: s.tail⟩

/-- `_isOpenForActive_` from CandidatesSync.gs. -/
def isOpenForActive (status : String) : Bool :=
  decide (canonReqStatus status = "Open") || decide (canonReqStatus status = "On Hold")

/-- Does the string parse under the JS numeric literal test
`/^-?\d+(\.\d+)?$/` used by `_valsEqual_`?  Returns the exact rational value
as (integer numerator, number of decimal places). -/
def parseNumLit (l : List Char) : Option (Int × Nat) :=
  let core : List Char → Option (Int × Nat) := fun ds =>
    match splitOnC '.' ds with
    | [intPart] =>
      if intPart ≠ [] ∧ intPart.all Char.isDigit then
        some (Int.ofNat (decimalVal intPart), 0)
      else none
    | [intPart, fracPart] =>
      if intPart ≠ [] ∧ intPart.all Char.isDigit ∧
         fracPart ≠ [] ∧ fracPart.all Char.isDigit then
        some (Int.ofNat (decimalVal (intPart ++ fracPart)), fracPart.length)
      else none
    | _ => none
  match l with
  | '-' :: rest => (core rest).map (fun p => (-p.1, p.2))
  | _ => core l

/-- `_valsEqual_` from CandidatesSync.gs, restricted to string cell values:
if both sides look numeric compare them as numbers, otherwise compare the
trimmed strings. -/
def valsEqual (a b : String) : Bool :=
  match parseNumLit a.data, parseNumLit b.data with
  | some (m₁, k₁), some (m₂, k₂) => decide (m₁ * (10 : Int) ^ k₂ = m₂ * (10 : Int) ^ k₁)
  | _, _ => trimS a = trimS b

/-- The Candidate Database / Active Candidates columns that the
synchronization engine reads or writes (H_ALL / H_ACT in Constants.gs;
columns the engine never touches are omitted). -/
inductive CField
  | fullName
  | resume
  | linkedin
  | phone
  | email
  | city
  | state
  | targetSalary
  | targetHourly
  | jobId
  | jobStatus
  | jobTitle
  | stage
  | rejectedReason
  | interviewNotes
  | created
  | updated
  | hiredDate
deriving DecidableEq, Repr

/-- A Candidate Database or Active Candidates row; every cell is modelled by
its displayed string value. -/
structure CRow where
  fullName : String := ""
  resume : String := ""
  linkedin : String := ""
  phone : String := ""
  email : String := ""
  city : String := ""
  state : String := ""
  targetSalary : String := ""
  targetHourly : String := ""
  jobId : String := ""
  jobStatus : String := ""
  jobTitle : String := ""
  stage : String := ""
  rejectedReason : String := ""
  interviewNotes : String := ""
  created : String := ""
  updated : String := ""
  hiredDate : String := ""
deriving DecidableEq, Repr

/-- Read a cell of a candidate row by column. -/
def CRow.get (r : CRow) : CField → String
  | .fullName => r.fullName
  | .resume => r.resume
  | .linkedin => r.linkedin
  | .phone => r.phone
  | .email => r.email
  | .city => r.city
  | .state => r.state
  | .targetSalary => r.targetSalary
  | .targetHourly => r.targetHourly
  | .jobId => r.jobId
  | .jobStatus => r.jobStatus
  | .jobTitle => r.jobTitle
  | .stage => r.stage
  | .rejectedReason => r.rejectedReason
  | .interviewNotes => r.interviewNotes
  | .created => r.created
  | .updated => r.updated
  | .hiredDate => r.hiredDate

/-- Write a cell of a candidate row by column. -/
def CRow.set (r : CRow) : CField → String → CRow
  | .fullName, v => { r with fullName := v }
  | .resume, v => { r with resume := v }
  | .linkedin, v => { r with linkedin := v }
  | .phone, v => { r with phone := v }
  | .email, v => { r with email := v }
  | .city, v => { r with city := v }
  | .state, v => { r with state := v }
  | .targetSalary, v => { r with targetSalary := v }
  | .targetHourly, v => { r with targetHourly := v }
  | .jobId, v => { r with jobId := v }
  | .jobStatus, v => { r with jobStatus := v }
  | .jobTitle, v => { r with jobTitle := v }
  | .stage, v => { r with stage := v }
  | .rejectedReason, v => { r with rejectedReason := v }
  | .interviewNotes, v => { r with interviewNotes := v }
  | .created, v => { r with created := v }
  | .updated, v => { r with updated := v }
  | .hiredDate, v => { r with hiredDate := v }

/-- Apply a field-map write (`setRowValuesByHeaders`) to a row. -/
def applyPairs (r : CRow) (ps : List (CField × String)) : CRow :=
  ps.foldl (fun acc p => acc.set p.1 p.2) r

/-- `MIRRORED_FIELDS` from Constants.gs, in source order. -/
def mirroredFields : List CField :=
  [.stage, .rejectedReason, .interviewNotes, .resume, .linkedin, .phone,
   .email, .city, .state, .targetSalary, .targetHourly, .jobTitle,
   .jobStatus, .fullName, .jobId, .created, .hiredDate]

/-- The columns present on the Active Candidates sheet (H_ACT). -/
def actFields : List CField :=
  [.fullName, .jobId, .jobStatus, .jobTitle, .stage, .rejectedReason,
   .interviewNotes, .resume, .linkedin, .phone, .email, .city, .state,
   .targetSalary, .targetHourly]

/-- The fields `_upsertActiveRow_` mirrors into an Active row: every
mirrored field except the link columns, restricted to H_ACT columns. -/
def desiredFields : List CField :=
  mirroredFields.filter
    (fun f => decide (f ≠ .resume) && decide (f ≠ .linkedin) && decide (f ∈ actFields))

/-- `_diffFields_(sourceObj, targetObj, Object.keys(sourceObj))` where the
source object is given as an explicit field/value list: keep the entries
whose value differs (`_valsEqual_`) from the target row's cell. -/
def diffPairs (want : List (CField × String)) (cur : CRow) : List (CField × String) :=
  want.filter (fun fv => ¬ valsEqual fv.2 (cur.get fv.1))

/-- A Requisitions row (H_REQ columns the engine touches); date cells are
modelled by their displayed value, the empty string meaning "unset". -/
structure ReqRow where
  jobId : String := ""
  jobTitle : String := ""
  jobStatus : String := ""
  opened : String := ""
  onHoldDate : String := ""
  closedDate : String := ""
  positionHiredDate : String := ""
  hiredCandidateName : String := ""
deriving DecidableEq, Repr

/-- Data rows sit below the single header row: list index `i` is sheet row
`i + 2`. -/
def dataStart : Nat := 2

/-- Read a sheet row of a candidate table (list index `row - dataStart`). -/
def getCRowAt (rows : List CRow) (row : Nat) : CRow :=
  (rows.drop (row - dataStart)).headD {}

/-- Write a field map to a sheet row of a candidate table. -/
def writeCRowAt (rows : List CRow) (row : Nat) (ps : List (CField × String)) :
    List CRow :=
  rows.set (row - dataStart) (applyPairs (getCRowAt rows row) ps)

/-- Read a sheet row of the Requisitions table. -/
def getReqAt (rows : List ReqRow) (row : Nat) : ReqRow :=
  (rows.drop (row - dataStart)).headD {}

/-- The identity components `buildCandidateIndex` extracts from a row. -/
def rowJid (r : CRow) : String := trimS r.jobId

/-- Normalized email component of a row's identity. -/
def rowEm (r : CRow) : String := normEmail r.email

/-- Does the row enter the candidate index (`jid || em`)? -/
def rowKeyed (r : CRow) : Bool :=
  decide (rowJid r ≠ "") || decide (rowEm r ≠ "")

/-- The composite key `buildCandidateIndex` files the row under. -/
def rowKeyStr (r : CRow) : String := keyFor 0 (rowJid r) (rowEm r)

/-- JS `Map.set`: overwrite the value of an existing key in place (keeping
its position), else append the binding. -/
def mapSet (m : List (String × Nat)) (k : String) (v : Nat) : List (String × Nat) :=
  if m.any (fun p => p.1 = k) then
    m.map (fun p => if p.1 = k then (k, v) else p)
  else m ++ [(k, v)]

/-- JS `Map.get` (the key's unique binding). -/
def mapGet (m : List (String × Nat)) (k : String) : Option Nat :=
  (m.find? (fun p => p.1 = k)).map Prod.snd

/-- Index half of `buildCandidateIndex`: walk the data rows accumulating a
key → sheet-row map. -/
def buildCandIdxAux (pos : Nat) (acc : List (String × Nat)) :
    List CRow → List (String × Nat)
  | [] => acc
  | r :: rest =>
    buildCandIdxAux (pos + 1)
      (if rowKeyed r then mapSet acc (rowKeyStr r) pos else acc) rest

/-- `buildCandidateIndex(...).index`. -/
def buildCandIdx (rows : List CRow) : List (String × Nat) :=
  buildCandIdxAux dataStart [] rows

/-- `buildCandidateIndex(...).rows`: the `{row, data}` snapshots, which the
source collects for exactly the keyed rows. -/
def buildCandRows (pos : Nat) : List CRow → List (Nat × CRow)
  | [] => []
  | r :: rest =>
    if rowKeyed r then (pos, r) :: buildCandRows (pos + 1) rest
    else buildCandRows (pos + 1) rest

/-- Index half of `buildReqIndex`: job ID → sheet row (blank IDs skipped). -/
def buildReqIdxAux (pos : Nat) (acc : List (String × Nat)) :
    List ReqRow → List (String × Nat)
  | [] => acc
  | r :: rest =>
    buildReqIdxAux (pos + 1)
      (if trimS r.jobId ≠ "" then mapSet acc (trimS r.jobId) pos else acc) rest

/-- `buildReqIndex(...).idx`. -/
def buildReqIdx (rows : List ReqRow) : List (String × Nat) :=
  buildReqIdxAux dataStart [] rows

/-- One row of `applyReqStatusTransitionsForRows_` (Requisitions.gs): build
the update map from the current row values and apply it.  All reads (the
`rowObj[...]` accesses) are from the row as it stood before the write. -/
def reqRowTransition (now : String) (rowObj : ReqRow) : ReqRow :=
  let status := normStr rowObj.jobStatus
  let r :=
    if status ≠ "Hired" ∧ rowObj.hiredCandidateName ≠ "" then
      { rowObj with hiredCandidateName := "" }
    else rowObj
  if status = "Open" then
    { r with
      opened := if rowObj.opened = "" then now else r.opened,
      onHoldDate := if rowObj.onHoldDate ≠ "" then "" else r.onHoldDate,
      closedDate := if rowObj.closedDate ≠ "" then "" else r.closedDate,
      positionHiredDate :=
        if rowObj.positionHiredDate ≠ "" then "" else r.positionHiredDate }
  else if status = "On Hold" then
    { r with
      onHoldDate := if rowObj.onHoldDate = "" then now else r.onHoldDate,
      closedDate := if rowObj.closedDate ≠ "" then "" else r.closedDate,
      positionHiredDate :=
        if rowObj.positionHiredDate ≠ "" then "" else r.positionHiredDate }
  else if status = "Closed" then
    { r with closedDate := if rowObj.closedDate = "" then now else r.closedDate }
  else if status = "Hired" then
    { r with
      positionHiredDate :=
        if rowObj.positionHiredDate = "" then now else r.positionHiredDate,
      closedDate := if rowObj.closedDate = "" then now else r.closedDate }
  else r

/-- `applyReqStatusTransitionsForRows_(rows)`: run the transition on each
listed sheet row (rows above the data area are skipped). -/
def applyReqStatusTransitionsForRows (rows : List Nat) (now : String)
    (reqs : List ReqRow) : List ReqRow :=
  rows.foldl
    (fun acc row =>
      if row < dataStart then acc
      else acc.set (row - dataStart) (reqRowTransition now (getReqAt acc row)))
    reqs

/-- The three synchronized tables. -/
structure SyncState where
  reqs : List ReqRow := []
  allRows : List CRow := []
  actRows : List CRow := []
deriving DecidableEq, Repr

/-- `applyHiredFlow_(jobId, hiredFullName, hiredEmail)` from CandidatesSync.gs.
`processing` models the module-level `_processingHiredFlow` re-entrancy flag
at entry. -/
def applyHiredFlow (processing : Bool) (now : String)
    (jobId hiredFullName hiredEmail : String) (st : SyncState) : SyncState :=
  if processing then st
  else
    let st1 :=
      match mapGet (buildReqIdx st.reqs) jobId with
      | none => st
      | some reqRow =>
        let reqObj := getReqAt st.reqs reqRow
        let upStatus := canonReqStatus reqObj.jobStatus ≠ "Hired"
        let upName := hiredFullName ≠ "" ∧
          normStr reqObj.hiredCandidateName ≠ normStr hiredFullName
        if upStatus ∨ upName then
          let r1 := if upStatus then { reqObj with jobStatus := "Hired" } else reqObj
          let r2 := if upName then { r1 with hiredCandidateName := hiredFullName } else r1
          let reqs1 := st.reqs.set (reqRow - dataStart) r2
          { st with reqs := applyReqStatusTransitionsForRows [reqRow] now reqs1 }
        else st
    let candRows := buildCandRows dataStart st1.allRows
    let allRows2 :=
      candRows.foldl
        (fun acc pr =>
          let candJobId := normStr pr.2.jobId
          let candEmail := normEmail pr.2.email
          if candJobId = jobId ∧ candEmail ≠ hiredEmail then
            let currentStage := normStr pr.2.stage
            if currentStage ≠ "Hired" ∧ currentStage ≠ "Rejected" then
              writeCRowAt acc pr.1
                [(CField.stage, "Rejected"),
                 (CField.rejectedReason, "Hired a Different Candidate"),
                 (CField.updated, now)]
            else acc
          else acc)
        st1.allRows
    { st1 with allRows := allRows2 }

/-- Case-insensitive prefix test (`pre` given in lowercase). -/
def startsWithCI (pre : List Char) (l : List Char) : Bool :=
  decide ((l.take pre.length).map Char.toLower = pre)

/-- Can a character be matched by the JS regex `.` (no `s` flag)? -/
def dotOk (c : Char) : Bool :=
  !(decide (c = '\n') || decide (c = '\r') ||
    decide (c.toNat = 0x2028) || decide (c.toNat = 0x2029))

/-- One alternative of the `setHyperlink` URL pattern: the protocol prefix
(case-insensitively) followed by `.+`. -/
def protoThenRest (pre : String) (l : List Char) : Bool :=
  startsWithCI pre.data l &&
    (match l.drop pre.data.length with
     | [] => false
     | c :: _ => dotOk c)

/-- The `setHyperlink` validation `/^(https?:\/\/.+|mailto:.+|tel:.+)/i`. -/
def validUrl (u : String) : Bool :=
  protoThenRest "http://" u.data || protoThenRest "https://" u.data ||
    protoThenRest "mailto:" u.data || protoThenRest "tel:" u.data

/-- `extractUrl` applied to a plain-text cell: a string starting with
`http://` or `https://` (case-insensitively) is returned trimmed, anything
else yields the empty string. -/
def extractUrlVal (v : String) : String :=
  if startsWithCI "http://".data v.data || startsWithCI "https://".data v.data then
    trimS v
  else ""

/-- Observable effect of `setHyperlink(sh, row, col, url, label)` on the
cell's displayed value: when the trimmed URL is non-empty and matches the
protocol pattern the cell shows the label of the written `HYPERLINK`
formula, otherwise the cell is left unchanged. -/
def setHyperlinkVal (cur url label : String) : String :=
  let u := trimS url
  if u = "" then cur
  else if ¬ validUrl u then cur
  else label

/-- The hyperlink writes at the end of `_upsertActiveRow_`: the value the
target Active row holds after the four `setHyperlink` calls. -/
def linkRow (allRows actRows : List CRow) (targetRow rowNum : Nat)
    (data : CRow) (resumeUrl linkedinUrl : String) : CRow :=
  let rUrl := if resumeUrl ≠ "" then resumeUrl
    else extractUrlVal (getCRowAt allRows rowNum).resume
  let lUrl := if linkedinUrl ≠ "" then linkedinUrl
    else extractUrlVal (getCRowAt allRows rowNum).linkedin
  let a0 := getCRowAt actRows targetRow
  let a1 := if rUrl ≠ "" then
      { a0 with resume := setHyperlinkVal a0.resume rUrl "Resume" }
    else a0
  let a2 := if lUrl ≠ "" then
      { a1 with linkedin := setHyperlinkVal a1.linkedin lUrl "LinkedIn Profile" }
    else a1
  let email := normEmail data.email
  let a3 := if email ≠ "" then
      { a2 with email := setHyperlinkVal a2.email ("mailto:" ++ email) email }
    else a2
  let phone := normPhone data.phone
  if phone ≠ "" ∧ phone.length ≥ 10 then
    { a3 with phone := (setHyperlinkVal a3.phone ("tel:" ++ phone)
        (if data.phone ≠ "" then data.phone else phone)) }
  else a3

/-- The hyperlink writes at the end of `_upsertActiveRow_`, applied to the
target Active row. -/
def applyLinksAt (allRows actRows : List CRow) (targetRow rowNum : Nat)
    (data : CRow) (resumeUrl linkedinUrl : String) : List CRow :=
  actRows.set (targetRow - dataStart)
    (linkRow allRows actRows targetRow rowNum data resumeUrl linkedinUrl)

/-- `_upsertActiveRow_(allRowObj, linkPayload)`: the updated Active table,
the number of appended rows (0 or 1) and the number of non-empty diff
writes (0 or 1). -/
def upsertActiveRow (allRows actRows : List CRow) (rowNum : Nat) (data : CRow)
    (resumeUrl linkedinUrl : String) : List CRow × Nat × Nat :=
  let jobId := normStr data.jobId
  let email := normEmail data.email
  if jobId = "" ∨ email = "" then (actRows, 0, 0)
  else
    let idxAct := buildCandIdx actRows
    let desired := desiredFields.map (fun f => (f, data.get f))
    match mapGet idxAct (keyFor 0 jobId email) with
    | some existingRow =>
      let current := getCRowAt actRows existingRow
      let diff := diffPairs desired current
      let actRows1 :=
        if diff ≠ [] then writeCRowAt actRows existingRow diff else actRows
      (applyLinksAt allRows actRows1 existingRow rowNum data resumeUrl linkedinUrl,
       0, if diff ≠ [] then 1 else 0)
    | none =>
      let targetRow := actRows.length + dataStart
      let actRows1 := actRows ++ [applyPairs {} desired]
      (applyLinksAt allRows actRows1 targetRow rowNum data resumeUrl linkedinUrl,
       1, 0)

/-- The job-ID scope filter of `reconcileActiveMembership_ByJobIds_`. -/
def filterJobF (jobIds : List String) (jid : String) : Bool :=
  decide (jobIds = []) || decide (jid ∈ jobIds)

/-- The deletion pass of `reconcileActiveMembership_ByJobIds_`: the Active
sheet rows to delete, in Active-index iteration order. -/
def reconcileDeletePass (st : SyncState) (jobIds : List String) : List Nat :=
  let idxAct := buildCandIdx st.actRows
  let idxAll := buildCandIdx st.allRows
  let reqIdx := buildReqIdx st.reqs
  idxAct.filterMap (fun kv =>
    let jid : String := ⟨takeUntilC '|' kv.1.data⟩
    if ¬ filterJobF jobIds jid then none
    else
      let inAll := (mapGet idxAll kv.1).isSome
      let status :=
        match mapGet reqIdx jid with
        | some reqRow => (getReqAt st.reqs reqRow).jobStatus
        | none => ""
      if inAll ∧ isOpenForActive status then none else some kv.2)

/-- Insert into a descending list. -/
def insertDesc (x : Nat) : List Nat → List Nat
  | [] => [x]
  | y :: rest => if x ≥ y then x :: y :: rest else y :: insertDesc x rest

/-- `toDelete.sort((a,b) => b - a)`. -/
def sortDesc (l : List Nat) : List Nat := l.foldr insertDesc []

/-- Apply the collected deletions in descending sheet-row order. -/
def applyDeletes (rows : List CRow) (dels : List Nat) : List CRow :=
  (sortDesc dels).foldl (fun acc r => acc.eraseIdx (r - dataStart)) rows

/-- Mutable state of the upsert loop of
`reconcileActiveMembership_ByJobIds_`, together with the write counters
that make up the run's trace. -/
structure RecAcc where
  allRows : List CRow
  actRows : List CRow
  processed : List String
  allWrites : Nat
  actWrites : Nat
  inserted : Nat
deriving DecidableEq, Repr

/-- One iteration of the upsert loop, for the snapshot entry `(row, data)`. -/
def reconcileStep (reqs : List ReqRow) (reqIdx : List (String × Nat))
    (muted : List String) (now : String) (jobIds : List String)
    (acc : RecAcc) (pr : Nat × CRow) : RecAcc :=
  let row := pr.1
  let data0 := pr.2
  let jid := normStr data0.jobId
  let eml := normEmail data0.email
  if jid = "" ∨ eml = "" ∨ ¬ filterJobF jobIds jid then acc
  else
    let k := keyFor 0 jid eml
    if k ∈ acc.processed then acc
    else
      let processed1 := k :: acc.processed
      match mapGet reqIdx jid with
      | none => { acc with processed := processed1 }
      | some reqRow =>
        let rObj := getReqAt reqs reqRow
        let reqStatusCanon := canonReqStatus rObj.jobStatus
        let reqTitle := rObj.jobTitle
        let diffAll :=
          diffPairs [(CField.jobTitle, reqTitle), (CField.jobStatus, reqStatusCanon)] data0
        let wr :=
          if diffAll ≠ [] then
            let diffAll1 := diffAll ++ [(CField.updated, now)]
            (writeCRowAt acc.allRows row diffAll1, applyPairs data0 diffAll1,
             acc.allWrites + 1)
          else (acc.allRows, data0, acc.allWrites)
        let allRows1 := wr.1
        let data := wr.2.1
        let allWrites1 := wr.2.2
        let resumeUrl := extractUrlVal (getCRowAt allRows1 row).resume
        let linkedinUrl := extractUrlVal (getCRowAt allRows1 row).linkedin
        if isOpenForActive reqStatusCanon ∧ ¬ (k ∈ muted) then
          let u := upsertActiveRow allRows1 acc.actRows row data resumeUrl linkedinUrl
          { allRows := allRows1, actRows := u.1, processed := processed1,
            allWrites := allWrites1, actWrites := acc.actWrites + u.2.2,
            inserted := acc.inserted + u.2.1 }
        else
          { acc with
            allRows := allRows1, allWrites := allWrites1,
            processed := processed1 }

/-- The writes a reconciliation run performs. -/
structure RecTrace where
  deleted : List Nat := []
  inserted : Nat := 0
  allWrites : Nat := 0
  actWrites : Nat := 0
deriving DecidableEq, Repr

/-- `reconcileActiveMembership_ByJobIds_(jobIds)` (an empty list means the
full-table run), with `muted` the set of composite keys currently in the
"recently edited" guard cache and `now` the `nowDetroit()` reading. -/
def reconcileByJobIds (muted : List String) (now : String)
    (jobIds : List String) (st : SyncState) : SyncState × RecTrace :=
  let reqIdx := buildReqIdx st.reqs
  let allSnap := buildCandRows dataStart st.allRows
  let toDelete := reconcileDeletePass st jobIds
  let actRows0 := applyDeletes st.actRows toDelete
  let relevantRows :=
    if jobIds ≠ [] then allSnap.filter (fun pr => normStr pr.2.jobId ∈ jobIds)
    else allSnap
  let accF := relevantRows.foldl (reconcileStep st.reqs reqIdx muted now jobIds)
    ⟨st.allRows, actRows0, [], 0, 0, 0⟩
  ({ st with allRows := accF.allRows, actRows := accF.actRows },
   { deleted := toDelete, inserted := accF.inserted,
     allWrites := accF.allWrites, actWrites := accF.actWrites })

/-- `reconcileActiveMembership_All_()`. -/
def reconcileFull (muted : List String) (now : String) (st : SyncState) :
    SyncState × RecTrace :=
  reconcileByJobIds muted now [] st

/-- The scan of `enforceUniqueEmail_`: walk the data rows recording first
occurrences of each non-empty normalized email and collecting the edited
rows whose email was already seen. -/
def scanDupEmails (pos : Nat) (seen : List String) (edits : List Nat) :
    List CRow → List Nat
  | [] => []
  | r :: rest =>
    let email := normEmail r.email
    if email = "" then scanDupEmails (pos + 1) seen edits rest
    else if ¬ (email ∈ seen) then scanDupEmails (pos + 1) (seen ++ [email]) edits rest
    else if pos ∈ edits then pos :: scanDupEmails (pos + 1) seen edits rest
    else scanDupEmails (pos + 1) seen edits rest

/-- `enforceUniqueEmail_(sh, rows)`: blank the Email cell of every collected
duplicate row (the source batches contiguous rows into one write; the cells
written are the same). -/
def enforceUniqueEmail (allRows : List CRow) (edits : List Nat) : List CRow :=
  let rowsToClear := scanDupEmails dataStart [] edits allRows
  rowsToClear.foldl (fun acc r => writeCRowAt acc r [(CField.email, "")]) allRows

/-!
### Calendar model for `businessDaysBetween`

JS `Date` values are modelled as instants.  A local (script time zone,
`America/New_York`) wall-clock reading is a civil day number (days since
1970-01-01) plus minutes within the day; UTC instants are minutes since the
epoch.  The civil ↔ day-number conversions follow the standard proleptic
Gregorian algorithms; `America/New_York` is UTC-5, observing DST (UTC-4)
from the second Sunday of March 02:00 to the first Sunday of November
02:00. -/

/-- Day count since 1970-01-01 of the civil date `(y, m, d)`. -/
def daysFromCivil (y m d : Int) : Int :=
  let y1 := if m ≤ 2 then y - 1 else y
  let era := Int.fdiv y1 400
  let yoe := y1 - era * 400
  let mp := m + (if m > 2 then -3 else 9)
  let doy := Int.fdiv (153 * mp + 2) 5 + d - 1
  let doe := yoe * 365 + Int.fdiv yoe 4 - Int.fdiv yoe 100 + doy
  era * 146097 + doe - 719468

/-- Civil date `(y, m, d)` of a day count since 1970-01-01. -/
def civilFromDays (z0 : Int) : Int × Int × Int :=
  let z := z0 + 719468
  let era := Int.fdiv z 146097
  let doe := z - era * 146097
  let yoe := Int.fdiv
    (doe - Int.fdiv doe 1460 + Int.fdiv doe 36524 - Int.fdiv doe 146096) 365
  let y := yoe + era * 400
  let doy := doe - (365 * yoe + Int.fdiv yoe 4 - Int.fdiv yoe 100)
  let mp := Int.fdiv (5 * doy + 2) 153
  let d := doy - Int.fdiv (153 * mp + 2) 5 + 1
  let m := mp + (if mp < 10 then 3 else -9)
  (if m ≤ 2 then y + 1 else y, m, d)

/-- JS `getDay()` on a local day number: 0 = Sunday … 6 = Saturday
(1970-01-01 was a Thursday). -/
def weekday (day : Int) : Int := Int.emod (day + 4) 7

/-- Day number of the first Sunday on or after the given day. -/
def sundayOnOrAfter (day : Int) : Int :=
  day + Int.emod (7 - weekday day) 7

/-- Day number of the second Sunday of March of year `y` (US DST start). -/
def dstStartDay (y : Int) : Int := sundayOnOrAfter (daysFromCivil y 3 1) + 7

/-- Day number of the first Sunday of November of year `y` (US DST end). -/
def dstEndDay (y : Int) : Int := sundayOnOrAfter (daysFromCivil y 11 1)

/-- Is a local `America/New_York` wall-clock reading inside DST?  On the
transition days the 02:00 boundaries are resolved in favour of the side a
spreadsheet-relevant instant (midnights, evenings) actually lies on. -/
def nyInDst (day min : Int) : Bool :=
  let y := (civilFromDays day).1
  let s := dstStartDay y
  let e := dstEndDay y
  decide ((s < day ∧ day < e) ∨ (day = s ∧ min ≥ 180) ∨ (day = e ∧ min < 60))

/-- Offset (minutes to add to local wall-clock time to reach UTC). -/
def nyOffset (day min : Int) : Int := if nyInDst day min then 240 else 300

/-- A local wall-clock instant: civil day number plus minutes within day. -/
structure LocalInstant where
  day : Int
  min : Int
deriving DecidableEq, Repr

/-- Epoch minutes (UTC) of a local instant. -/
def utcOfLocal (t : LocalInstant) : Int :=
  t.day * 1440 + t.min + nyOffset t.day t.min

/-- Local civil day holding a UTC epoch-minute instant. -/
def localDayOfUtc (u : Int) : Int :=
  let guess := u - 300
  let l := if nyInDst (Int.fdiv guess 1440) (Int.emod guess 1440) then u - 240
    else guess
  Int.fdiv l 1440

/-- Parse a digit string. -/
def parseNatDigits (l : List Char) : Option Nat :=
  if l ≠ [] ∧ l.all Char.isDigit then some (decimalVal l) else none

/-- Parse a `yyyy-MM-dd` holiday entry (`new Date(str)` treats it as UTC
midnight of that civil date). -/
def parseIsoDate (s : String) : Option (Int × Int × Int) :=
  match splitOnC '-' s.data with
  | [ys, ms, ds] =>
    match parseNatDigits ys, parseNatDigits ms, parseNatDigits ds with
    | some y, some m, some d => some ((y : Int), (m : Int), (d : Int))
    | _, _, _ => none
  | _ => none

/-- Left-pad a numeral to the given width with zeros. -/
def padNum (width : Nat) (n : Nat) : List Char :=
  let ds := natDecimal n
  List.replicate (width - ds.length) '0' ++ ds

/-- `Utilities.formatDate(d, TZ, 'yyyy-MM-dd')` of a local civil day. -/
def civilString (day : Int) : String :=
  let c := civilFromDays day
  ⟨padNum 4 c.1.toNat ++ '-' :: padNum 2 c.2.1.toNat ++ '-' :: padNum 2 c.2.2.toNat⟩

/-- The `US_HOLIDAYS` table from Util.gs. -/
def usHolidays : List String :=
  ["2024-01-01", "2024-01-15", "2024-02-19", "2024-05-27", "2024-07-04",
   "2024-09-02", "2024-10-14", "2024-11-11", "2024-11-28", "2024-12-25",
   "2025-01-01", "2025-01-20", "2025-02-17", "2025-05-26", "2025-07-04",
   "2025-09-01", "2025-10-13", "2025-11-11", "2025-11-27", "2025-12-25",
   "2026-01-01", "2026-01-19", "2026-02-16", "2026-05-25", "2026-07-03",
   "2026-09-07", "2026-10-12", "2026-11-11", "2026-11-26", "2026-12-25"]

/-- The remaining-days loop of the optimized branch: count non-weekend days
among `d0, d0+1, …, d0+n-1`. -/
def countRemWeekdays (d0 : Int) : Nat → Nat
  | 0 => 0
  | n + 1 =>
    countRemWeekdays d0 n +
      (if weekday (d0 + n) ≠ 0 ∧ weekday (d0 + n) ≠ 6 then 1 else 0)

/-- The day-by-day loop used by `businessDaysBetween` for short ranges
(`for (d = s; d < e; d.setDate(d.getDate()+1))`), with explicit fuel; the
callers supply enough fuel for the loop to terminate on its own test. -/
def dayByDayAux (fuel : Nat) (day : Int) (eu : Int) (n : Nat) : Nat :=
  match fuel with
  | 0 => n
  | fuel + 1 =>
    if utcOfLocal ⟨day, 0⟩ < eu then
      let k := weekday day
      let n1 :=
        if k ≠ 0 ∧ k ≠ 6 ∧ ¬ (civilString day ∈ usHolidays) then n + 1 else n
      dayByDayAux fuel (day + 1) eu n1
    else n

/-- The short-range reference loop of `businessDaysBetween`, from local
midnight of `a.day` while before local midnight of `b.day`. -/
def dayByDayBusinessDays (a b : LocalInstant) : Nat :=
  dayByDayAux ((b.day - a.day).toNat + 1) a.day (utcOfLocal ⟨b.day, 0⟩) 0

/-- `businessDaysBetween(a, b)` from Util.gs.  `setHours(0,0,0,0)` floors
each input to its local midnight; the subtraction, the `>`/`<` comparisons
and the holiday parses all happen on epoch instants exactly as JS `Date`
does them (a `yyyy-MM-dd` string parses as UTC midnight). -/
def businessDaysBetween (a b : LocalInstant) : Int :=
  let s : LocalInstant := ⟨a.day, 0⟩
  let e : LocalInstant := ⟨b.day, 0⟩
  let su := utcOfLocal s
  let eu := utcOfLocal e
  if eu ≤ su then 0
  else
    let totalDays := Int.fdiv (eu - su) 1440
    if totalDays > 14 then
      let fullWeeks := Int.fdiv totalDays 7
      let remainingDays := Int.emod totalDays 7
      let base := fullWeeks * 5 + (countRemWeekdays (s.day + fullWeeks * 7) remainingDays.toNat : Int)
      usHolidays.foldl
        (fun acc h =>
          match parseIsoDate h with
          | some (y, m, d) =>
            let hu := daysFromCivil y m d * 1440
            if hu ≥ su ∧ hu < eu ∧
                weekday (localDayOfUtc hu) ≠ 0 ∧ weekday (localDayOfUtc hu) ≠ 6 then
              acc - 1
            else acc
          | none => acc)
        base
    else (dayByDayBusinessDays a b : Int)

/-- The business-day count the specification describes: the Mon–Fri days in
`[a, b)` that are not in the fixed US holiday calendar. -/
def businessDaysSpec (a b : LocalInstant) : Nat :=
  (List.range (b.day - a.day).toNat).countP
    (fun i =>
      let d := a.day + i
      decide (weekday d ≠ 0) && decide (weekday d ≠ 6) &&
        decide (¬ (civilString d ∈ usHolidays)))

/-!
### Debounce queue model (DebounceQueue.gs)

The persisted `ATS:queue:jobIds` document property holds either the JSON
serialization of a string array or the literal sentinel `'all'`;
`JSON.parse ∘ JSON.stringify` is the identity on string arrays, so the
property is modelled by its parsed value.  Installed triggers carry the ids
`ScriptApp` would hand out, modelled by a counter. -/

/-- Parsed contents of the persisted reconcile queue property. -/
inductive QVal
  | all
  | ids (l : List String)
deriving DecidableEq, Repr

/-- An installed Apps Script trigger. -/
structure QTrigger where
  id : Nat
  handler : String
deriving DecidableEq, Repr

/-- Document properties plus project triggers relevant to the queue. -/
structure QState where
  queueProp : Option QVal := none
  scheduledProp : Option Nat := none
  triggers : List QTrigger := []
  nextId : Nat := 0
deriving DecidableEq, Repr

/-- `_cleanupOrphanedTriggers_('Debounced_Reconcile_')`: the age test
`now - trigger.getTriggerSource()` subtracts an enum object, yielding `NaN`,
and `NaN > maxAge` is false, so the sweep never deletes anything. -/
def cleanupOrphanedTriggers (st : QState) : QState := st

/-- `ScriptApp.newTrigger('Debounced_Reconcile_')...create()` plus recording
its unique id under `ATS:queue:scheduled`. -/
def createReconcileTrigger (st : QState) : QState :=
  { st with
    triggers := st.triggers ++ [⟨st.nextId, "Debounced_Reconcile_"⟩],
    scheduledProp := some st.nextId,
    nextId := st.nextId + 1 }

/-- `_scheduleReconcileTrigger()`. -/
def scheduleReconcileTrigger (st0 : QState) : QState :=
  let st := cleanupOrphanedTriggers st0
  match st.scheduledProp with
  | some tid =>
    if st.triggers.any (fun t => t.id = tid) then st
    else createReconcileTrigger { st with scheduledProp := none }
  | none => createReconcileTrigger st

/-- `new Set([...existingIds, ...jobIds])` then `Array.from`: union keeping
first-occurrence order. -/
def dedupAppend (a b : List String) : List String :=
  (a ++ b).foldl (fun acc x => if x ∈ acc then acc else acc ++ [x]) []

/-- `enqueueAndSchedule_Reconcile(jobIds)` (the queue mini-lock is acquired;
the scenario is sequential). -/
def enqueueAndScheduleReconcile (jobIds : List String) (st : QState) : QState :=
  match st.queueProp with
  | some QVal.all => scheduleReconcileTrigger st
  | q =>
    let existingIds := match q with | some (QVal.ids l) => l | _ => []
    let merged := dedupAppend existingIds jobIds
    scheduleReconcileTrigger { st with queueProp := some (QVal.ids merged) }

/-- The job-ID scope the debounce worker (`Debounced_Reconcile_`) would
process from the persisted queue: `none` for "nothing to do", otherwise the
full-table sentinel or the parsed ID list. -/
def workerScope (st : QState) : Option QVal :=
  match st.queueProp with
  | none => none
  | some QVal.all => some QVal.all
  | some (QVal.ids l) => if l = [] then none else some (QVal.ids l)

/-!
### Hyperlink formula construction (`setHyperlink` / `_escapeForFormula_`) -/

/-- `_escapeForFormula_`: double every double-quote character. -/
def escapeForFormula : List Char → List Char
  | [] => []
  | c :: rest =>
    if c = '"' then '"' :: '"' :: escapeForFormula rest
    else c :: escapeForFormula rest

/-- The formula text `setHyperlink` writes when the URL passes validation:
`none` when the cell is left untouched. -/
def setHyperlinkFormula (url label : String) : Option String :=
  let u := trimS url
  if u = "" then none
  else if ¬ validUrl u then none
  else some ⟨"=HYPERLINK(\"".data ++ (escapeForFormula u.data ++
    '"' :: ',' :: '"' :: (escapeForFormula label.data ++ '"' :: [')']))⟩

/-- Read a double-quoted formula string argument (the cursor sits after the
opening quote): `""` decodes to a literal quote, a lone quote ends the
argument. -/
def parseQuotedArg : List Char → Option (List Char × List Char)
  | [] => none
  | '"' :: '"' :: rest =>
    (parseQuotedArg rest).map (fun p => ('"' :: p.1, p.2))
  | '"' :: rest => some ([], rest)
  | c :: rest => (parseQuotedArg rest).map (fun p => (c :: p.1, p.2))

/-- Parse a `=HYPERLINK("url","label")` formula back into the URL and label
a spreadsheet formula parser would see. -/
def parseHyperlinkFormula (s : String) : Option (String × String) :=
  let l := s.data
  let pre := "=HYPERLINK(\"".data
  if l.take pre.length = pre then
    match parseQuotedArg (l.drop pre.length) with
    | some (u, rest) =>
      match rest with
      | ',' :: '"' :: rest2 =>
        match parseQuotedArg rest2 with
        | some (lab, rest3) =>
          if rest3 = [')'] then some (⟨u⟩, ⟨lab⟩) else none
        | none => none
      | _ => none
    | none => none
  else none

/-- The uniqueness property C5 claims: every non-empty normalized email
appears on at most one row of the table. -/
def emailsGloballyUnique : List CRow → Bool
  | [] => true
  | r :: rest =>
    (decide (normEmail r.email = "") ||
      rest.all (fun s => decide (normEmail s.email ≠ normEmail r.email))) &&
    emailsGloballyUnique rest

/-- Modelled from the amended reading of C5: walking the table top to
bottom, blank the email of each edited row whose non-empty normalized email
already appears on an earlier row (judged on the original cell values);
every other row is untouched. -/
def clearSpecAux (prev : List CRow) (edits : List Nat) : List CRow → List CRow
  | [] => []
  | r :: rest =>
    (if decide ((dataStart + prev.length) ∈ edits) &&
        decide (normEmail r.email ≠ "") &&
        prev.any (fun s => decide (normEmail s.email = normEmail r.email)) then
      { r with email := "" }
     else r) :: clearSpecAux (prev ++ [r]) edits rest

/-- The table `clearSpecAux` predicts for a whole run. -/
def clearSpec (rows : List CRow) (edits : List Nat) : List CRow :=
  clearSpecAux [] edits rows

/-- The sheet rows `clearSpecAux` would blank, in sheet order. -/
def specClearPos (prev : List CRow) (edits : List Nat) : List CRow → List Nat
  | [] => []
  | r :: rest =>
    (if decide ((dataStart + prev.length) ∈ edits) &&
        decide (normEmail r.email ≠ "") &&
        prev.any (fun s => decide (normEmail s.email = normEmail r.email)) then
      [dataStart + prev.length]
     else []) ++ specClearPos (prev ++ [r]) edits rest

/-- The batched duplicate-clearing writes of `enforceUniqueEmail_`. -/
def applyClears (rows : List CRow) (ps : List Nat) : List CRow :=
  ps.foldl (fun acc r => writeCRowAt acc r [(CField.email, "")]) rows

/-!
### Abstract view of the index builders, used to reason about them -/

/-- The key under which a candidate row is indexed, if any. -/
def rowKeyOpt (r : CRow) : Option String :=
  if rowKeyed r then some (rowKeyStr r) else none

/-- The composite keys present in a candidate table, in row order. -/
def keysOf (rows : List CRow) : List String := rows.filterMap rowKeyOpt

/-- The key under which a requisition row is indexed, if any. -/
def reqKeyOpt (q : ReqRow) : Option String :=
  if trimS q.jobId ≠ "" then some (trimS q.jobId) else none

/-- The job IDs present in the Requisitions table, in row order. -/
def reqKeysOf (reqs : List ReqRow) : List String := reqs.filterMap reqKeyOpt

/-- Generic form of the index-builder loops. -/
def gBuildAux (key? : α → Option String) (pos : Nat) (acc : List (String × Nat)) :
    List α → List (String × Nat)
  | [] => acc
  | r :: rest =>
    gBuildAux key? (pos + 1)
      (match key? r with
       | some k => mapSet acc k pos
       | none => acc) rest

/-- The index an accumulator-free builder run produces when no key repeats:
each keyed row under its own sheet row number, in row order. -/
def gIdxList (key? : α → Option String) (pos : Nat) : List α → List (String × Nat)
  | [] => []
  | r :: rest =>
    (match key? r with
     | some k => [(k, pos)]
     | none => []) ++ gIdxList key? (pos + 1) rest

/-- Drop the rows of the marked sheet positions (the net effect of the
descending-order deletion loop). -/
def keepRows (pos : Nat) (dead : List Nat) : List CRow → List CRow
  | [] => []
  | r :: rest =>
    if pos ∈ dead then keepRows (pos + 1) dead rest
    else r :: keepRows (pos + 1) dead rest

/-- The deletion test of the reconcile deletion pass, as a predicate of an
Active-index key: the key survives when it is present in the Candidate
Database index and its job's requisition status qualifies as active. -/
def delKeepB (st : SyncState) (k : String) : Bool :=
  (mapGet (buildCandIdx st.allRows) k).isSome &&
    isOpenForActive
      (match mapGet (buildReqIdx st.reqs) (⟨takeUntilC '|' k.data⟩ : String) with
       | some reqRow => (getReqAt st.reqs reqRow).jobStatus
       | none => "")

/-- Sheet positions of the keyed rows failing a key predicate. -/
def failPos (keepB : String → Bool) (pos : Nat) : List CRow → List Nat
  | [] => []
  | r :: rest =>
    (if rowKeyed r ∧ keepB (rowKeyStr r) = false then [pos] else []) ++
      failPos keepB (pos + 1) rest

/-- Does a row survive the deletion pass? -/
def delSurvives (keepB : String → Bool) (r : CRow) : Bool :=
  !(rowKeyed r && !(keepB (rowKeyStr r)))

/-- The value a field-map write leaves in one column (the last binding of
the column wins, else the default). -/
def lastVal (ps : List (CField × String)) (f : CField) (dflt : String) : String :=
  ps.foldl (fun acc p => if p.1 = f then p.2 else acc) dflt

/-- The trimmed job ID holds no `|`, so the composite key splits back into
its two identity components. -/
def barFree (r : CRow) : Prop := '|' ∉ (trimS r.jobId).data

/-- Renormalizing the row's normalized email is the identity; `keyFor`
applies `normEmail` to an already-normalized component, so this is what
makes a row's index key equal `trimmedJobId ++ "|" ++ normalizedEmail`. -/
def emailStable (r : CRow) : Prop :=
  normEmail (normEmail r.email) = normEmail r.email

/-- The Active row mirrors the Candidate row on every mirrored column, up
to the loose `_valsEqual_` comparison `_diffFields_` uses, so the diff of
the pair is empty. -/
def rowSynced (c a : CRow) : Prop :=
  ∀ f ∈ desiredFields, valsEqual (c.get f) (a.get f) = true

instance (r : CRow) : Decidable (barFree r) := by
  unfold barFree
  infer_instance

instance (r : CRow) : Decidable (emailStable r) := by
  unfold emailStable
  infer_instance

instance (c a : CRow) : Decidable (rowSynced c a) := by
  unfold rowSynced
  infer_instance

/-- The composite keys the upsert loop of a full reconciliation run inserts
or updates Active rows for, following the loop's own guard structure:
keyless snapshot rows and repeated keys are skipped, and a key is touched
exactly when its requisition exists and has an active canonical status. -/
def upsKeys (reqs : List ReqRow) (reqIdx : List (String × Nat)) :
    List String → List (Nat × CRow) → List String
  | _, [] => []
  | processed, pr :: rest =>
    let jid := normStr pr.2.jobId
    let eml := normEmail pr.2.email
    if jid = "" ∨ eml = "" then upsKeys reqs reqIdx processed rest
    else
      let k := keyFor 0 jid eml
      if k ∈ processed then upsKeys reqs reqIdx processed rest
      else
        match mapGet reqIdx jid with
        | none => upsKeys reqs reqIdx (k :: processed) rest
        | some reqRow =>
          if isOpenForActive (canonReqStatus (getReqAt reqs reqRow).jobStatus) then
            k :: upsKeys reqs reqIdx (k :: processed) rest
          else upsKeys reqs reqIdx (k :: processed) rest

/-- Row-for-row identity preservation between two candidate tables: same
length, and every row keeps its job ID and email cells (the reconcile loop
writes only title, status and timestamp cells to the Candidate Database). -/
def idPreserved (a b : List CRow) : Prop :=
  a.length = b.length ∧
    ∀ i (ha : i < a.length) (hb : i < b.length),
      (a.get ⟨i, ha⟩).jobId = (b.get ⟨i, hb⟩).jobId ∧
        (a.get ⟨i, ha⟩).email = (b.get ⟨i, hb⟩).email

/-- A state that already satisfies the spec's post-reconciliation
invariant: all three tables uniquely keyed; identity cells normalization-
stable; Candidate rows mirror their requisition's title and canonical
status; every Active row is backed by a Candidate row with the same
composite key, mirrors it on all synced columns, and belongs to an Open or
On Hold requisition; and every fully-keyed Candidate row of an Open or On
Hold requisition has its Active row. -/
def reconciledState (st : SyncState) : Prop :=
  (keysOf st.allRows).Nodup ∧ (keysOf st.actRows).Nodup ∧
  (reqKeysOf st.reqs).Nodup ∧
  (∀ c ∈ st.allRows, barFree c ∧ emailStable c ∧
      valsEqual c.email (normEmail c.email) = true) ∧
  (∀ a ∈ st.actRows, barFree a ∧ emailStable a) ∧
  (∀ c ∈ st.allRows, ∀ q ∈ st.reqs, trimS q.jobId = rowJid c →
      valsEqual q.jobTitle c.jobTitle = true ∧
        valsEqual (canonReqStatus q.jobStatus) c.jobStatus = true) ∧
  (∀ a ∈ st.actRows, rowKeyed a = true →
      rowJid a ≠ "" ∧
      (∃ c ∈ st.allRows, rowJid c = rowJid a ∧ rowEm c = rowEm a ∧ rowSynced c a) ∧
        (∃ q ∈ st.reqs, trimS q.jobId = rowJid a ∧
          isOpenForActive q.jobStatus = true)) ∧
  (∀ c ∈ st.allRows, rowJid c ≠ "" → rowEm c ≠ "" →
      (∃ q ∈ st.reqs, trimS q.jobId = rowJid c ∧
        isOpenForActive q.jobStatus = true) →
      ∃ a ∈ st.actRows, rowJid a = rowJid c ∧ rowEm a = rowEm c)

instance (st : SyncState) : Decidable (reconciledState st) := by
  unfold reconciledState
  infer_instance

/-!
## Basic lemmas about the string primitives -/

theorem toNat_ofNat_valid {n : Nat} (h : n < 55296) : (Char.ofNat n).toNat = n := by
  rw [Char.ofNat, dif_pos (Or.inl h)]
  rfl

theorem toLower_toLower (c : Char) : (c.toLower).toLower = c.toLower := by
  simp only [Char.toLower]
  by_cases h : c.toNat ≥ 65 ∧ c.toNat ≤ 90
  · rw [if_pos h]
    have hv : (Char.ofNat (c.toNat + 32)).toNat = c.toNat + 32 :=
      toNat_ofNat_valid (by omega)
    rw [if_neg (by omega)]
  · rw [if_neg h, if_neg h]

theorem isWs_toLower (c : Char) : isWs c.toLower = isWs c := by
  simp only [Char.toLower]
  by_cases h : c.toNat ≥ 65 ∧ c.toNat ≤ 90
  · rw [if_pos h]
    have hv : (Char.ofNat (c.toNat + 32)).toNat = c.toNat + 32 :=
      toNat_ofNat_valid (by omega)
    have h1 : isWs (Char.ofNat (c.toNat + 32)) = false := by
      simp only [isWs, Bool.or_eq_false_iff, decide_eq_false_iff_not]
      refine ⟨⟨⟨?_, ?_⟩, ?_⟩, ?_⟩ <;>
        · intro hc
          have := congrArg Char.toNat hc
          simp [hv] at this <;> omega
    have h2 : isWs c = false := by
      simp only [isWs, Bool.or_eq_false_iff, decide_eq_false_iff_not]
      refine ⟨⟨⟨?_, ?_⟩, ?_⟩, ?_⟩ <;>
        · intro hc
          subst hc
          simp at h
    rw [h1, h2]
  · rw [if_neg h]

theorem dropWhile_idem (p : α → Bool) (l : List α) :
    (l.dropWhile p).dropWhile p = l.dropWhile p := by
  induction l with
  | nil => rfl
  | cons c t ih =>
    by_cases h : p c
    · rw [List.dropWhile_cons_of_pos h]
      exact ih
    · rw [List.dropWhile_cons_of_neg h, List.dropWhile_cons_of_neg h]

theorem head?_dropWhile_not (p : α → Bool) (l : List α) {c : α}
    (h : (l.dropWhile p).head? = some c) : p c = false := by
  induction l with
  | nil => simp [List.dropWhile] at h
  | cons a t ih =>
    by_cases hp : p a
    · rw [List.dropWhile_cons_of_pos hp] at h
      exact ih h
    · rw [List.dropWhile_cons_of_neg hp] at h
      simp only [List.head?_cons, Option.some.injEq] at h
      subst h
      exact Bool.eq_false_iff.mpr hp

theorem getLast?_dropWhile (p : α → Bool) (M : List α)
    (h : M.dropWhile p ≠ []) : (M.dropWhile p).getLast? = M.getLast? := by
  obtain ⟨t, ht⟩ := List.dropWhile_suffix (l := M) p
  conv_rhs => rw [← ht]
  rw [List.getLast?_append]
  cases hq : (M.dropWhile p).getLast? with
  | none => exact absurd (List.getLast?_eq_none_iff.mp hq) h
  | some x => rfl

theorem head?_trimL_ws (l : List Char) {c : Char}
    (h : (trimL l).head? = some c) : isWs c = false := by
  unfold trimL at h
  rw [List.head?_reverse] at h
  have hne : (dropWs l).reverse.dropWhile isWs ≠ [] := by
    intro hnil
    rw [hnil] at h
    simp at h
  rw [getLast?_dropWhile _ _ hne, List.getLast?_reverse] at h
  exact head?_dropWhile_not _ _ h

theorem dropWs_trimL (l : List Char) : dropWs (trimL l) = trimL l := by
  cases hh : trimL l with
  | nil => rfl
  | cons c t =>
    have hc : isWs c = false := head?_trimL_ws l (by rw [hh]; rfl)
    unfold dropWs
    rw [List.dropWhile_cons_of_neg (by simp [hc])]

theorem trimL_idem (l : List Char) : trimL (trimL l) = trimL l := by
  conv_lhs => rw [trimL, dropWs_trimL]
  rw [trimL, List.reverse_reverse, dropWhile_idem]

theorem trimL_map_toLower (l : List Char) :
    trimL (l.map Char.toLower) = (trimL l).map Char.toLower := by
  have hws : isWs ∘ Char.toLower = isWs := by
    funext c
    exact isWs_toLower c
  unfold trimL dropWs
  rw [List.dropWhile_map, hws, ← List.map_reverse, List.dropWhile_map, hws,
    ← List.map_reverse]

theorem map_toLower_idem (l : List Char) :
    (l.map Char.toLower).map Char.toLower = l.map Char.toLower := by
  rw [List.map_map]
  apply List.map_congr_left
  intro c _
  exact toLower_toLower c

/-- The `s.trim().toLowerCase()` preprocessing of `normEmail`. -/
theorem lowTrim_idem (l : List Char) :
    (trimL ((trimL l).map Char.toLower)).map Char.toLower =
      (trimL l).map Char.toLower := by
  rw [trimL_map_toLower, trimL_idem, map_toLower_idem]

theorem trimS_idem (s : String) : trimS (trimS s) = trimS s :=
  congrArg String.mk (trimL_idem s.data)

theorem normEmail_congr (s t : String)
    (h : (trimL s.data).map Char.toLower = (trimL t.data).map Char.toLower) :
    normEmail s = normEmail t := by
  unfold normEmail
  rw [h]

/-- C6: `normEmail` lowercases and trims every input (its result is
invariant under pre-trimming and pre-lowercasing, and case/whitespace are
folded as in the third equation); Gmail-family addresses have dots stripped
from the local part and any `+tag` removed, while other domains receive no
alias folding. -/
theorem C6_normEmail_case_fold_and_gmail :
    normEmail "John.Doe+promo@gmail.com" = "johndoe@gmail.com" ∧
    normEmail "John.Doe+promo@company.com" = "john.doe+promo@company.com" ∧
    normEmail "  ABC@Company.COM  " = "abc@company.com" ∧
    (∀ s : String, normEmail ⟨(trimL s.data).map Char.toLower⟩ = normEmail s) := by
  refine ⟨by decide, by decide, by decide, ?_⟩
  intro s
  exact normEmail_congr _ _ (lowTrim_idem s.data)

/-- C3: starting from a Requisition row with all date cells empty, running
the status transition engine for Open, then On Hold, then Open again sets
`openedDate` at the first Open and never overwrites it, sets `onHoldDate`
on the transition to On Hold without touching `openedDate`, and clears
`onHoldDate` while preserving `openedDate` on the return to Open. -/
theorem C3_open_onhold_open_dates (r0 : ReqRow) (t1 t2 t3 : String)
    (hop : r0.opened = "") (hoh : r0.onHoldDate = "")
    (hcl : r0.closedDate = "") (hhd : r0.positionHiredDate = "")
    (h1 : t1 ≠ "") (h2 : t2 ≠ "") :
    let s1 := applyReqStatusTransitionsForRows [2] t1 [{ r0 with jobStatus := "Open" }]
    let r1 := getReqAt s1 2
    let s2 := applyReqStatusTransitionsForRows [2] t2 [{ r1 with jobStatus := "On Hold" }]
    let r2 := getReqAt s2 2
    let s3 := applyReqStatusTransitionsForRows [2] t3 [{ r2 with jobStatus := "Open" }]
    let r3 := getReqAt s3 2
    r1.opened = t1 ∧ r1.onHoldDate = "" ∧
    r2.opened = t1 ∧ r2.onHoldDate = t2 ∧
    r3.opened = t1 ∧ r3.onHoldDate = "" := by
  have hOpen : normStr "Open" = "Open" := by decide
  have hHold : normStr "On Hold" = "On Hold" := by decide
  by_cases hn : r0.hiredCandidateName = "" <;>
    simp [applyReqStatusTransitionsForRows, List.foldl, getReqAt,
      reqRowTransition, hOpen, hHold, dataStart, hop, hoh, hcl, hhd, h1, h2,
      hn, List.set]

/-- Witness for `C3_open_onhold_open_dates` at a concrete row and concrete
timestamps. -/
theorem C3_open_onhold_open_dates_witness :
    (("T1" : String) ≠ "" ∧ ("T2" : String) ≠ "") ∧
    (let s1 := applyReqStatusTransitionsForRows [2] "T1"
      [{ ({} : ReqRow) with jobStatus := "Open" }]
     let r1 := getReqAt s1 2
     let s2 := applyReqStatusTransitionsForRows [2] "T2"
      [{ r1 with jobStatus := "On Hold" }]
     let r2 := getReqAt s2 2
     let s3 := applyReqStatusTransitionsForRows [2] "T3"
      [{ r2 with jobStatus := "Open" }]
     let r3 := getReqAt s3 2
     r1.opened = "T1" ∧ r1.onHoldDate = "" ∧
     r2.opened = "T1" ∧ r2.onHoldDate = "T2" ∧
     r3.opened = "T1" ∧ r3.onHoldDate = "") :=
  ⟨⟨by decide, by decide⟩,
   C3_open_onhold_open_dates {} "T1" "T2" "T3" rfl rfl rfl rfl
     (by decide) (by decide)⟩

/-- C4: with candidate a@x.com (stage Hired) and rival b@x.com (stage
Interviewing) sharing job 2025-0001, the Hired Flow sets the requisition's
status to Hired with the hired candidate's name stamped (hire/close dates
stamped by the transition engine), rejects b@x.com with the fixed reason and
an `updatedAt` stamp, and leaves a@x.com's row untouched. -/
theorem C4_hired_flow_scenario (now : String) :
    applyHiredFlow false now "2025-0001" "Alice Alpha" "a@x.com"
      { reqs := [{ jobId := "2025-0001", jobTitle := "Eng", jobStatus := "Open",
                   opened := "T0" }],
        allRows :=
          [{ fullName := "Alice Alpha", email := "a@x.com",
             jobId := "2025-0001", stage := "Hired" },
           { fullName := "Bob Beta", email := "b@x.com",
             jobId := "2025-0001", stage := "Interviewing" }],
        actRows := [] } =
      { reqs := [{ jobId := "2025-0001", jobTitle := "Eng", jobStatus := "Hired",
                   opened := "T0", closedDate := now, positionHiredDate := now,
                   hiredCandidateName := "Alice Alpha" }],
        allRows :=
          [{ fullName := "Alice Alpha", email := "a@x.com",
             jobId := "2025-0001", stage := "Hired" },
           { fullName := "Bob Beta", email := "b@x.com",
             jobId := "2025-0001", stage := "Rejected",
             rejectedReason := "Hired a Different Candidate", updated := now }],
        actRows := [] } := by
  rfl

/-- C9: enqueueing J1 and then J2 before the debounce worker fires schedules
exactly one worker trigger (the second enqueue finds the tracked trigger and
creates nothing), and the persisted queue holds the deduplicated merged set,
so the single scheduled run's scope covers both job IDs. -/
theorem C9_debounce_coalescing :
    (enqueueAndScheduleReconcile ["J2"]
        (enqueueAndScheduleReconcile ["J1"] {})).triggers.length = 1 ∧
    (enqueueAndScheduleReconcile ["J2"]
        (enqueueAndScheduleReconcile ["J1"] {})).triggers =
      (enqueueAndScheduleReconcile ["J1"] ({} : QState)).triggers ∧
    (enqueueAndScheduleReconcile ["J2"]
        (enqueueAndScheduleReconcile ["J1"] {})).queueProp =
      some (QVal.ids ["J1", "J2"]) ∧
    workerScope (enqueueAndScheduleReconcile ["J2"]
        (enqueueAndScheduleReconcile ["J1"] {})) =
      some (QVal.ids ["J1", "J2"]) := by
  decide

theorem decimalVal_append_digit (xs : List Char) (c : Char) :
    decimalVal (xs ++ [c]) = decimalVal xs * 10 + (c.toNat - 48) := by
  simp [decimalVal, List.foldl_append]

theorem decimalVal_natDecimalAux (fuel n : Nat) (h : n ≤ fuel) :
    decimalVal (natDecimalAux fuel n) = n := by
  induction fuel generalizing n with
  | zero =>
    interval_cases n
    rfl
  | succ fuel ih =>
    by_cases h0 : n = 0
    · subst h0
      rfl
    · have hlt : n / 10 < n :=
        Nat.div_lt_self (Nat.pos_of_ne_zero h0) (by norm_num)
      have hdiv : n / 10 ≤ fuel := by omega
      rw [natDecimalAux, if_neg h0, decimalVal_append_digit, ih _ hdiv,
        toNat_ofNat_valid (by omega)]
      omega

theorem decimalVal_natDecimal (n : Nat) : decimalVal (natDecimal n) = n := by
  unfold natDecimal
  by_cases h0 : n = 0
  · subst h0
    rfl
  · rw [if_neg h0]
    exact decimalVal_natDecimalAux _ _ (by omega)

theorem natDecimal_injective {m n : Nat} (h : natDecimal m = natDecimal n) :
    m = n := by
  have := congrArg decimalVal h
  rwa [decimalVal_natDecimal, decimalVal_natDecimal] at this

/-- Counterexample to C7 as stated: two invocations of `keyFor` with both
inputs empty that observe the same `Date.now()` millisecond return the very
same sentinel, so the returned keys are not always distinct. -/
theorem C7_counterexample_same_millisecond :
    ¬ (∀ t1 t2 : Nat, keyFor t1 "" "" ≠ keyFor t2 "" "") := by
  intro h
  exact h 1712345 1712345 rfl

/-- C7 (amended): when at least one input is non-empty the key is
`trim(jobId) + "|" + normalizeEmail(email)`; with both inputs empty the
sentinel `'_EMPTY_KEY_' + Date.now()` is returned, and two empty-identity
invocations observing distinct clock readings get distinct keys (equal
readings, e.g. within the same millisecond, collide). -/
theorem C7_keyFor_amended :
    (∀ (now : Nat) (jobId email : String),
      ¬ (trimS jobId = "" ∧ normEmail email = "") →
        keyFor now jobId email = trimS jobId ++ "|" ++ normEmail email) ∧
    (∀ t1 t2 : Nat, t1 ≠ t2 → keyFor t1 "" "" ≠ keyFor t2 "" "") := by
  constructor
  · intro now jobId email h
    unfold keyFor
    rw [if_neg h]
  · intro t1 t2 hne heq
    unfold keyFor at heq
    rw [if_pos (by decide), if_pos (by decide)] at heq
    have hd : "_EMPTY_KEY_".data ++ natDecimal t1 =
        "_EMPTY_KEY_".data ++ natDecimal t2 := congrArg String.data heq
    exact hne (natDecimal_injective (List.append_cancel_left hd))

/-- Witness for `C7_keyFor_amended`: a non-empty invocation yields the
plain composite key, and distinct timestamps yield distinct sentinels. -/
theorem C7_keyFor_amended_witness :
    (¬ (trimS " J1 " = "" ∧ normEmail "A@X.com" = "") ∧
      keyFor 7 " J1 " "A@X.com" = trimS " J1 " ++ "|" ++ normEmail "A@X.com") ∧
    ((0 : Nat) ≠ 1 ∧ keyFor 0 "" "" ≠ keyFor 1 "" "") :=
  ⟨⟨by decide, C7_keyFor_amended.1 7 " J1 " "A@X.com" (by decide)⟩,
   ⟨by decide, C7_keyFor_amended.2 0 1 (by decide)⟩⟩

/-- C8: the two branches of `businessDaysBetween` disagree.  For the range
2025-05-01 (local midnight) to 2025-05-31 the optimized branch is taken
(30 days > 14) and returns 22: `new Date('2025-05-26')` is UTC midnight,
which in the script's `America/New_York` time zone falls on Sunday evening
2025-05-25, so Memorial Day (a Monday) fails the weekday test and is never
subtracted.  The day-by-day reference loop and the specified Mon–Fri-minus-
holidays count both give 21. -/
theorem C8_optimized_branch_miscounts_monday_holidays :
    businessDaysBetween ⟨daysFromCivil 2025 5 1, 0⟩ ⟨daysFromCivil 2025 5 31, 0⟩ = 22 ∧
    dayByDayBusinessDays ⟨daysFromCivil 2025 5 1, 0⟩ ⟨daysFromCivil 2025 5 31, 0⟩ = 21 ∧
    businessDaysSpec ⟨daysFromCivil 2025 5 1, 0⟩ ⟨daysFromCivil 2025 5 31, 0⟩ = 21 := by
  decide

theorem parseQuotedArg_escape (s : List Char) (rest : List Char)
    (h : rest.head? ≠ some '"') :
    parseQuotedArg (escapeForFormula s ++ '"' :: rest) = some (s, rest) := by
  induction s with
  | nil =>
    cases rest with
    | nil => rfl
    | cons c t =>
      have hc : c ≠ '"' := by
        intro hq
        exact h (by rw [hq]; rfl)
      simp [escapeForFormula, parseQuotedArg, hc]
  | cons c cs ih =>
    by_cases hc : c = '"'
    · subst hc
      simp [escapeForFormula, parseQuotedArg, ih]
    · simp [escapeForFormula, parseQuotedArg, hc, ih]

theorem string_mk_data (s : String) : String.mk s.data = s := by
  cases s
  rfl

/-- C10: `setHyperlink` writes only when the trimmed URL matches the
http/https/mailto/tel pattern; an empty or non-matching URL leaves the cell
untouched; and every formula it does write parses back (with `""` decoding
as an escaped quote) to exactly the URL and label it was given — quotes in
either argument cannot break out of the formula's string arguments. -/
theorem C10_setHyperlink_validates_and_escapes :
    (∀ url label : String,
      setHyperlinkFormula url label ≠ none → validUrl (trimS url) = true) ∧
    (∀ url label : String,
      (trimS url = "" ∨ validUrl (trimS url) = false) →
        setHyperlinkFormula url label = none) ∧
    (∀ url label f : String,
      setHyperlinkFormula url label = some f →
        parseHyperlinkFormula f = some (trimS url, label)) := by
  refine ⟨?_, ?_, ?_⟩
  · intro url label h
    unfold setHyperlinkFormula at h
    by_cases h1 : trimS url = ""
    · rw [if_pos h1] at h
      exact absurd rfl h
    · rw [if_neg h1] at h
      by_cases h2 : validUrl (trimS url)
      · exact h2
      · rw [if_pos h2] at h
        exact absurd rfl h
  · intro url label h
    unfold setHyperlinkFormula
    rcases h with h | h
    · rw [if_pos h]
    · by_cases h1 : trimS url = ""
      · rw [if_pos h1]
      · rw [if_neg h1, if_pos (by simp [h])]
  · intro url label f h
    unfold setHyperlinkFormula at h
    by_cases h1 : trimS url = ""
    · rw [if_pos h1] at h
      exact absurd h (by simp)
    · rw [if_neg h1] at h
      by_cases h2 : validUrl (trimS url)
      · rw [if_neg (by simp [h2])] at h
        have hf := (Option.some.injEq _ _).mp h.symm
        subst hf
        simp only [parseHyperlinkFormula, List.take_left, List.drop_left,
          if_true, eq_self_iff_true]
        rw [parseQuotedArg_escape ((trimS url).data)
            (',' :: '"' :: (escapeForFormula label.data ++ '"' :: [')']))
            (by simp)]
        simp only []
        rw [parseQuotedArg_escape label.data [')'] (by simp)]
        simp [string_mk_data]
      · rw [if_pos (by simp [h2])] at h
        exact absurd h (by simp)

/-- Witness for `C10_setHyperlink_validates_and_escapes`: a disallowed
protocol writes nothing, and a URL/label pair containing quotes round-trips
through the written formula unmangled. -/
theorem C10_setHyperlink_witness :
    ((trimS "javascript:alert(1)" = "" ∨
        validUrl (trimS "javascript:alert(1)") = false) ∧
      setHyperlinkFormula "javascript:alert(1)" "x" = none) ∧
    (setHyperlinkFormula "https://e.com/\",\"inj" "la\"bel" =
        some "=HYPERLINK(\"https://e.com/\"\",\"\"inj\",\"la\"\"bel\")" ∧
      parseHyperlinkFormula "=HYPERLINK(\"https://e.com/\"\",\"\"inj\",\"la\"\"bel\")" =
        some (trimS "https://e.com/\",\"inj", "la\"bel")) :=
  ⟨⟨Or.inr (by decide),
    C10_setHyperlink_validates_and_escapes.2.1 "javascript:alert(1)" "x"
      (Or.inr (by decide))⟩,
   ⟨by decide,
    C10_setHyperlink_validates_and_escapes.2.2 "https://e.com/\",\"inj" "la\"bel"
      "=HYPERLINK(\"https://e.com/\"\",\"\"inj\",\"la\"\"bel\")" (by decide)⟩⟩

/-- Counterexample to C5 as stated: rows 2 and 3 both hold a@x.com and the
edited row set is {2}; `enforceUniqueEmail_` changes nothing (only edited
rows that duplicate an earlier row are cleared), so the duplicate persists
and email uniqueness does not hold globally after the run. -/
theorem C5_counterexample_duplicate_persists :
    enforceUniqueEmail [{ email := "a@x.com" }, { email := "a@x.com" }] [2] =
      [{ email := "a@x.com" }, { email := "a@x.com" }] ∧
    emailsGloballyUnique
      (enforceUniqueEmail
        [{ email := "a@x.com" }, { email := "a@x.com" }] [2]) = false := by
  refine ⟨by decide, by decide⟩

theorem scan_eq_specClearPos (todo : List CRow) (prev : List CRow)
    (seen : List String) (edits : List Nat)
    (hseen : ∀ e : String, e ∈ seen ↔ (e ≠ "" ∧ ∃ r ∈ prev, normEmail r.email = e)) :
    scanDupEmails (dataStart + prev.length) seen edits todo =
      specClearPos prev edits todo := by
  induction todo generalizing prev seen with
  | nil => rfl
  | cons r rest ih =>
    have hlen : dataStart + prev.length + 1 = dataStart + (prev ++ [r]).length := by
      simp only [List.length_append, List.length_singleton]
      omega
    by_cases he : normEmail r.email = ""
    · have hseen1 : ∀ e : String,
          e ∈ seen ↔ (e ≠ "" ∧ ∃ s ∈ prev ++ [r], normEmail s.email = e) := by
        intro e
        rw [hseen e]
        constructor
        · rintro ⟨hne, s, hs, hv⟩
          exact ⟨hne, s, List.mem_append_left _ hs, hv⟩
        · rintro ⟨hne, s, hs, hv⟩
          rcases List.mem_append.mp hs with hs | hs
          · exact ⟨hne, s, hs, hv⟩
          · rw [List.mem_singleton.mp hs] at hv
            exact absurd (hv.symm.trans he) hne
      simp only [scanDupEmails, specClearPos]
      rw [if_pos he, if_neg (by simp [he]), hlen, ih _ _ hseen1,
        List.nil_append]
    · by_cases hs : normEmail r.email ∈ seen
      · have hany : prev.any
            (fun s => decide (normEmail s.email = normEmail r.email)) = true := by
          obtain ⟨-, s, hsp, hv⟩ := (hseen _).mp hs
          exact List.any_eq_true.mpr ⟨s, hsp, by simp [hv]⟩
        have hseen1 : ∀ e : String,
            e ∈ seen ↔ (e ≠ "" ∧ ∃ s ∈ prev ++ [r], normEmail s.email = e) := by
          intro e
          rw [hseen e]
          constructor
          · rintro ⟨hne, s, hsp, hv⟩
            exact ⟨hne, s, List.mem_append_left _ hsp, hv⟩
          · rintro ⟨hne, s, hsp, hv⟩
            rcases List.mem_append.mp hsp with hsp | hsp
            · exact ⟨hne, s, hsp, hv⟩
            · rw [List.mem_singleton.mp hsp] at hv
              refine ⟨hne, ?_⟩
              have hes : e ∈ seen := hv ▸ hs
              exact ((hseen e).mp hes).2
        simp only [scanDupEmails, specClearPos]
        rw [if_neg he, if_neg (not_not_intro hs)]
        by_cases hed : (dataStart + prev.length) ∈ edits
        · rw [if_pos hed, if_pos (by simp [hed, he, hany]), hlen, ih _ _ hseen1]
          simp
        · rw [if_neg hed, if_neg (by simp [hed]), hlen, ih _ _ hseen1,
            List.nil_append]
      · have hseen1 : ∀ e : String,
            e ∈ seen ++ [normEmail r.email] ↔
              (e ≠ "" ∧ ∃ s ∈ prev ++ [r], normEmail s.email = e) := by
          intro e
          rw [List.mem_append, hseen e, List.mem_singleton]
          constructor
          · rintro (⟨hne, s, hsp, hv⟩ | hv)
            · exact ⟨hne, s, List.mem_append_left _ hsp, hv⟩
            · exact ⟨hv ▸ he, r, List.mem_append_right _ (List.mem_singleton.mpr rfl),
                hv.symm⟩
          · rintro ⟨hne, s, hsp, hv⟩
            rcases List.mem_append.mp hsp with hsp | hsp
            · exact Or.inl ⟨hne, s, hsp, hv⟩
            · rw [List.mem_singleton.mp hsp] at hv
              exact Or.inr hv.symm
        have hany : prev.any
            (fun s => decide (normEmail s.email = normEmail r.email)) = false := by
          rw [List.any_eq_false]
          intro s hsp
          simp only [decide_eq_true_eq]
          intro hv
          exact hs ((hseen _).mpr ⟨he, s, hsp, hv⟩)
        simp only [scanDupEmails, specClearPos]
        rw [if_neg he, if_pos hs, hlen, ih _ _ hseen1,
          if_neg (by simp [hany]), List.nil_append]

theorem applyClears_spec (todo : List CRow) (prev anyPre : List CRow)
    (edits : List Nat) (hlen : anyPre.length = prev.length) :
    applyClears (anyPre ++ todo) (specClearPos prev edits todo) =
      anyPre ++ clearSpecAux prev edits todo := by
  induction todo generalizing prev anyPre with
  | nil => simp [applyClears, specClearPos, clearSpecAux]
  | cons r rest ih =>
    have hwrite : writeCRowAt (anyPre ++ r :: rest) (dataStart + prev.length)
        [(CField.email, "")] = anyPre ++ { r with email := "" } :: rest := by
      unfold writeCRowAt getCRowAt
      have hidx : dataStart + prev.length - dataStart = anyPre.length := by
        omega
      rw [hidx, List.drop_left, List.set_append_right _ _ (Nat.le_refl _)]
      simp [applyPairs, CRow.set]
    simp only [specClearPos, clearSpecAux]
    by_cases hc : (decide ((dataStart + prev.length) ∈ edits) &&
        decide (normEmail r.email ≠ "") &&
        prev.any (fun s => decide (normEmail s.email = normEmail r.email))) = true
    · rw [if_pos hc, if_pos hc]
      show applyClears (anyPre ++ r :: rest)
          ((dataStart + prev.length) :: specClearPos (prev ++ [r]) edits rest) = _
      have : applyClears (anyPre ++ r :: rest)
          ((dataStart + prev.length) :: specClearPos (prev ++ [r]) edits rest) =
          applyClears (anyPre ++ { r with email := "" } :: rest)
            (specClearPos (prev ++ [r]) edits rest) := by
        simp only [applyClears, List.foldl_cons, hwrite]
      rw [this]
      have hsplit : anyPre ++ { r with email := "" } :: rest =
          (anyPre ++ [{ r with email := "" }]) ++ rest := by
        simp
      rw [hsplit, ih (prev ++ [r]) _ (by simp [hlen])]
      simp
    · rw [if_neg hc, if_neg hc]
      show applyClears (anyPre ++ r :: rest)
          (specClearPos (prev ++ [r]) edits rest) = _
      have hsplit : anyPre ++ r :: rest = (anyPre ++ [r]) ++ rest := by
        simp
      rw [hsplit, ih (prev ++ [r]) _ (by simp [hlen])]
      simp

/-- C5 (amended): `enforceUniqueEmail` blanks exactly the edited rows whose
non-empty normalized email already appears on an earlier row of the table,
leaving every other row (in particular every non-edited row) unchanged;
duplicates not sitting on an edited row persist, so uniqueness is enforced
only for the edited rows against earlier rows, not globally. -/
theorem C5_enforceUniqueEmail_amended (rows : List CRow) (edits : List Nat) :
    enforceUniqueEmail rows edits = clearSpec rows edits := by
  show applyClears rows (scanDupEmails dataStart [] edits rows) =
    clearSpec rows edits
  have h0 : (dataStart : Nat) = dataStart + ([] : List CRow).length := rfl
  rw [h0, scan_eq_specClearPos rows [] [] edits (by simp)]
  have := applyClears_spec rows [] [] edits rfl
  simpa [clearSpec] using this

/-!
## Index builder lemmas -/

theorem mapSet_fresh (m : List (String × Nat)) (k : String) (v : Nat)
    (h : ∀ p ∈ m, p.1 ≠ k) : mapSet m k v = m ++ [(k, v)] := by
  have hc : m.any (fun p => decide (p.1 = k)) = false := by
    rw [List.any_eq_false]
    intro p hp
    simpa using h p hp
  simp [mapSet, hc]

theorem keys_mapSet (m : List (String × Nat)) (k : String) (v : Nat) (k' : String) :
    k' ∈ (mapSet m k v).map Prod.fst ↔ k' ∈ m.map Prod.fst ∨ k' = k := by
  unfold mapSet
  by_cases h : m.any (fun p => decide (p.1 = k)) = true
  · rw [if_pos h]
    have hmap : (m.map (fun p => if p.1 = k then (k, v) else p)).map Prod.fst =
        m.map Prod.fst := by
      rw [List.map_map]
      apply List.map_congr_left
      intro p _
      by_cases hp : p.1 = k
      · simp [hp]
      · simp [hp]
    rw [hmap]
    obtain ⟨p, hp, hpk⟩ := List.any_eq_true.mp h
    constructor
    · exact Or.inl
    · rintro (hm | rfl)
      · exact hm
      · exact List.mem_map.mpr ⟨p, hp, by simpa using hpk⟩
  · rw [if_neg h]
    simp

theorem gBuildAux_keys (key? : α → Option String) (rows : List α) :
    ∀ (pos : Nat) (acc : List (String × Nat)) (k : String),
      k ∈ (gBuildAux key? pos acc rows).map Prod.fst ↔
        k ∈ acc.map Prod.fst ∨ ∃ r ∈ rows, key? r = some k := by
  induction rows with
  | nil => simp [gBuildAux]
  | cons r rest ih =>
    intro pos acc k
    simp only [gBuildAux]
    cases hk : key? r with
    | none =>
      rw [ih]
      constructor
      · rintro (h | ⟨s, hs, hv⟩)
        · exact Or.inl h
        · exact Or.inr ⟨s, List.mem_cons_of_mem _ hs, hv⟩
      · rintro (h | ⟨s, hs, hv⟩)
        · exact Or.inl h
        · rcases List.mem_cons.mp hs with rfl | hs
          · rw [hk] at hv
            simp at hv
          · exact Or.inr ⟨s, hs, hv⟩
    | some k0 =>
      rw [ih, keys_mapSet]
      constructor
      · rintro ((h | rfl) | ⟨s, hs, hv⟩)
        · exact Or.inl h
        · exact Or.inr ⟨r, List.mem_cons_self _ _, hk⟩
        · exact Or.inr ⟨s, List.mem_cons_of_mem _ hs, hv⟩
      · rintro (h | ⟨s, hs, hv⟩)
        · exact Or.inl (Or.inl h)
        · rcases List.mem_cons.mp hs with rfl | hs
          · rw [hk] at hv
            exact Or.inl (Or.inr (by simpa using hv.symm))
          · exact Or.inr ⟨s, hs, hv⟩

theorem gBuildAux_nodup_eq (key? : α → Option String) (rows : List α) :
    ∀ (pos : Nat) (acc : List (String × Nat)),
      (rows.filterMap key?).Nodup →
      (∀ p ∈ acc, ∀ r ∈ rows, key? r ≠ some p.1) →
      gBuildAux key? pos acc rows = acc ++ gIdxList key? pos rows := by
  induction rows with
  | nil => simp [gBuildAux, gIdxList]
  | cons r rest ih =>
    intro pos acc hnd hdisj
    cases hk : key? r with
    | none =>
      simp only [gBuildAux, gIdxList, hk]
      rw [ih _ _ ?_ ?_]
      · simp
      · rwa [List.filterMap_cons_none hk] at hnd
      · intro p hp s hs
        exact hdisj p hp s (List.mem_cons_of_mem _ hs)
    | some k0 =>
      simp only [gBuildAux, gIdxList, hk]
      rw [List.filterMap_cons_some hk] at hnd
      have hfresh : ∀ p ∈ acc, p.1 ≠ k0 := by
        intro p hp he
        exact hdisj p hp r (List.mem_cons_self _ _) (he ▸ hk)
      rw [mapSet_fresh _ _ _ hfresh, ih _ _ hnd.of_cons ?_]
      · simp
      · intro p hp s hs
        rcases List.mem_append.mp hp with hp | hp
        · exact hdisj p hp s (List.mem_cons_of_mem _ hs)
        · rw [List.mem_singleton.mp hp]
          intro hv
          exact (List.nodup_cons.mp hnd).1
            (List.mem_filterMap.mpr ⟨s, hs, hv⟩)

theorem mem_gIdxList (key? : α → Option String) (rows : List α) :
    ∀ (pos : Nat) (kp : String × Nat),
      kp ∈ gIdxList key? pos rows ↔
        ∃ i, ∃ h : i < rows.length,
          key? (rows.get ⟨i, h⟩) = some kp.1 ∧ kp.2 = pos + i := by
  induction rows with
  | nil => simp [gIdxList]
  | cons r rest ih =>
    intro pos kp
    cases hk : key? r with
    | none =>
      simp only [gIdxList, hk, List.nil_append]
      rw [ih]
      constructor
      · rintro ⟨i, h, hv, hp⟩
        refine ⟨i + 1, by simp only [List.length_cons]; omega, ?_, by omega⟩
        simpa using hv
      · rintro ⟨i, h, hv, hp⟩
        match i with
        | 0 =>
          have : key? r = some kp.1 := by simpa using hv
          rw [hk] at this
          simp at this
        | i + 1 =>
          have h1 : i < rest.length := by
            simp only [List.length_cons] at h
            omega
          refine ⟨i, h1, ?_, by omega⟩
          simpa using hv
    | some k0 =>
      simp only [gIdxList, hk, List.singleton_append]
      rw [List.mem_cons, ih]
      constructor
      · rintro (rfl | ⟨i, h, hv, hp⟩)
        · exact ⟨0, by simp only [List.length_cons]; omega, by simpa using hk,
            by omega⟩
        · refine ⟨i + 1, by simp only [List.length_cons]; omega, ?_, by omega⟩
          simpa using hv
      · rintro ⟨i, h, hv, hp⟩
        match i with
        | 0 =>
          have hv0 : key? r = some kp.1 := by simpa using hv
          rw [hk] at hv0
          left
          obtain ⟨a, b⟩ := kp
          simp only [Option.some.injEq] at hv0
          simp only at hp
          simp [← hv0, hp]
        | i + 1 =>
          have h1 : i < rest.length := by
            simp only [List.length_cons] at h
            omega
          refine Or.inr ⟨i, h1, ?_, by omega⟩
          simpa using hv

theorem mapGet_eq_none_iff (m : List (String × Nat)) (k : String) :
    mapGet m k = none ↔ ∀ p ∈ m, p.1 ≠ k := by
  unfold mapGet
  simp

theorem mapGet_mem (m : List (String × Nat)) (k : String) (v : Nat)
    (h : mapGet m k = some v) : (k, v) ∈ m := by
  unfold mapGet at h
  cases hf : m.find? (fun p => decide (p.1 = k)) with
  | none => rw [hf] at h; simp at h
  | some p =>
    rw [hf] at h
    have hm := List.mem_of_find?_eq_some hf
    have hp := List.find?_some hf
    simp only [decide_eq_true_eq] at hp
    have hv : p.2 = v := by simpa using h
    rw [← hv, ← hp]
    exact hm

theorem mapGet_isSome_iff (m : List (String × Nat)) (k : String) :
    (mapGet m k).isSome = true ↔ ∃ p ∈ m, p.1 = k := by
  rw [Option.isSome_iff_ne_none]
  constructor
  · intro h
    by_contra hc
    push_neg at hc
    exact h ((mapGet_eq_none_iff m k).mpr hc)
  · intro ⟨p, hp, he⟩ hc
    exact (mapGet_eq_none_iff m k).mp hc p hp he

theorem sublist_pair_of_lt (l : List α) (i j : Nat) (hij : i < j)
    (hj : j < l.length) :
    List.Sublist [l.get ⟨i, by omega⟩, l.get ⟨j, hj⟩] l := by
  induction l generalizing i j with
  | nil => simp at hj
  | cons x t ih =>
    match i, j with
    | 0, j + 1 =>
      have hjt : j < t.length := by
        simp only [List.length_cons] at hj
        omega
      have hg : (x :: t).get ⟨j + 1, hj⟩ = t.get ⟨j, hjt⟩ := rfl
      rw [hg]
      exact List.Sublist.cons₂ _ (List.singleton_sublist.mpr (List.get_mem _ _ _))
    | i + 1, j + 1 =>
      have hjt : j < t.length := by
        simp only [List.length_cons] at hj
        omega
      have hg1 : (x :: t).get ⟨i + 1, by omega⟩ = t.get ⟨i, by omega⟩ := rfl
      have hg2 : (x :: t).get ⟨j + 1, hj⟩ = t.get ⟨j, hjt⟩ := rfl
      rw [hg1, hg2]
      exact List.Sublist.cons _ (ih i j (by omega) hjt)

theorem filterMap_nodup_unique_idx (key? : α → Option String) (l : List α)
    (hnd : (l.filterMap key?).Nodup) (i j : Nat) (hi : i < l.length)
    (hj : j < l.length) (k : String) (hki : key? (l.get ⟨i, hi⟩) = some k)
    (hkj : key? (l.get ⟨j, hj⟩) = some k) : i = j := by
  by_contra hne
  rcases Nat.lt_or_ge i j with hij | hij
  · have hs := (sublist_pair_of_lt l i j hij hj).filterMap key?
    rw [List.filterMap_cons_some hki, List.filterMap_cons_some hkj,
      List.filterMap_nil] at hs
    have := hnd.sublist hs
    simp at this
  · have hji : j < i := by omega
    have hs := (sublist_pair_of_lt l j i hji hi).filterMap key?
    rw [List.filterMap_cons_some hkj, List.filterMap_cons_some hki,
      List.filterMap_nil] at hs
    have := hnd.sublist hs
    simp at this

theorem buildCandIdxAux_eq_g (rows : List CRow) :
    ∀ (pos : Nat) (acc : List (String × Nat)),
      buildCandIdxAux pos acc rows = gBuildAux rowKeyOpt pos acc rows := by
  induction rows with
  | nil => intro pos acc; rfl
  | cons r rest ih =>
    intro pos acc
    simp only [buildCandIdxAux, gBuildAux, rowKeyOpt]
    by_cases hk : rowKeyed r
    · rw [if_pos hk, if_pos hk, ih]
    · rw [if_neg hk, if_neg hk, ih]

theorem buildReqIdxAux_eq_g (reqs : List ReqRow) :
    ∀ (pos : Nat) (acc : List (String × Nat)),
      buildReqIdxAux pos acc reqs = gBuildAux reqKeyOpt pos acc reqs := by
  induction reqs with
  | nil => intro pos acc; rfl
  | cons q rest ih =>
    intro pos acc
    simp only [buildReqIdxAux, gBuildAux, reqKeyOpt]
    by_cases hk : trimS q.jobId ≠ ""
    · rw [if_pos hk, if_pos hk, ih]
    · rw [if_neg hk, if_neg hk, ih]

theorem buildCandIdx_keys (rows : List CRow) (k : String) :
    k ∈ (buildCandIdx rows).map Prod.fst ↔ k ∈ keysOf rows := by
  unfold buildCandIdx
  rw [buildCandIdxAux_eq_g, gBuildAux_keys]
  simp [keysOf, List.mem_filterMap]

theorem buildReqIdx_keys (reqs : List ReqRow) (k : String) :
    k ∈ (buildReqIdx reqs).map Prod.fst ↔ k ∈ reqKeysOf reqs := by
  unfold buildReqIdx
  rw [buildReqIdxAux_eq_g, gBuildAux_keys]
  simp [reqKeysOf, List.mem_filterMap]

theorem buildCandIdx_eq_idxList (rows : List CRow)
    (hnd : (keysOf rows).Nodup) :
    buildCandIdx rows = gIdxList rowKeyOpt dataStart rows := by
  unfold buildCandIdx
  rw [buildCandIdxAux_eq_g, gBuildAux_nodup_eq rowKeyOpt rows dataStart [] hnd
    (by simp), List.nil_append]

theorem buildReqIdx_eq_idxList (reqs : List ReqRow)
    (hnd : (reqKeysOf reqs).Nodup) :
    buildReqIdx reqs = gIdxList reqKeyOpt dataStart reqs := by
  unfold buildReqIdx
  rw [buildReqIdxAux_eq_g, gBuildAux_nodup_eq reqKeyOpt reqs dataStart [] hnd
    (by simp), List.nil_append]

theorem mapGet_candIdx_isSome (rows : List CRow) (k : String) :
    (mapGet (buildCandIdx rows) k).isSome = true ↔
      ∃ r ∈ rows, rowKeyOpt r = some k := by
  rw [mapGet_isSome_iff]
  constructor
  · rintro ⟨p, hp, he⟩
    have hk : k ∈ (buildCandIdx rows).map Prod.fst :=
      List.mem_map.mpr ⟨p, hp, he⟩
    rw [buildCandIdx_keys] at hk
    exact List.mem_filterMap.mp hk
  · intro hx
    have hk : k ∈ keysOf rows := List.mem_filterMap.mpr hx
    rw [← buildCandIdx_keys] at hk
    obtain ⟨p, hp, he⟩ := List.mem_map.mp hk
    exact ⟨p, hp, he⟩

theorem getCRowAt_eq (rows : List CRow) (i : Nat) (h : i < rows.length) :
    getCRowAt rows (dataStart + i) = rows.get ⟨i, h⟩ := by
  unfold getCRowAt
  rw [show dataStart + i - dataStart = i by omega,
    List.drop_eq_getElem_cons h]
  rfl

theorem getReqAt_eq (reqs : List ReqRow) (i : Nat) (h : i < reqs.length) :
    getReqAt reqs (dataStart + i) = reqs.get ⟨i, h⟩ := by
  unfold getReqAt
  rw [show dataStart + i - dataStart = i by omega,
    List.drop_eq_getElem_cons h]
  rfl

/-- The requisition row a successful index lookup reads. -/
theorem reqLookup_spec (reqs : List ReqRow) (hnd : (reqKeysOf reqs).Nodup)
    (jid : String) (p : Nat) (h : mapGet (buildReqIdx reqs) jid = some p) :
    ∃ i, ∃ hi : i < reqs.length,
      p = dataStart + i ∧ trimS (reqs.get ⟨i, hi⟩).jobId = jid ∧
        getReqAt reqs p = reqs.get ⟨i, hi⟩ := by
  rw [buildReqIdx_eq_idxList reqs hnd] at h
  have hm := mapGet_mem _ _ _ h
  obtain ⟨i, hi, hk, hp⟩ := (mem_gIdxList reqKeyOpt reqs dataStart (jid, p)).mp hm
  simp only [reqKeyOpt] at hk
  by_cases hne : trimS (reqs.get ⟨i, hi⟩).jobId ≠ ""
  · rw [if_pos hne] at hk
    simp only [Option.some.injEq] at hk
    refine ⟨i, hi, by simpa using hp, hk, ?_⟩
    rw [show p = dataStart + i from by simpa using hp]
    exact getReqAt_eq reqs i hi
  · rw [if_neg hne] at hk
    simp at hk

/-- Existence of a requisition with a given job ID determines the index
lookup, when job IDs are unique. -/
theorem reqLookup_of_mem (reqs : List ReqRow) (hnd : (reqKeysOf reqs).Nodup)
    (q : ReqRow) (hq : q ∈ reqs) (jid : String)
    (hjid : trimS q.jobId = jid) (hne : jid ≠ "") :
    ∃ p, mapGet (buildReqIdx reqs) jid = some p ∧ getReqAt reqs p = q := by
  have hkey : jid ∈ reqKeysOf reqs :=
    List.mem_filterMap.mpr ⟨q, hq, by simp [reqKeyOpt, hjid, hne]⟩
  have hsome : (mapGet (buildReqIdx reqs) jid).isSome = true := by
    rw [mapGet_isSome_iff]
    rw [← buildReqIdx_keys] at hkey
    obtain ⟨p, hp, he⟩ := List.mem_map.mp hkey
    exact ⟨p, hp, he⟩
  obtain ⟨p, hp⟩ := Option.isSome_iff_exists.mp hsome
  obtain ⟨i, hi, hpi, hki, hget⟩ := reqLookup_spec reqs hnd jid p hp
  obtain ⟨⟨i0, hi0⟩, hq0⟩ := List.mem_iff_get.mp hq
  have hii : i = i0 := by
    apply filterMap_nodup_unique_idx reqKeyOpt reqs hnd i i0 hi hi0 jid
    · unfold reqKeyOpt
      rw [hki, if_pos hne]
    · unfold reqKeyOpt
      rw [hq0, hjid, if_pos hne]
  refine ⟨p, hp, ?_⟩
  rw [hget, ← hq0]
  congr 1
  exact Fin.ext hii

/-!
## Deletion pass lemmas -/

theorem insertDesc_all_lt (x : Nat) (m : List Nat) (h : ∀ y ∈ m, x < y) :
    insertDesc x m = m ++ [x] := by
  induction m with
  | nil => rfl
  | cons y t ih =>
    have hy : x < y := h y (List.mem_cons_self _ _)
    simp only [insertDesc]
    rw [if_neg (by omega), ih (fun z hz => h z (List.mem_cons_of_mem _ hz))]
    simp

theorem sortDesc_of_ascending (l : List Nat) (h : l.Pairwise (· < ·)) :
    sortDesc l = l.reverse := by
  induction l with
  | nil => rfl
  | cons x t ih =>
    have hx : ∀ y ∈ t, x < y := (List.pairwise_cons.mp h).1
    simp only [sortDesc, List.foldr_cons]
    have ht : List.foldr insertDesc [] t = sortDesc t := rfl
    rw [ht, ih (List.pairwise_cons.mp h).2, insertDesc_all_lt x _ ?_]
    · simp
    · intro y hy
      exact hx y (List.mem_reverse.mp hy)

theorem keepRows_nil (rows : List CRow) : ∀ pos, keepRows pos [] rows = rows := by
  induction rows with
  | nil => intro pos; rfl
  | cons r rest ih =>
    intro pos
    simp only [keepRows, List.not_mem_nil, if_neg (fun h => h)]
    rw [ih]

theorem keepRows_congr (rows : List CRow) :
    ∀ (pos : Nat) (d1 d2 : List Nat),
      (∀ q, pos ≤ q → (q ∈ d1 ↔ q ∈ d2)) →
      keepRows pos d1 rows = keepRows pos d2 rows := by
  induction rows with
  | nil => intro pos d1 d2 _; rfl
  | cons r rest ih =>
    intro pos d1 d2 hmem
    simp only [keepRows]
    have hpos := hmem pos (Nat.le_refl _)
    have hrec := ih (pos + 1) d1 d2 (fun q hq => hmem q (by omega))
    by_cases hp : pos ∈ d1
    · rw [if_pos hp, if_pos (hpos.mp hp), hrec]
    · rw [if_neg hp, if_neg (fun hc => hp (hpos.mpr hc)), hrec]

theorem eraseIdx_keepRows (rows : List CRow) :
    ∀ (pos p : Nat) (rest : List Nat),
      (∀ q ∈ rest, p < q) → pos ≤ p →
      (keepRows pos rest rows).eraseIdx (p - pos) =
        keepRows pos (p :: rest) rows := by
  induction rows with
  | nil => intro pos p rest _ _; rfl
  | cons r tail ih =>
    intro pos p rest hrest hpos
    have hnp : pos ∉ rest := fun hc => by
      have := hrest pos hc
      omega
    simp only [keepRows]
    rw [if_neg hnp]
    by_cases hpp : pos = p
    · subst hpp
      rw [if_pos (List.mem_cons_self _ _)]
      have h0 : pos - pos = 0 := by omega
      rw [h0, List.eraseIdx_cons_zero]
      exact keepRows_congr tail (pos + 1) rest (pos :: rest)
        (fun q hq => by
          constructor
          · exact List.mem_cons_of_mem _
          · intro hc
            rcases List.mem_cons.mp hc with rfl | hc
            · omega
            · exact hc)
    · have hlt : pos < p := by omega
      rw [if_neg (by
        intro hc
        rcases List.mem_cons.mp hc with rfl | hc
        · exact hpp rfl
        · exact hnp hc)]
      have hsub : p - pos = (p - (pos + 1)) + 1 := by omega
      rw [hsub, List.eraseIdx_cons_succ]
      rw [ih (pos + 1) p rest hrest (by omega)]

theorem foldr_erase_eq_keepRows (dels : List Nat) (pos : Nat)
    (rows : List CRow) (hsort : dels.Pairwise (· < ·))
    (hlow : ∀ d ∈ dels, pos ≤ d) :
    dels.foldr (fun r acc => acc.eraseIdx (r - pos)) rows =
      keepRows pos dels rows := by
  induction dels with
  | nil =>
    simp only [List.foldr_nil]
    exact (keepRows_nil rows pos).symm
  | cons p rest ih =>
    simp only [List.foldr_cons]
    rw [ih (List.pairwise_cons.mp hsort).2
      (fun d hd => hlow d (List.mem_cons_of_mem _ hd))]
    exact eraseIdx_keepRows rows pos p rest (List.pairwise_cons.mp hsort).1
      (hlow p (List.mem_cons_self _ _))

theorem applyDeletes_eq_keepRows (rows : List CRow) (dels : List Nat)
    (hsort : dels.Pairwise (· < ·)) (hlow : ∀ d ∈ dels, dataStart ≤ d) :
    applyDeletes rows dels = keepRows dataStart dels rows := by
  unfold applyDeletes
  rw [sortDesc_of_ascending dels hsort, List.foldl_reverse]
  exact foldr_erase_eq_keepRows dels dataStart rows hsort hlow

theorem failPos_bounds (g : String → Bool) (rows : List CRow) :
    ∀ (pos : Nat) (d : Nat), d ∈ failPos g pos rows →
      pos ≤ d ∧ d < pos + rows.length := by
  induction rows with
  | nil => intro pos d hd; simp [failPos] at hd
  | cons r rest ih =>
    intro pos d hd
    simp only [failPos] at hd
    rcases List.mem_append.mp hd with hd | hd
    · by_cases hc : rowKeyed r ∧ g (rowKeyStr r) = false
      · rw [if_pos hc] at hd
        rw [List.mem_singleton.mp hd]
        simp only [List.length_cons]
        omega
      · rw [if_neg hc] at hd
        simp at hd
    · have := ih (pos + 1) d hd
      simp only [List.length_cons]
      omega

theorem failPos_sorted (g : String → Bool) (rows : List CRow) :
    ∀ pos : Nat, (failPos g pos rows).Pairwise (· < ·) := by
  induction rows with
  | nil => intro pos; simp [failPos]
  | cons r rest ih =>
    intro pos
    simp only [failPos]
    by_cases hc : rowKeyed r ∧ g (rowKeyStr r) = false
    · rw [if_pos hc, List.singleton_append, List.pairwise_cons]
      refine ⟨?_, ih (pos + 1)⟩
      intro d hd
      have := failPos_bounds g rest (pos + 1) d hd
      omega
    · rw [if_neg hc, List.nil_append]
      exact ih (pos + 1)

theorem keepRows_failPos (g : String → Bool) (rows : List CRow) :
    ∀ pos : Nat, keepRows pos (failPos g pos rows) rows =
      rows.filter (delSurvives g) := by
  induction rows with
  | nil => intro pos; rfl
  | cons r rest ih =>
    intro pos
    simp only [failPos, keepRows, List.filter_cons]
    have hnotrec : pos ∉ failPos g (pos + 1) rest := fun hc => by
      have := failPos_bounds g rest (pos + 1) pos hc
      omega
    have hcongr : keepRows (pos + 1)
        ((if rowKeyed r ∧ g (rowKeyStr r) = false then [pos] else []) ++
          failPos g (pos + 1) rest) rest =
        keepRows (pos + 1) (failPos g (pos + 1) rest) rest := by
      apply keepRows_congr
      intro q hq
      constructor
      · intro hc
        rcases List.mem_append.mp hc with hc | hc
        · by_cases hcc : rowKeyed r ∧ g (rowKeyStr r) = false
          · rw [if_pos hcc] at hc
            rw [List.mem_singleton.mp hc] at hq
            omega
          · rw [if_neg hcc] at hc
            simp at hc
        · exact hc
      · exact fun hc => List.mem_append.mpr (Or.inr hc)
    by_cases hc : rowKeyed r ∧ g (rowKeyStr r) = false
    · have hd : delSurvives g r = false := by
        simp [delSurvives, hc.1, hc.2]
      rw [if_pos (by
          rw [if_pos hc]
          exact List.mem_append.mpr (Or.inl (List.mem_singleton.mpr rfl))),
        hcongr, ih (pos + 1), hd]
      simp
    · have hd : delSurvives g r = true := by
        unfold delSurvives
        rcases Decidable.not_and_iff_or_not.mp hc with hk | hg
        · simp [Bool.eq_false_iff.mpr hk]
        · have : g (rowKeyStr r) = true := by
            cases hgv : g (rowKeyStr r) with
            | false => exact absurd hgv hg
            | true => rfl
          simp [this]
      rw [if_neg (by
          rw [if_neg hc, List.nil_append]
          exact hnotrec),
        hcongr, ih (pos + 1), hd]
      simp

theorem filterMap_gIdx_failPos (g : String → Bool) (rows : List CRow) :
    ∀ pos : Nat,
      (gIdxList rowKeyOpt pos rows).filterMap
        (fun kv => if g kv.1 = true then none else some kv.2) =
      failPos g pos rows := by
  induction rows with
  | nil => intro pos; rfl
  | cons r rest ih =>
    intro pos
    simp only [gIdxList, failPos, rowKeyOpt]
    by_cases hk : rowKeyed r
    · rw [if_pos hk, List.singleton_append, List.filterMap_cons]
      by_cases hg : g (rowKeyStr r) = true
      · rw [if_pos hg, if_neg (by simp [hg]), ih]
        rfl
      · rw [if_neg hg, if_pos ⟨hk, Bool.eq_false_iff.mpr hg⟩]
        rw [ih]
        rfl
    · rw [if_neg hk, List.nil_append, if_neg (by simp [hk]), ih]
      rfl

theorem deletePass_eq_failPos (st : SyncState)
    (hnd : (keysOf st.actRows).Nodup) :
    reconcileDeletePass st [] = failPos (delKeepB st) dataStart st.actRows := by
  have hbody : (fun kv : String × Nat =>
      let jid : String := ⟨takeUntilC '|' kv.1.data⟩
      if ¬ filterJobF [] jid then none
      else
        let inAll := (mapGet (buildCandIdx st.allRows) kv.1).isSome
        let status :=
          match mapGet (buildReqIdx st.reqs) jid with
          | some reqRow => (getReqAt st.reqs reqRow).jobStatus
          | none => ""
        if inAll ∧ isOpenForActive status then none else some kv.2) =
      (fun kv : String × Nat =>
        if delKeepB st kv.1 = true then none else some kv.2) := by
    funext kv
    simp only [filterJobF]
    rw [if_neg (by simp)]
    by_cases h1 : (mapGet (buildCandIdx st.allRows) kv.1).isSome = true
    · by_cases h2 : isOpenForActive
          (match mapGet (buildReqIdx st.reqs)
              (⟨takeUntilC '|' kv.1.data⟩ : String) with
           | some reqRow => (getReqAt st.reqs reqRow).jobStatus
           | none => "") = true
      · rw [if_pos ⟨h1, h2⟩, if_pos (by simp [delKeepB, h1, h2])]
      · rw [if_neg (by
            intro hc
            exact h2 hc.2),
          if_neg (by simp [delKeepB, h2])]
    · rw [if_neg (by
          intro hc
          exact h1 hc.1),
        if_neg (by simp [delKeepB, h1])]
  show (buildCandIdx st.actRows).filterMap _ = _
  rw [buildCandIdx_eq_idxList st.actRows hnd]
  rw [show (fun kv : String × Nat =>
      let jid : String := ⟨takeUntilC '|' kv.1.data⟩
      if ¬ filterJobF [] jid then none
      else
        let inAll := (mapGet (buildCandIdx st.allRows) kv.1).isSome
        let status :=
          match mapGet (buildReqIdx st.reqs) jid with
          | some reqRow => (getReqAt st.reqs reqRow).jobStatus
          | none => ""
        if inAll ∧ isOpenForActive status then none else some kv.2) =
      (fun kv : String × Nat =>
        if delKeepB st kv.1 = true then none else some kv.2) from hbody]
  exact filterMap_gIdx_failPos (delKeepB st) st.actRows dataStart

/-- C1: the membership invariant fails as stated.  With two Active rows
carrying the same composite key (`J1`, `a@x.com`), an empty Candidate
Database and no requisitions, a full reconciliation deletes only one of the
two rows: the candidate index keeps a single binding per key, so the
shadowed duplicate is never visited, and an orphan Active row (with no
matching Candidate row at all) survives the run. -/
theorem C1_counterexample_orphan_persists :
    (∃ a ∈ (reconcileFull [] "T1"
        { reqs := [], allRows := [],
          actRows := [{ jobId := "J1", email := "a@x.com" },
                      { jobId := "J1", email := "a@x.com" }] }).1.actRows,
        rowJid a = "J1" ∧ rowEm a = "a@x.com") ∧
      (reconcileFull [] "T1"
        { reqs := [], allRows := [],
          actRows := [{ jobId := "J1", email := "a@x.com" },
                      { jobId := "J1", email := "a@x.com" }] }).1.allRows = [] := by
  decide

/-- C2: idempotence fails as stated.  A single candidate whose raw email
cell (`John@x.com`) differs from its normalized form: the first full
run inserts the Active row and the mailto-link write leaves the normalized
email `john@x.com` in its email cell; the second run diffs the raw
Candidate Database value against that cell, finds them unequal and performs
an Active-row field write, so the second run is not write-free. -/
theorem C2_counterexample_second_run_writes :
    ((reconcileFull [] "T2"
      (reconcileFull [] "T1"
        { reqs := [{ jobId := "J1", jobTitle := "Engineer", jobStatus := "Open" }],
          allRows := [{ fullName := "John", jobId := "J1", email := "John@x.com",
                        jobTitle := "Engineer", jobStatus := "Open" }],
          actRows := [] }).1).2).actWrites = 1 := by
  decide

theorem actAfterDel_eq (st : SyncState) (hnd : (keysOf st.actRows).Nodup) :
    applyDeletes st.actRows (reconcileDeletePass st []) =
      st.actRows.filter (delSurvives (delKeepB st)) := by
  rw [deletePass_eq_failPos st hnd,
    applyDeletes_eq_keepRows _ _ (failPos_sorted _ _ _)
      (fun d hd => (failPos_bounds _ _ _ d hd).1),
    keepRows_failPos]

/-!
## Field-map write lemmas -/

theorem CRow.get_set (r : CRow) (g f : CField) (v : String) :
    (r.set g v).get f = if g = f then v else r.get f := by
  cases g <;> cases f <;> rfl

theorem applyPairs_get (ps : List (CField × String)) (r : CRow) (f : CField) :
    (applyPairs r ps).get f = lastVal ps f (r.get f) := by
  induction ps generalizing r with
  | nil => rfl
  | cons p t ih =>
    show (applyPairs (r.set p.1 p.2) t).get f =
      lastVal t f (if p.1 = f then p.2 else r.get f)
    rw [ih, CRow.get_set]

theorem lastVal_of_not_mem (ps : List (CField × String)) (f : CField)
    (d : String) (h : ∀ p ∈ ps, p.1 ≠ f) : lastVal ps f d = d := by
  induction ps generalizing d with
  | nil => rfl
  | cons p t ih =>
    show lastVal t f (if p.1 = f then p.2 else d) = d
    rw [if_neg (h p (List.mem_cons_self p t)), ih _ (fun q hq => h q (List.mem_cons_of_mem p hq))]

theorem applyPairs_get_of_not_mem (ps : List (CField × String)) (r : CRow)
    (f : CField) (h : ∀ p ∈ ps, p.1 ≠ f) : (applyPairs r ps).get f = r.get f := by
  rw [applyPairs_get, lastVal_of_not_mem _ _ _ h]

theorem lastVal_map_mem (L : List CField) (data : CRow) (f : CField)
    (d : String) :
    lastVal (L.map (fun g => (g, data.get g))) f d =
      if f ∈ L then data.get f else d := by
  induction L generalizing d with
  | nil => simp [lastVal]
  | cons g t ih =>
    show lastVal (t.map _) f (if g = f then data.get g else d) = _
    rw [ih]
    by_cases hf : f ∈ t
    · rw [if_pos hf, if_pos (List.mem_cons.mpr (Or.inr hf))]
    · rw [if_neg hf]
      by_cases hg : g = f
      · subst hg
        rw [if_pos rfl, if_pos (List.mem_cons_self g t)]
      · rw [if_neg hg, if_neg (by
          intro hc
          rcases List.mem_cons.mp hc with h1 | h1
          · exact hg h1.symm
          · exact hf h1)]

theorem lastVal_diffPairs (L : List CField) (hnd : L.Nodup) (data cur : CRow)
    (f : CField) (d : String) :
    lastVal (diffPairs (L.map (fun g => (g, data.get g))) cur) f d =
      if f ∈ L ∧ valsEqual (data.get f) (cur.get f) = false then data.get f
      else d := by
  induction L generalizing d with
  | nil => simp [diffPairs, lastVal]
  | cons g t ih =>
    obtain ⟨hgt, hndt⟩ := List.nodup_cons.mp hnd
    simp only [List.map_cons, diffPairs, List.filter_cons]
    by_cases hv : valsEqual (data.get g) (cur.get g) = true
    · rw [if_neg (by simp [hv])]
      have hrec := ih hndt d
      unfold diffPairs at hrec
      rw [hrec]
      by_cases hg : g = f
      · subst hg
        rw [if_neg (by
            rintro ⟨_, hvf⟩
            rw [hv] at hvf
            cases hvf),
          if_neg (by
            rintro ⟨hmem, hvf⟩
            rw [hv] at hvf
            cases hvf)]
      · by_cases hf : f ∈ t
        · have hiff : (f ∈ t ∧ valsEqual (data.get f) (cur.get f) = false) ↔
              (f ∈ g :: t ∧ valsEqual (data.get f) (cur.get f) = false) := by
            constructor
            · rintro ⟨_, hb⟩
              exact ⟨List.mem_cons.mpr (Or.inr hf), hb⟩
            · rintro ⟨_, hb⟩
              exact ⟨hf, hb⟩
          rw [if_congr hiff rfl rfl]
        · rw [if_neg (by rintro ⟨h1, _⟩; exact hf h1),
            if_neg (by
              rintro ⟨h1, _⟩
              rcases List.mem_cons.mp h1 with h2 | h2
              · exact hg h2.symm
              · exact hf h2)]
    · rw [if_pos (by simp [hv])]
      show lastVal (diffPairs (t.map _) cur) f (if g = f then data.get g else d) = _
      rw [ih hndt]
      by_cases hf : f ∈ t
      · have hiff : (f ∈ t ∧ valsEqual (data.get f) (cur.get f) = false) ↔
            (f ∈ g :: t ∧ valsEqual (data.get f) (cur.get f) = false) := by
          constructor
          · rintro ⟨_, hb⟩
            exact ⟨List.mem_cons.mpr (Or.inr hf), hb⟩
          · rintro ⟨_, hb⟩
            exact ⟨hf, hb⟩
        rw [if_neg (show ¬ g = f from fun h => hgt (h ▸ hf)),
          if_congr hiff rfl rfl]
      · rw [if_neg (by rintro ⟨h1, _⟩; exact hf h1)]
        by_cases hg : g = f
        · subst hg
          rw [if_pos rfl,
            if_pos ⟨List.mem_cons_self g t, Bool.eq_false_iff.mpr hv⟩]
        · rw [if_neg hg, if_neg (by
            rintro ⟨h1, _⟩
            rcases List.mem_cons.mp h1 with h2 | h2
            · exact hg h2.symm
            · exact hf h2)]

theorem applyPairs_diffPairs_get (data cur : CRow) (f : CField) :
    (applyPairs cur
        (diffPairs (desiredFields.map (fun g => (g, data.get g))) cur)).get f =
      if f ∈ desiredFields ∧ valsEqual (data.get f) (cur.get f) = false then
        data.get f
      else cur.get f := by
  rw [applyPairs_get, lastVal_diffPairs desiredFields (by decide)]

theorem diffPairs_eq_nil (want : List (CField × String)) (cur : CRow) :
    diffPairs want cur = [] ↔ ∀ p ∈ want, valsEqual p.2 (cur.get p.1) = true := by
  unfold diffPairs
  rw [List.filter_eq_nil]
  simp

theorem diffPairs_mem (want : List (CField × String)) (cur : CRow)
    (p : CField × String) (h : p ∈ diffPairs want cur) : p ∈ want :=
  List.mem_of_mem_filter h

theorem valsEqual_refl (a : String) : valsEqual a a = true := by
  unfold valsEqual
  cases h : parseNumLit a.data with
  | none => simp
  | some p => simp

/-!
## Composite-key lemmas -/

theorem keyFor_eval (n : Nat) (a b : String)
    (h : ¬(trimS a = "" ∧ normEmail b = "")) :
    keyFor n a b = trimS a ++ "|" ++ normEmail b := by
  unfold keyFor
  rw [if_neg h]

theorem rowKeyed_or (r : CRow) (hk : rowKeyed r = true) :
    rowJid r ≠ "" ∨ rowEm r ≠ "" := by
  unfold rowKeyed at hk
  rcases Bool.or_eq_true_iff.mp hk with h | h
  · exact Or.inl (of_decide_eq_true h)
  · exact Or.inr (of_decide_eq_true h)

theorem rowKeyStr_eval (r : CRow) (hst : emailStable r) (hk : rowKeyed r = true) :
    rowKeyStr r = rowJid r ++ "|" ++ rowEm r := by
  have h1 : trimS (rowJid r) = rowJid r := trimS_idem r.jobId
  have h2 : normEmail (rowEm r) = rowEm r := hst
  unfold rowKeyStr
  rw [keyFor_eval 0 (rowJid r) (rowEm r) (by
    rw [h1, h2]
    rintro ⟨e1, e2⟩
    rcases rowKeyed_or r hk with h | h
    · exact h e1
    · exact h e2), h1, h2]

theorem bar_append_inj (l₁ : List Char) :
    ∀ (l₂ r₁ r₂ : List Char), '|' ∉ l₁ → '|' ∉ l₂ →
      l₁ ++ '|' :: r₁ = l₂ ++ '|' :: r₂ → l₁ = l₂ ∧ r₁ = r₂ := by
  induction l₁ with
  | nil =>
    intro l₂ r₁ r₂ _ h₂ he
    cases l₂ with
    | nil => simpa using he
    | cons c t =>
      simp only [List.nil_append, List.cons_append, List.cons.injEq] at he
      exact absurd (he.1 ▸ List.mem_cons_self c t) h₂
  | cons c t ih =>
    intro l₂ r₁ r₂ h₁ h₂ he
    cases l₂ with
    | nil =>
      simp only [List.cons_append, List.nil_append, List.cons.injEq] at he
      exact absurd (he.1 ▸ List.mem_cons_self c t) h₁
    | cons d s =>
      simp only [List.cons_append, List.cons.injEq] at he
      obtain ⟨hcd, hrest⟩ := he
      have h₁t : '|' ∉ t := fun hc => h₁ (List.mem_cons_of_mem c hc)
      have h₂s : '|' ∉ s := fun hc => h₂ (List.mem_cons_of_mem d hc)
      obtain ⟨hts, hr⟩ := ih s r₁ r₂ h₁t h₂s hrest
      exact ⟨by rw [hcd, hts], hr⟩

theorem string_bar_inj (x₁ x₂ y₁ y₂ : String) (h₁ : '|' ∉ x₁.data)
    (h₂ : '|' ∉ x₂.data) (he : x₁ ++ "|" ++ y₁ = x₂ ++ "|" ++ y₂) :
    x₁ = x₂ ∧ y₁ = y₂ := by
  have hd : x₁.data ++ '|' :: y₁.data = x₂.data ++ '|' :: y₂.data := by
    have h0 := congrArg String.data he
    simpa [String.data_append] using h0
  obtain ⟨ha, hb⟩ := bar_append_inj x₁.data x₂.data y₁.data y₂.data h₁ h₂ hd
  constructor
  · rw [← string_mk_data x₁, ← string_mk_data x₂, ha]
  · rw [← string_mk_data y₁, ← string_mk_data y₂, hb]

theorem takeUntilC_bar (l r : List Char) (h : '|' ∉ l) :
    takeUntilC '|' (l ++ '|' :: r) = l := by
  induction l with
  | nil => simp [takeUntilC]
  | cons c t ih =>
    have hc : ¬ c = '|' := fun hc => h (hc ▸ List.mem_cons_self c t)
    simp only [List.cons_append, takeUntilC, if_neg hc]
    show c :: takeUntilC '|' (t ++ '|' :: r) = c :: t
    rw [ih (fun hm => h (List.mem_cons_of_mem c hm))]

theorem mem_keysOf (rows : List CRow) (k : String) :
    k ∈ keysOf rows ↔ ∃ r ∈ rows, rowKeyOpt r = some k := by
  unfold keysOf
  rw [List.mem_filterMap]

theorem keysOf_append (a b : List CRow) :
    keysOf (a ++ b) = keysOf a ++ keysOf b := by
  unfold keysOf
  rw [List.filterMap_append]

theorem keysOf_set (l : List CRow) :
    ∀ (i : Nat) (h : i < l.length) (b : CRow),
      rowKeyOpt b = rowKeyOpt (l.get ⟨i, h⟩) → keysOf (l.set i b) = keysOf l := by
  induction l with
  | nil => intro i h; simp at h
  | cons x t ih =>
    intro i h b he
    match i with
    | 0 =>
      show keysOf (b :: t) = keysOf (x :: t)
      unfold keysOf
      simp only [List.filterMap_cons]
      have hx : rowKeyOpt b = rowKeyOpt x := he
      rw [hx]
    | i + 1 =>
      show keysOf (x :: t.set i b) = keysOf (x :: t)
      unfold keysOf
      simp only [List.filterMap_cons]
      have ht : t.filterMap rowKeyOpt = (t.set i b).filterMap rowKeyOpt := by
        have h1 : i < t.length := by
          simp only [List.length_cons] at h
          omega
        exact (ih i h1 b he).symm
      rw [← ht]

theorem getCRowAt_set_self (l : List CRow) (i : Nat) (h : i < l.length)
    (b : CRow) : getCRowAt (l.set i b) (dataStart + i) = b := by
  rw [getCRowAt_eq (l.set i b) i (by simpa using h)]
  exact List.get_set_eq (by simpa using h)

theorem set_concat_length (l : List CRow) (x b : CRow) :
    (l ++ [x]).set l.length b = l ++ [b] := by
  induction l with
  | nil => rfl
  | cons c t ih =>
    show c :: ((t ++ [x]).set t.length b) = c :: (t ++ [b])
    rw [ih]

theorem keysOf_nodup_unique (l : List CRow) (hnd : (keysOf l).Nodup)
    (a b : CRow) (k : String) (ha : a ∈ l) (hb : b ∈ l)
    (hka : rowKeyOpt a = some k) (hkb : rowKeyOpt b = some k) : a = b := by
  obtain ⟨⟨i, hi⟩, hia⟩ := List.mem_iff_get.mp ha
  obtain ⟨⟨j, hj⟩, hjb⟩ := List.mem_iff_get.mp hb
  have hij : i = j := by
    apply filterMap_nodup_unique_idx rowKeyOpt l hnd i j hi hj k
    · rw [hia]
      exact hka
    · rw [hjb]
      exact hkb
  rw [← hia, ← hjb]
  congr 1
  exact Fin.ext hij

theorem candLookup_spec (rows : List CRow) (hnd : (keysOf rows).Nodup)
    (k : String) (p : Nat) (h : mapGet (buildCandIdx rows) k = some p) :
    ∃ i, ∃ hi : i < rows.length,
      p = dataStart + i ∧ rowKeyOpt (rows.get ⟨i, hi⟩) = some k ∧
        getCRowAt rows p = rows.get ⟨i, hi⟩ := by
  rw [buildCandIdx_eq_idxList rows hnd] at h
  have hm := mapGet_mem _ _ _ h
  obtain ⟨i, hi, hk, hp⟩ := (mem_gIdxList rowKeyOpt rows dataStart (k, p)).mp hm
  refine ⟨i, hi, by simpa using hp, hk, ?_⟩
  rw [show p = dataStart + i from by simpa using hp]
  exact getCRowAt_eq rows i hi

theorem mapGet_candIdx_none (rows : List CRow) (k : String)
    (h : mapGet (buildCandIdx rows) k = none) : k ∉ keysOf rows := by
  intro hk
  obtain ⟨r, hr, hkr⟩ := (mem_keysOf rows k).mp hk
  have := (mapGet_candIdx_isSome rows k).mpr ⟨r, hr, hkr⟩
  rw [h] at this
  simp at this

/-!
## Hyperlink-write row lemmas -/

theorem normPhone_ne (s : String) (h : normPhone s ≠ "") : s ≠ "" := by
  intro hs
  subst hs
  exact h rfl

theorem setHyperlinkVal_or (cur url label target : String) (h : cur = target) :
    setHyperlinkVal cur url label = target ∨
      setHyperlinkVal cur url label = label := by
  subst h
  simp only [setHyperlinkVal]
  repeat' split
  · exact Or.inl rfl
  · exact Or.inl rfl
  · exact Or.inr rfl

theorem linkRow_email (allRows acts : List CRow) (t rn : Nat) (data : CRow)
    (ru lu : String) :
    (linkRow allRows acts t rn data ru lu).email = (getCRowAt acts t).email ∨
      (linkRow allRows acts t rn data ru lu).email = normEmail data.email := by
  simp only [linkRow, apply_ite CRow.email, ite_self]
  split
  · exact setHyperlinkVal_or _ _ _ _ rfl
  · exact Or.inl rfl

theorem linkRow_phone (allRows acts : List CRow) (t rn : Nat) (data : CRow)
    (ru lu : String) :
    (linkRow allRows acts t rn data ru lu).phone = (getCRowAt acts t).phone ∨
      ((linkRow allRows acts t rn data ru lu).phone = data.phone ∧
        data.phone ≠ "") := by
  simp only [linkRow, apply_ite CRow.phone, ite_self]
  split
  · rename_i hpc
    have hdp : data.phone ≠ "" := normPhone_ne data.phone hpc.1
    rw [if_pos hdp]
    exact (setHyperlinkVal_or _ _ _ _ rfl).imp id (fun h => ⟨h, hdp⟩)
  · exact Or.inl rfl

theorem linkRow_jobId (allRows acts : List CRow) (t rn : Nat) (data : CRow)
    (ru lu : String) :
    (linkRow allRows acts t rn data ru lu).jobId = (getCRowAt acts t).jobId := by
  simp only [linkRow, apply_ite CRow.jobId, ite_self]

theorem linkRow_get_other (allRows acts : List CRow) (t rn : Nat) (data : CRow)
    (ru lu : String) (f : CField) (h1 : f ≠ CField.resume)
    (h2 : f ≠ CField.linkedin) (h3 : f ≠ CField.email) (h4 : f ≠ CField.phone) :
    (linkRow allRows acts t rn data ru lu).get f = (getCRowAt acts t).get f := by
  cases f <;>
    first
    | exact absurd rfl h1
    | exact absurd rfl h2
    | exact absurd rfl h3
    | exact absurd rfl h4
    | simp only [CRow.get, linkRow, ite_self,
        apply_ite CRow.fullName, apply_ite CRow.city, apply_ite CRow.state,
        apply_ite CRow.targetSalary, apply_ite CRow.targetHourly,
        apply_ite CRow.jobId, apply_ite CRow.jobStatus, apply_ite CRow.jobTitle,
        apply_ite CRow.stage, apply_ite CRow.rejectedReason,
        apply_ite CRow.interviewNotes, apply_ite CRow.created,
        apply_ite CRow.updated, apply_ite CRow.hiredDate]


/-!
## Upsert characterization -/

theorem rowKeyOpt_some (r : CRow) (k : String) (h : rowKeyOpt r = some k) :
    rowKeyed r = true ∧ rowKeyStr r = k := by
  unfold rowKeyOpt at h
  by_cases hk : rowKeyed r = true
  · rw [if_pos hk] at h
    exact ⟨hk, by simpa using h⟩
  · rw [if_neg hk] at h
    cases h

theorem rowKeyed_of_jid (r : CRow) (h : rowJid r ≠ "") : rowKeyed r = true := by
  unfold rowKeyed
  rw [Bool.or_eq_true_iff]
  exact Or.inl (decide_eq_true h)

theorem rowKeyOpt_eval (r : CRow) (hst : emailStable r) (hk : rowKeyed r = true) :
    rowKeyOpt r = some (rowJid r ++ "|" ++ rowEm r) := by
  unfold rowKeyOpt
  rw [if_pos hk, rowKeyStr_eval r hst hk]

theorem rowKey_components (r : CRow) (hbar : barFree r) (hst : emailStable r)
    (hkd : rowKeyed r = true) (x y : String) (hxbar : '|' ∉ x.data)
    (he : rowKeyStr r = x ++ "|" ++ y) : rowJid r = x ∧ rowEm r = y := by
  rw [rowKeyStr_eval r hst hkd] at he
  exact string_bar_inj (rowJid r) x (rowEm r) y hbar hxbar he

theorem set_get_self (l : List CRow) :
    ∀ (i : Nat) (h : i < l.length), l.set i (l.get ⟨i, h⟩) = l := by
  induction l with
  | nil => intro i h; simp at h
  | cons x t ih =>
    intro i h
    match i with
    | 0 => rfl
    | i + 1 =>
      have h' : i < t.length := by
        simp only [List.length_cons] at h
        omega
      have hg : (x :: t).get ⟨i + 1, h⟩ = t.get ⟨i, h'⟩ := rfl
      show x :: t.set i ((x :: t).get ⟨i + 1, h⟩) = x :: t
      rw [hg, ih i h']

theorem get_concat_length (l : List CRow) (x : CRow)
    (h : l.length < (l ++ [x]).length) : (l ++ [x]).get ⟨l.length, h⟩ = x := by
  induction l with
  | nil => rfl
  | cons c t ih =>
    have h' : t.length < (t ++ [x]).length := by simp
    have hg : ((c :: t) ++ [x]).get ⟨(c :: t).length, h⟩ =
        (t ++ [x]).get ⟨t.length, h'⟩ := rfl
    rw [hg, ih h']

theorem get_jobId (r : CRow) : r.get CField.jobId = r.jobId := rfl

theorem get_email (r : CRow) : r.get CField.email = r.email := rfl

set_option maxHeartbeats 1000000 in
theorem upsert_keys (allRows acts : List CRow) (rowNum : Nat) (data : CRow)
    (ru lu : String)
    (hjid : normStr data.jobId ≠ "") (heml : normEmail data.email ≠ "")
    (hstD : emailStable data) (hbarD : '|' ∉ (trimS data.jobId).data)
    (hnd : (keysOf acts).Nodup)
    (hrows : ∀ r ∈ acts, barFree r ∧ emailStable r) :
    (∀ k', k' ∈ keysOf (upsertActiveRow allRows acts rowNum data ru lu).1 ↔
        (k' ∈ keysOf acts ∨
          k' = keyFor 0 (normStr data.jobId) (normEmail data.email))) ∧
      (keysOf (upsertActiveRow allRows acts rowNum data ru lu).1).Nodup ∧
      (∀ r ∈ (upsertActiveRow allRows acts rowNum data ru lu).1,
        barFree r ∧ emailStable r) := by
  have hcond : ¬(normStr data.jobId = "" ∨ normEmail data.email = "") := by
    rintro (h | h)
    · exact hjid h
    · exact heml h
  have hkval : keyFor 0 (normStr data.jobId) (normEmail data.email) =
      trimS data.jobId ++ "|" ++ normEmail data.email := by
    rw [keyFor_eval 0 (normStr data.jobId) (normEmail data.email) (by
      rintro ⟨h1, _⟩
      apply hjid
      have h2 : trimS (trimS data.jobId) = "" := h1
      rw [trimS_idem data.jobId] at h2
      exact h2),
      show trimS (normStr data.jobId) = trimS data.jobId from trimS_idem data.jobId,
      hstD]
  cases hlook : mapGet (buildCandIdx acts)
      (keyFor 0 (normStr data.jobId) (normEmail data.email)) with
  | none =>
    have hres : (upsertActiveRow allRows acts rowNum data ru lu).1 =
        applyLinksAt allRows
          (acts ++ [applyPairs {} (desiredFields.map (fun f => (f, data.get f)))])
          (acts.length + dataStart) rowNum data ru lu := by
      simp only [upsertActiveRow, if_neg hcond, hlook]
    have hknotin : keyFor 0 (normStr data.jobId) (normEmail data.email) ∉
        keysOf acts := mapGet_candIdx_none acts _ hlook
    have hlen : acts.length <
        (acts ++ [applyPairs {} (desiredFields.map (fun f => (f, data.get f)))]).length := by
      simp
    have hgetN : getCRowAt
        (acts ++ [applyPairs {} (desiredFields.map (fun f => (f, data.get f)))])
        (acts.length + dataStart) =
        applyPairs {} (desiredFields.map (fun f => (f, data.get f))) := by
      rw [Nat.add_comm acts.length dataStart, getCRowAt_eq _ acts.length hlen]
      exact get_concat_length acts _ hlen
    have hrnJ : (applyPairs {} (desiredFields.map (fun f => (f, data.get f)))).jobId =
        data.jobId := by
      rw [← get_jobId (applyPairs {} (desiredFields.map (fun f => (f, data.get f)))),
        applyPairs_get, lastVal_map_mem,
        if_pos (show CField.jobId ∈ desiredFields by decide), get_jobId]
    have hrnE : (applyPairs {} (desiredFields.map (fun f => (f, data.get f)))).email =
        data.email := by
      rw [← get_email (applyPairs {} (desiredFields.map (fun f => (f, data.get f)))),
        applyPairs_get, lastVal_map_mem,
        if_pos (show CField.email ∈ desiredFields by decide), get_email]
    have hres2 : (upsertActiveRow allRows acts rowNum data ru lu).1 =
        acts ++ [linkRow allRows
          (acts ++ [applyPairs {} (desiredFields.map (fun f => (f, data.get f)))])
          (acts.length + dataStart) rowNum data ru lu] := by
      rw [hres]
      unfold applyLinksAt
      rw [show acts.length + dataStart - dataStart = acts.length from by omega]
      exact set_concat_length acts _ _
    have hbJ : (linkRow allRows
        (acts ++ [applyPairs {} (desiredFields.map (fun f => (f, data.get f)))])
        (acts.length + dataStart) rowNum data ru lu).jobId = data.jobId := by
      rw [linkRow_jobId, hgetN, hrnJ]
    have hbE : normEmail (linkRow allRows
        (acts ++ [applyPairs {} (desiredFields.map (fun f => (f, data.get f)))])
        (acts.length + dataStart) rowNum data ru lu).email =
        normEmail data.email := by
      rcases linkRow_email allRows
        (acts ++ [applyPairs {} (desiredFields.map (fun f => (f, data.get f)))])
        (acts.length + dataStart) rowNum data ru lu with h | h
      · rw [h, hgetN, hrnE]
      · rw [h, hstD]
    have hbStable : emailStable (linkRow allRows
        (acts ++ [applyPairs {} (desiredFields.map (fun f => (f, data.get f)))])
        (acts.length + dataStart) rowNum data ru lu) := by
      unfold emailStable
      rw [hbE, hstD]
    have hbBar : barFree (linkRow allRows
        (acts ++ [applyPairs {} (desiredFields.map (fun f => (f, data.get f)))])
        (acts.length + dataStart) rowNum data ru lu) := by
      unfold barFree
      rw [hbJ]
      exact hbarD
    have hbKey : rowKeyOpt (linkRow allRows
        (acts ++ [applyPairs {} (desiredFields.map (fun f => (f, data.get f)))])
        (acts.length + dataStart) rowNum data ru lu) =
        some (keyFor 0 (normStr data.jobId) (normEmail data.email)) := by
      rw [rowKeyOpt_eval _ hbStable (rowKeyed_of_jid _ (by
        unfold rowJid
        rw [hbJ]
        exact hjid))]
      unfold rowJid rowEm
      rw [hbJ, hbE, hkval]
    have hkeys : keysOf (upsertActiveRow allRows acts rowNum data ru lu).1 =
        keysOf acts ++ [keyFor 0 (normStr data.jobId) (normEmail data.email)] := by
      rw [hres2, keysOf_append]
      congr 1
      unfold keysOf
      rw [List.filterMap_cons_some hbKey]
      rfl
    refine ⟨?_, ?_, ?_⟩
    · intro k'
      rw [hkeys, List.mem_append, List.mem_singleton]
    · rw [hkeys, List.nodup_append]
      exact ⟨hnd, List.nodup_singleton _, by
        intro a ha hb
        rw [List.mem_singleton] at hb
        subst hb
        exact hknotin ha⟩
    · intro r hr
      rw [hres2] at hr
      rcases List.mem_append.mp hr with h | h
      · exact hrows r h
      · rw [List.mem_singleton] at h
        subst h
        exact ⟨hbBar, hbStable⟩
  | some er =>
    obtain ⟨i, hi, hper, hkey, hget⟩ := candLookup_spec acts hnd _ er hlook
    subst hper
    have hcurKeyed : rowKeyed (acts.get ⟨i, hi⟩) = true :=
      (rowKeyOpt_some _ _ hkey).1
    have hcurStr : rowKeyStr (acts.get ⟨i, hi⟩) =
        keyFor 0 (normStr data.jobId) (normEmail data.email) :=
      (rowKeyOpt_some _ _ hkey).2
    obtain ⟨hbarC, hstC⟩ := hrows _ (acts.get_mem i hi)
    have hpair := rowKey_components _ hbarC hstC hcurKeyed (trimS data.jobId)
      (normEmail data.email) hbarD (hcurStr.trans hkval)
    have hres : (upsertActiveRow allRows acts rowNum data ru lu).1 =
        applyLinksAt allRows
          (acts.set i (applyPairs (acts.get ⟨i, hi⟩)
            (diffPairs (desiredFields.map (fun f => (f, data.get f)))
              (acts.get ⟨i, hi⟩))))
          (dataStart + i) rowNum data ru lu := by
      simp only [upsertActiveRow, if_neg hcond, hlook, hget]
      by_cases hdiff : diffPairs (desiredFields.map (fun f => (f, data.get f)))
          (acts.get ⟨i, hi⟩) ≠ []
      · rw [if_pos hdiff]
        unfold writeCRowAt
        rw [show dataStart + i - dataStart = i from by omega, hget]
      · rw [if_neg hdiff]
        push_neg at hdiff
        rw [hdiff, show applyPairs (acts.get ⟨i, hi⟩)
            ([] : List (CField × String)) = acts.get ⟨i, hi⟩ from rfl,
          set_get_self acts i hi]
    have hcJ : trimS (applyPairs (acts.get ⟨i, hi⟩)
        (diffPairs (desiredFields.map (fun f => (f, data.get f)))
          (acts.get ⟨i, hi⟩))).jobId = trimS data.jobId := by
      rw [← get_jobId (applyPairs (acts.get ⟨i, hi⟩)
        (diffPairs (desiredFields.map (fun f => (f, data.get f)))
          (acts.get ⟨i, hi⟩))), applyPairs_diffPairs_get]
      split
      · rw [get_jobId]
      · rw [get_jobId]
        exact hpair.1
    have hcE : normEmail (applyPairs (acts.get ⟨i, hi⟩)
        (diffPairs (desiredFields.map (fun f => (f, data.get f)))
          (acts.get ⟨i, hi⟩))).email = normEmail data.email := by
      rw [← get_email (applyPairs (acts.get ⟨i, hi⟩)
        (diffPairs (desiredFields.map (fun f => (f, data.get f)))
          (acts.get ⟨i, hi⟩))), applyPairs_diffPairs_get]
      split
      · rw [get_email]
      · rw [get_email]
        exact hpair.2
    have hgetS : getCRowAt (acts.set i (applyPairs (acts.get ⟨i, hi⟩)
        (diffPairs (desiredFields.map (fun f => (f, data.get f)))
          (acts.get ⟨i, hi⟩)))) (dataStart + i) =
        applyPairs (acts.get ⟨i, hi⟩)
          (diffPairs (desiredFields.map (fun f => (f, data.get f)))
            (acts.get ⟨i, hi⟩)) :=
      getCRowAt_set_self acts i hi _
    have hres2 : (upsertActiveRow allRows acts rowNum data ru lu).1 =
        acts.set i (linkRow allRows
          (acts.set i (applyPairs (acts.get ⟨i, hi⟩)
            (diffPairs (desiredFields.map (fun f => (f, data.get f)))
              (acts.get ⟨i, hi⟩))))
          (dataStart + i) rowNum data ru lu) := by
      rw [hres]
      unfold applyLinksAt
      rw [show dataStart + i - dataStart = i from by omega, List.set_set]
    have hbJ : (linkRow allRows
        (acts.set i (applyPairs (acts.get ⟨i, hi⟩)
          (diffPairs (desiredFields.map (fun f => (f, data.get f)))
            (acts.get ⟨i, hi⟩))))
        (dataStart + i) rowNum data ru lu).jobId =
        (applyPairs (acts.get ⟨i, hi⟩)
          (diffPairs (desiredFields.map (fun f => (f, data.get f)))
            (acts.get ⟨i, hi⟩))).jobId := by
      rw [linkRow_jobId, hgetS]
    have hbE : normEmail (linkRow allRows
        (acts.set i (applyPairs (acts.get ⟨i, hi⟩)
          (diffPairs (desiredFields.map (fun f => (f, data.get f)))
            (acts.get ⟨i, hi⟩))))
        (dataStart + i) rowNum data ru lu).email = normEmail data.email := by
      rcases linkRow_email allRows
        (acts.set i (applyPairs (acts.get ⟨i, hi⟩)
          (diffPairs (desiredFields.map (fun f => (f, data.get f)))
            (acts.get ⟨i, hi⟩))))
        (dataStart + i) rowNum data ru lu with h | h
      · rw [h, hgetS, hcE]
      · rw [h, hstD]
    have hbStable : emailStable (linkRow allRows
        (acts.set i (applyPairs (acts.get ⟨i, hi⟩)
          (diffPairs (desiredFields.map (fun f => (f, data.get f)))
            (acts.get ⟨i, hi⟩))))
        (dataStart + i) rowNum data ru lu) := by
      unfold emailStable
      rw [hbE, hstD]
    have hbBar : barFree (linkRow allRows
        (acts.set i (applyPairs (acts.get ⟨i, hi⟩)
          (diffPairs (desiredFields.map (fun f => (f, data.get f)))
            (acts.get ⟨i, hi⟩))))
        (dataStart + i) rowNum data ru lu) := by
      unfold barFree
      rw [hbJ, hcJ]
      exact hbarD
    have hbKey : rowKeyOpt (linkRow allRows
        (acts.set i (applyPairs (acts.get ⟨i, hi⟩)
          (diffPairs (desiredFields.map (fun f => (f, data.get f)))
            (acts.get ⟨i, hi⟩))))
        (dataStart + i) rowNum data ru lu) =
        some (keyFor 0 (normStr data.jobId) (normEmail data.email)) := by
      rw [rowKeyOpt_eval _ hbStable (rowKeyed_of_jid _ (by
        unfold rowJid
        rw [hbJ, hcJ]
        exact hjid))]
      unfold rowJid rowEm
      rw [hbJ, hcJ, hbE, hkval]
    have hkeys : keysOf (upsertActiveRow allRows acts rowNum data ru lu).1 =
        keysOf acts := by
      rw [hres2]
      exact keysOf_set acts i hi _ (hbKey.trans hkey.symm)
    have hkin : keyFor 0 (normStr data.jobId) (normEmail data.email) ∈
        keysOf acts :=
      (mem_keysOf acts _).mpr ⟨acts.get ⟨i, hi⟩, acts.get_mem i hi, hkey⟩
    refine ⟨?_, ?_, ?_⟩
    · intro k'
      rw [hkeys]
      constructor
      · exact Or.inl
      · rintro (h | h)
        · exact h
        · subst h
          exact hkin
    · rw [hkeys]
      exact hnd
    · intro r hr
      rw [hres2] at hr
      rcases List.mem_or_eq_of_mem_set hr with h | h
      · exact hrows r h
      · subst h
        exact ⟨hbBar, hbStable⟩


/-!
## Identity preservation and snapshot lemmas -/

theorem rowKeyOpt_congr (r r' : CRow) (h1 : r.jobId = r'.jobId)
    (h2 : r.email = r'.email) : rowKeyOpt r = rowKeyOpt r' := by
  unfold rowKeyOpt rowKeyed rowKeyStr rowJid rowEm
  rw [h1, h2]

theorem idPreserved_refl (a : List CRow) : idPreserved a a :=
  ⟨rfl, fun _ _ _ => ⟨rfl, rfl⟩⟩

theorem idPreserved_trans (a b c : List CRow) (h1 : idPreserved a b)
    (h2 : idPreserved b c) : idPreserved a c := by
  obtain ⟨hl1, hp1⟩ := h1
  obtain ⟨hl2, hp2⟩ := h2
  refine ⟨hl1.trans hl2, fun i ha hc => ?_⟩
  have hb : i < b.length := by omega
  obtain ⟨hj1, he1⟩ := hp1 i ha hb
  obtain ⟨hj2, he2⟩ := hp2 i hb hc
  exact ⟨hj1.trans hj2, he1.trans he2⟩

theorem getCRowAt_sub (rows : List CRow) (row : Nat)
    (h : row - dataStart < rows.length) :
    getCRowAt rows row = rows.get ⟨row - dataStart, h⟩ := by
  unfold getCRowAt
  rw [List.drop_eq_getElem_cons h]
  rfl

theorem set_oob (l : List CRow) :
    ∀ (i : Nat), l.length ≤ i → ∀ b, l.set i b = l := by
  induction l with
  | nil => intro i h b; rfl
  | cons x t ih =>
    intro i h b
    match i with
    | 0 => simp at h
    | i + 1 =>
      show x :: t.set i b = x :: t
      rw [ih i (by simp only [List.length_cons] at h; omega) b]

theorem idPreserved_write (rows : List CRow) (row : Nat)
    (ps : List (CField × String))
    (hps : ∀ p ∈ ps, p.1 ≠ CField.jobId ∧ p.1 ≠ CField.email) :
    idPreserved rows (writeCRowAt rows row ps) := by
  unfold writeCRowAt
  by_cases hj : row - dataStart < rows.length
  · refine ⟨(List.length_set _ _ _).symm, fun i ha hb => ?_⟩
    by_cases hij : row - dataStart = i
    · subst hij
      have hget : (rows.set (row - dataStart)
          (applyPairs (getCRowAt rows row) ps)).get ⟨row - dataStart, hb⟩ =
          applyPairs (getCRowAt rows row) ps := List.get_set_eq hb
      rw [hget, getCRowAt_sub rows row hj]
      constructor
      · exact (applyPairs_get_of_not_mem ps _ CField.jobId
          (fun p hp => (hps p hp).1)).symm
      · exact (applyPairs_get_of_not_mem ps _ CField.email
          (fun p hp => (hps p hp).2)).symm
    · have hget : (rows.set (row - dataStart)
          (applyPairs (getCRowAt rows row) ps)).get ⟨i, hb⟩ =
          rows.get ⟨i, ha⟩ := by
        rw [List.get_set]
        rw [if_neg hij]
      rw [hget]
      exact ⟨rfl, rfl⟩
  · rw [set_oob rows (row - dataStart) (by omega) _]
    exact idPreserved_refl rows

theorem idPreserved_exists (a b : List CRow) (h : idPreserved a b)
    (P : String → String → Prop) :
    (∃ r ∈ a, P r.jobId r.email) ↔ (∃ r ∈ b, P r.jobId r.email) := by
  obtain ⟨hl, hp⟩ := h
  constructor
  · rintro ⟨r, hr, hP⟩
    obtain ⟨⟨i, hi⟩, hg⟩ := List.mem_iff_get.mp hr
    have hib : i < b.length := by omega
    obtain ⟨hj, he⟩ := hp i hi hib
    refine ⟨b.get ⟨i, hib⟩, List.get_mem b i hib, ?_⟩
    rw [← hj, ← he, hg]
    exact hP
  · rintro ⟨r, hr, hP⟩
    obtain ⟨⟨i, hi⟩, hg⟩ := List.mem_iff_get.mp hr
    have hia : i < a.length := by omega
    obtain ⟨hj, he⟩ := hp i hia hi
    refine ⟨a.get ⟨i, hia⟩, List.get_mem a i hia, ?_⟩
    rw [hj, he, hg]
    exact hP

theorem idPreserved_keysOf (a : List CRow) :
    ∀ b, idPreserved a b → keysOf a = keysOf b := by
  induction a with
  | nil =>
    intro b h
    have : b.length = 0 := h.1.symm
    rw [List.length_eq_zero.mp this]
  | cons x t ih =>
    intro b h
    obtain ⟨hl, hp⟩ := h
    cases b with
    | nil => simp at hl
    | cons y s =>
      have h0 := hp 0 (by simp) (by simp)
      have hxy : rowKeyOpt x = rowKeyOpt y := rowKeyOpt_congr x y h0.1 h0.2
      have hts : idPreserved t s := by
        refine ⟨by simpa using hl, fun i ha hb => ?_⟩
        have := hp (i + 1) (by simp only [List.length_cons]; omega)
          (by simp only [List.length_cons]; omega)
        exact this
      unfold keysOf
      simp only [List.filterMap_cons]
      rw [hxy]
      have hrec : t.filterMap rowKeyOpt = s.filterMap rowKeyOpt := ih s hts
      rw [hrec]

theorem mem_buildCandRows (rows : List CRow) :
    ∀ (pos : Nat) (pr : Nat × CRow), pr ∈ buildCandRows pos rows →
      pr.2 ∈ rows ∧ rowKeyed pr.2 = true := by
  induction rows with
  | nil => intro pos pr h; simp [buildCandRows] at h
  | cons r rest ih =>
    intro pos pr h
    unfold buildCandRows at h
    by_cases hk : rowKeyed r = true
    · rw [if_pos hk] at h
      rcases List.mem_cons.mp h with h1 | h1
      · subst h1
        exact ⟨List.mem_cons_self r rest, hk⟩
      · obtain ⟨hm, hkk⟩ := ih (pos + 1) pr h1
        exact ⟨List.mem_cons_of_mem r hm, hkk⟩
    · rw [if_neg hk] at h
      obtain ⟨hm, hkk⟩ := ih (pos + 1) pr h
      exact ⟨List.mem_cons_of_mem r hm, hkk⟩

theorem buildCandRows_of_mem (rows : List CRow) :
    ∀ (pos : Nat) (r : CRow), r ∈ rows → rowKeyed r = true →
      ∃ p, (p, r) ∈ buildCandRows pos rows := by
  induction rows with
  | nil => intro pos r h; simp at h
  | cons x rest ih =>
    intro pos r h hk
    rcases List.mem_cons.mp h with h1 | h1
    · subst h1
      refine ⟨pos, ?_⟩
      unfold buildCandRows
      rw [if_pos hk]
      exact List.mem_cons_self _ _
    · obtain ⟨p, hp⟩ := ih (pos + 1) r h1 hk
      refine ⟨p, ?_⟩
      unfold buildCandRows
      by_cases hkx : rowKeyed x = true
      · rw [if_pos hkx]
        exact List.mem_cons_of_mem _ hp
      · rw [if_neg hkx]
        exact hp


/-!
## Reconcile loop step lemmas -/

theorem filterJobF_nil (jid : String) : filterJobF [] jid = true := by
  simp [filterJobF]

theorem reconcileStep_skip (reqs : List ReqRow) (reqIdx : List (String × Nat))
    (now : String) (acc : RecAcc) (pr : Nat × CRow)
    (h : normStr pr.2.jobId = "" ∨ normEmail pr.2.email = "") :
    reconcileStep reqs reqIdx [] now [] acc pr = acc := by
  simp only [reconcileStep]
  rw [if_pos]
  rcases h with h | h
  · exact Or.inl h
  · exact Or.inr (Or.inl h)

theorem reconcileStep_processed (reqs : List ReqRow)
    (reqIdx : List (String × Nat)) (now : String) (acc : RecAcc)
    (pr : Nat × CRow) (hj : normStr pr.2.jobId ≠ "")
    (he : normEmail pr.2.email ≠ "")
    (hk : keyFor 0 (normStr pr.2.jobId) (normEmail pr.2.email) ∈ acc.processed) :
    reconcileStep reqs reqIdx [] now [] acc pr = acc := by
  simp only [reconcileStep]
  rw [if_neg (by
    rintro (h | h | h)
    · exact hj h
    · exact he h
    · exact h (filterJobF_nil _)), if_pos hk]


theorem reconcileStep_nolookup (reqs : List ReqRow)
    (reqIdx : List (String × Nat)) (now : String) (acc : RecAcc)
    (pr : Nat × CRow) (hj : normStr pr.2.jobId ≠ "")
    (he : normEmail pr.2.email ≠ "")
    (hk : keyFor 0 (normStr pr.2.jobId) (normEmail pr.2.email) ∉ acc.processed)
    (hlook : mapGet reqIdx (normStr pr.2.jobId) = none) :
    reconcileStep reqs reqIdx [] now [] acc pr =
      { acc with
        processed :=
          keyFor 0 (normStr pr.2.jobId) (normEmail pr.2.email) :: acc.processed } := by
  simp only [reconcileStep]
  rw [if_neg (by
    rintro (h | h | h)
    · exact hj h
    · exact he h
    · exact h (filterJobF_nil _)), if_neg hk, hlook]

theorem reconcileStep_notopen_nowr (reqs : List ReqRow)
    (reqIdx : List (String × Nat)) (now : String) (acc : RecAcc)
    (pr : Nat × CRow) (hj : normStr pr.2.jobId ≠ "")
    (he : normEmail pr.2.email ≠ "")
    (hk : keyFor 0 (normStr pr.2.jobId) (normEmail pr.2.email) ∉ acc.processed)
    (p : Nat) (hlook : mapGet reqIdx (normStr pr.2.jobId) = some p)
    (hopen : ¬ isOpenForActive (canonReqStatus (getReqAt reqs p).jobStatus) = true)
    (hdiff : diffPairs [(CField.jobTitle, (getReqAt reqs p).jobTitle),
        (CField.jobStatus, canonReqStatus (getReqAt reqs p).jobStatus)] pr.2 = []) :
    reconcileStep reqs reqIdx [] now [] acc pr =
      { acc with
        processed :=
          keyFor 0 (normStr pr.2.jobId) (normEmail pr.2.email) :: acc.processed } := by
  simp only [reconcileStep]
  rw [if_neg (by
    rintro (h | h | h)
    · exact hj h
    · exact he h
    · exact h (filterJobF_nil _)), if_neg hk, hlook]
  dsimp only
  rw [if_neg (show ¬ (diffPairs [(CField.jobTitle, (getReqAt reqs p).jobTitle),
      (CField.jobStatus, canonReqStatus (getReqAt reqs p).jobStatus)] pr.2 ≠ [])
    from by simpa using hdiff)]
  rw [if_neg (by
    rintro ⟨ho, _⟩
    exact hopen ho)]

theorem reconcileStep_notopen_wr (reqs : List ReqRow)
    (reqIdx : List (String × Nat)) (now : String) (acc : RecAcc)
    (pr : Nat × CRow) (hj : normStr pr.2.jobId ≠ "")
    (he : normEmail pr.2.email ≠ "")
    (hk : keyFor 0 (normStr pr.2.jobId) (normEmail pr.2.email) ∉ acc.processed)
    (p : Nat) (hlook : mapGet reqIdx (normStr pr.2.jobId) = some p)
    (hopen : ¬ isOpenForActive (canonReqStatus (getReqAt reqs p).jobStatus) = true)
    (hdiff : diffPairs [(CField.jobTitle, (getReqAt reqs p).jobTitle),
        (CField.jobStatus, canonReqStatus (getReqAt reqs p).jobStatus)] pr.2 ≠ []) :
    reconcileStep reqs reqIdx [] now [] acc pr =
      { acc with
        allRows :=
          writeCRowAt acc.allRows pr.1
          (diffPairs [(CField.jobTitle, (getReqAt reqs p).jobTitle),
            (CField.jobStatus, canonReqStatus (getReqAt reqs p).jobStatus)] pr.2 ++
            [(CField.updated, now)]),
        allWrites := acc.allWrites + 1,
        processed :=
          keyFor 0 (normStr pr.2.jobId) (normEmail pr.2.email) :: acc.processed } := by
  simp only [reconcileStep]
  rw [if_neg (by
    rintro (h | h | h)
    · exact hj h
    · exact he h
    · exact h (filterJobF_nil _)), if_neg hk, hlook]
  dsimp only
  rw [if_pos hdiff]
  rw [if_neg (by
    rintro ⟨ho, _⟩
    exact hopen ho)]

theorem reconcileStep_open_nowr (reqs : List ReqRow)
    (reqIdx : List (String × Nat)) (now : String) (acc : RecAcc)
    (pr : Nat × CRow) (hj : normStr pr.2.jobId ≠ "")
    (he : normEmail pr.2.email ≠ "")
    (hk : keyFor 0 (normStr pr.2.jobId) (normEmail pr.2.email) ∉ acc.processed)
    (p : Nat) (hlook : mapGet reqIdx (normStr pr.2.jobId) = some p)
    (hopen : isOpenForActive (canonReqStatus (getReqAt reqs p).jobStatus) = true)
    (hdiff : diffPairs [(CField.jobTitle, (getReqAt reqs p).jobTitle),
        (CField.jobStatus, canonReqStatus (getReqAt reqs p).jobStatus)] pr.2 = []) :
    reconcileStep reqs reqIdx [] now [] acc pr =
      { allRows := acc.allRows,
        actRows := (upsertActiveRow acc.allRows acc.actRows pr.1 pr.2
          (extractUrlVal (getCRowAt acc.allRows pr.1).resume)
          (extractUrlVal (getCRowAt acc.allRows pr.1).linkedin)).1,
        processed :=
          keyFor 0 (normStr pr.2.jobId) (normEmail pr.2.email) :: acc.processed,
        allWrites := acc.allWrites,
        actWrites := acc.actWrites +
          (upsertActiveRow acc.allRows acc.actRows pr.1 pr.2
            (extractUrlVal (getCRowAt acc.allRows pr.1).resume)
            (extractUrlVal (getCRowAt acc.allRows pr.1).linkedin)).2.2,
        inserted := acc.inserted +
          (upsertActiveRow acc.allRows acc.actRows pr.1 pr.2
            (extractUrlVal (getCRowAt acc.allRows pr.1).resume)
            (extractUrlVal (getCRowAt acc.allRows pr.1).linkedin)).2.1 } := by
  simp only [reconcileStep]
  rw [if_neg (by
    rintro (h | h | h)
    · exact hj h
    · exact he h
    · exact h (filterJobF_nil _)), if_neg hk, hlook]
  dsimp only
  rw [if_neg (show ¬ (diffPairs [(CField.jobTitle, (getReqAt reqs p).jobTitle),
      (CField.jobStatus, canonReqStatus (getReqAt reqs p).jobStatus)] pr.2 ≠ [])
    from by simpa using hdiff)]
  rw [if_pos ⟨hopen, by simp⟩]

theorem reconcileStep_open_wr (reqs : List ReqRow)
    (reqIdx : List (String × Nat)) (now : String) (acc : RecAcc)
    (pr : Nat × CRow) (hj : normStr pr.2.jobId ≠ "")
    (he : normEmail pr.2.email ≠ "")
    (hk : keyFor 0 (normStr pr.2.jobId) (normEmail pr.2.email) ∉ acc.processed)
    (p : Nat) (hlook : mapGet reqIdx (normStr pr.2.jobId) = some p)
    (hopen : isOpenForActive (canonReqStatus (getReqAt reqs p).jobStatus) = true)
    (hdiff : diffPairs [(CField.jobTitle, (getReqAt reqs p).jobTitle),
        (CField.jobStatus, canonReqStatus (getReqAt reqs p).jobStatus)] pr.2 ≠ []) :
    reconcileStep reqs reqIdx [] now [] acc pr =
      { allRows := writeCRowAt acc.allRows pr.1
          (diffPairs [(CField.jobTitle, (getReqAt reqs p).jobTitle),
            (CField.jobStatus, canonReqStatus (getReqAt reqs p).jobStatus)] pr.2 ++
            [(CField.updated, now)]),
        actRows := (upsertActiveRow
          (writeCRowAt acc.allRows pr.1
            (diffPairs [(CField.jobTitle, (getReqAt reqs p).jobTitle),
              (CField.jobStatus, canonReqStatus (getReqAt reqs p).jobStatus)] pr.2 ++
              [(CField.updated, now)]))
          acc.actRows pr.1
          (applyPairs pr.2
            (diffPairs [(CField.jobTitle, (getReqAt reqs p).jobTitle),
              (CField.jobStatus, canonReqStatus (getReqAt reqs p).jobStatus)] pr.2 ++
              [(CField.updated, now)]))
          (extractUrlVal (getCRowAt
            (writeCRowAt acc.allRows pr.1
              (diffPairs [(CField.jobTitle, (getReqAt reqs p).jobTitle),
                (CField.jobStatus, canonReqStatus (getReqAt reqs p).jobStatus)] pr.2 ++
                [(CField.updated, now)])) pr.1).resume)
          (extractUrlVal (getCRowAt
            (writeCRowAt acc.allRows pr.1
              (diffPairs [(CField.jobTitle, (getReqAt reqs p).jobTitle),
                (CField.jobStatus, canonReqStatus (getReqAt reqs p).jobStatus)] pr.2 ++
                [(CField.updated, now)])) pr.1).linkedin)).1,
        processed :=
          keyFor 0 (normStr pr.2.jobId) (normEmail pr.2.email) :: acc.processed,
        allWrites := acc.allWrites + 1,
        actWrites := acc.actWrites +
          (upsertActiveRow
            (writeCRowAt acc.allRows pr.1
              (diffPairs [(CField.jobTitle, (getReqAt reqs p).jobTitle),
                (CField.jobStatus, canonReqStatus (getReqAt reqs p).jobStatus)] pr.2 ++
                [(CField.updated, now)]))
            acc.actRows pr.1
            (applyPairs pr.2
              (diffPairs [(CField.jobTitle, (getReqAt reqs p).jobTitle),
                (CField.jobStatus, canonReqStatus (getReqAt reqs p).jobStatus)] pr.2 ++
                [(CField.updated, now)]))
            (extractUrlVal (getCRowAt
              (writeCRowAt acc.allRows pr.1
                (diffPairs [(CField.jobTitle, (getReqAt reqs p).jobTitle),
                  (CField.jobStatus, canonReqStatus (getReqAt reqs p).jobStatus)] pr.2 ++
                  [(CField.updated, now)])) pr.1).resume)
            (extractUrlVal (getCRowAt
              (writeCRowAt acc.allRows pr.1
                (diffPairs [(CField.jobTitle, (getReqAt reqs p).jobTitle),
                  (CField.jobStatus, canonReqStatus (getReqAt reqs p).jobStatus)] pr.2 ++
                  [(CField.updated, now)])) pr.1).linkedin)).2.2,
        inserted := acc.inserted +
          (upsertActiveRow
            (writeCRowAt acc.allRows pr.1
              (diffPairs [(CField.jobTitle, (getReqAt reqs p).jobTitle),
                (CField.jobStatus, canonReqStatus (getReqAt reqs p).jobStatus)] pr.2 ++
                [(CField.updated, now)]))
            acc.actRows pr.1
            (applyPairs pr.2
              (diffPairs [(CField.jobTitle, (getReqAt reqs p).jobTitle),
                (CField.jobStatus, canonReqStatus (getReqAt reqs p).jobStatus)] pr.2 ++
                [(CField.updated, now)]))
            (extractUrlVal (getCRowAt
              (writeCRowAt acc.allRows pr.1
                (diffPairs [(CField.jobTitle, (getReqAt reqs p).jobTitle),
                  (CField.jobStatus, canonReqStatus (getReqAt reqs p).jobStatus)] pr.2 ++
                  [(CField.updated, now)])) pr.1).resume)
            (extractUrlVal (getCRowAt
              (writeCRowAt acc.allRows pr.1
                (diffPairs [(CField.jobTitle, (getReqAt reqs p).jobTitle),
                  (CField.jobStatus, canonReqStatus (getReqAt reqs p).jobStatus)] pr.2 ++
                  [(CField.updated, now)])) pr.1).linkedin)).2.1 } := by
  simp only [reconcileStep]
  rw [if_neg (by
    rintro (h | h | h)
    · exact hj h
    · exact he h
    · exact h (filterJobF_nil _)), if_neg hk, hlook]
  dsimp only
  rw [if_pos hdiff]
  rw [if_pos ⟨hopen, by simp⟩]


theorem diffAllFields (tv sv now : String) (d : CRow) :
    ∀ q ∈ diffPairs [(CField.jobTitle, tv), (CField.jobStatus, sv)] d ++
        [(CField.updated, now)],
      q.1 ≠ CField.jobId ∧ q.1 ≠ CField.email := by
  intro q hq
  rcases List.mem_append.mp hq with h | h
  · have hm := diffPairs_mem _ _ _ h
    rcases List.mem_cons.mp hm with h1 | h1
    · subst h1
      exact ⟨(fun hc => nomatch hc), (fun hc => nomatch hc)⟩
    · rcases List.mem_cons.mp h1 with h2 | h2
      · subst h2
        exact ⟨(fun hc => nomatch hc), (fun hc => nomatch hc)⟩
      · simp at h2
  · rw [List.mem_singleton] at h
    subst h
    exact ⟨(fun hc => nomatch hc), (fun hc => nomatch hc)⟩

theorem upsKeys_cons_skip (reqs : List ReqRow) (reqIdx : List (String × Nat))
    (processed : List String) (pr : Nat × CRow) (rest : List (Nat × CRow))
    (h : normStr pr.2.jobId = "" ∨ normEmail pr.2.email = "") :
    upsKeys reqs reqIdx processed (pr :: rest) =
      upsKeys reqs reqIdx processed rest := by
  simp only [upsKeys]
  rw [if_pos h]

theorem upsKeys_cons_processed (reqs : List ReqRow)
    (reqIdx : List (String × Nat)) (processed : List String) (pr : Nat × CRow)
    (rest : List (Nat × CRow)) (hj : normStr pr.2.jobId ≠ "")
    (he : normEmail pr.2.email ≠ "")
    (hk : keyFor 0 (normStr pr.2.jobId) (normEmail pr.2.email) ∈ processed) :
    upsKeys reqs reqIdx processed (pr :: rest) =
      upsKeys reqs reqIdx processed rest := by
  simp only [upsKeys]
  rw [if_neg (by
    rintro (h | h)
    · exact hj h
    · exact he h), if_pos hk]

theorem upsKeys_cons_none (reqs : List ReqRow) (reqIdx : List (String × Nat))
    (processed : List String) (pr : Nat × CRow) (rest : List (Nat × CRow))
    (hj : normStr pr.2.jobId ≠ "") (he : normEmail pr.2.email ≠ "")
    (hk : keyFor 0 (normStr pr.2.jobId) (normEmail pr.2.email) ∉ processed)
    (hlook : mapGet reqIdx (normStr pr.2.jobId) = none) :
    upsKeys reqs reqIdx processed (pr :: rest) =
      upsKeys reqs reqIdx
        (keyFor 0 (normStr pr.2.jobId) (normEmail pr.2.email) :: processed)
        rest := by
  simp only [upsKeys]
  rw [if_neg (by
    rintro (h | h)
    · exact hj h
    · exact he h), if_neg hk, hlook]

theorem upsKeys_cons_notopen (reqs : List ReqRow)
    (reqIdx : List (String × Nat)) (processed : List String) (pr : Nat × CRow)
    (rest : List (Nat × CRow)) (hj : normStr pr.2.jobId ≠ "")
    (he : normEmail pr.2.email ≠ "")
    (hk : keyFor 0 (normStr pr.2.jobId) (normEmail pr.2.email) ∉ processed)
    (p : Nat) (hlook : mapGet reqIdx (normStr pr.2.jobId) = some p)
    (hopen : ¬ isOpenForActive (canonReqStatus (getReqAt reqs p).jobStatus) = true) :
    upsKeys reqs reqIdx processed (pr :: rest) =
      upsKeys reqs reqIdx
        (keyFor 0 (normStr pr.2.jobId) (normEmail pr.2.email) :: processed)
        rest := by
  simp only [upsKeys]
  rw [if_neg (by
    rintro (h | h)
    · exact hj h
    · exact he h), if_neg hk, hlook]
  dsimp only
  rw [if_neg hopen]

theorem upsKeys_cons_open (reqs : List ReqRow) (reqIdx : List (String × Nat))
    (processed : List String) (pr : Nat × CRow) (rest : List (Nat × CRow))
    (hj : normStr pr.2.jobId ≠ "") (he : normEmail pr.2.email ≠ "")
    (hk : keyFor 0 (normStr pr.2.jobId) (normEmail pr.2.email) ∉ processed)
    (p : Nat) (hlook : mapGet reqIdx (normStr pr.2.jobId) = some p)
    (hopen : isOpenForActive (canonReqStatus (getReqAt reqs p).jobStatus) = true) :
    upsKeys reqs reqIdx processed (pr :: rest) =
      keyFor 0 (normStr pr.2.jobId) (normEmail pr.2.email) ::
        upsKeys reqs reqIdx
          (keyFor 0 (normStr pr.2.jobId) (normEmail pr.2.email) :: processed)
          rest := by
  simp only [upsKeys]
  rw [if_neg (by
    rintro (h | h)
    · exact hj h
    · exact he h), if_neg hk, hlook]
  dsimp only
  rw [if_pos hopen]

theorem reconcileStep_open_shape (reqs : List ReqRow)
    (reqIdx : List (String × Nat)) (now : String) (acc : RecAcc)
    (pr : Nat × CRow) (hj : normStr pr.2.jobId ≠ "")
    (he : normEmail pr.2.email ≠ "")
    (hk : keyFor 0 (normStr pr.2.jobId) (normEmail pr.2.email) ∉ acc.processed)
    (p : Nat) (hlook : mapGet reqIdx (normStr pr.2.jobId) = some p)
    (hopen : isOpenForActive (canonReqStatus (getReqAt reqs p).jobStatus) = true) :
    ∃ a1 d1 w1 x1 n1, reconcileStep reqs reqIdx [] now [] acc pr =
      { allRows := a1,
        actRows := (upsertActiveRow a1 acc.actRows pr.1 d1
          (extractUrlVal (getCRowAt a1 pr.1).resume)
          (extractUrlVal (getCRowAt a1 pr.1).linkedin)).1,
        processed :=
          keyFor 0 (normStr pr.2.jobId) (normEmail pr.2.email) :: acc.processed,
        allWrites := w1, actWrites := x1, inserted := n1 } ∧
      idPreserved acc.allRows a1 ∧ d1.jobId = pr.2.jobId ∧
      d1.email = pr.2.email := by
  by_cases hdiff : diffPairs [(CField.jobTitle, (getReqAt reqs p).jobTitle),
      (CField.jobStatus, canonReqStatus (getReqAt reqs p).jobStatus)] pr.2 = []
  · exact ⟨acc.allRows, pr.2, acc.allWrites, _, _,
      reconcileStep_open_nowr reqs reqIdx now acc pr hj he hk p hlook hopen hdiff,
      idPreserved_refl acc.allRows, rfl, rfl⟩
  · refine ⟨writeCRowAt acc.allRows pr.1
        (diffPairs [(CField.jobTitle, (getReqAt reqs p).jobTitle),
          (CField.jobStatus, canonReqStatus (getReqAt reqs p).jobStatus)] pr.2 ++
          [(CField.updated, now)]),
      applyPairs pr.2
        (diffPairs [(CField.jobTitle, (getReqAt reqs p).jobTitle),
          (CField.jobStatus, canonReqStatus (getReqAt reqs p).jobStatus)] pr.2 ++
          [(CField.updated, now)]),
      acc.allWrites + 1, _, _,
      reconcileStep_open_wr reqs reqIdx now acc pr hj he hk p hlook hopen hdiff,
      idPreserved_write acc.allRows pr.1 _
        (diffAllFields (getReqAt reqs p).jobTitle
          (canonReqStatus (getReqAt reqs p).jobStatus) now pr.2), ?_, ?_⟩
    · rw [← get_jobId (applyPairs pr.2 _),
        applyPairs_get_of_not_mem _ _ _
          (fun q hq => (diffAllFields (getReqAt reqs p).jobTitle
            (canonReqStatus (getReqAt reqs p).jobStatus) now pr.2 q hq).1),
        get_jobId]
    · rw [← get_email (applyPairs pr.2 _),
        applyPairs_get_of_not_mem _ _ _
          (fun q hq => (diffAllFields (getReqAt reqs p).jobTitle
            (canonReqStatus (getReqAt reqs p).jobStatus) now pr.2 q hq).2),
        get_email]


theorem recLoop_keys (reqs : List ReqRow) (reqIdx : List (String × Nat))
    (now : String) (baseAll : List CRow) (rows : List (Nat × CRow)) :
    ∀ acc : RecAcc,
      idPreserved baseAll acc.allRows →
      (keysOf acc.actRows).Nodup →
      (∀ r ∈ acc.actRows, barFree r ∧ emailStable r) →
      (∀ pr ∈ rows, ('|' ∈ (trimS pr.2.jobId).data → False) ∧ emailStable pr.2) →
      idPreserved baseAll
        (rows.foldl (reconcileStep reqs reqIdx [] now []) acc).allRows ∧
      (keysOf (rows.foldl (reconcileStep reqs reqIdx [] now []) acc).actRows).Nodup ∧
      (∀ r ∈ (rows.foldl (reconcileStep reqs reqIdx [] now []) acc).actRows,
        barFree r ∧ emailStable r) ∧
      (∀ k', k' ∈
          keysOf (rows.foldl (reconcileStep reqs reqIdx [] now []) acc).actRows ↔
        (k' ∈ keysOf acc.actRows ∨
          k' ∈ upsKeys reqs reqIdx acc.processed rows)) := by
  induction rows with
  | nil =>
    intro acc h1 h2 h3 _
    exact ⟨h1, h2, h3, fun k' => by simp [upsKeys]⟩
  | cons pr rest ih =>
    intro acc h1 h2 h3 h4
    obtain ⟨hbarP, hstP⟩ := h4 pr (List.mem_cons_self pr rest)
    have h4' : ∀ q ∈ rest, ('|' ∈ (trimS q.2.jobId).data → False) ∧
        emailStable q.2 := fun q hq => h4 q (List.mem_cons_of_mem pr hq)
    rw [List.foldl_cons]
    by_cases hje : normStr pr.2.jobId = "" ∨ normEmail pr.2.email = ""
    · rw [reconcileStep_skip reqs reqIdx now acc pr hje]
      obtain ⟨g1, g2, g3, g4⟩ := ih acc h1 h2 h3 h4'
      refine ⟨g1, g2, g3, fun k' => ?_⟩
      rw [g4 k', upsKeys_cons_skip reqs reqIdx acc.processed pr rest hje]
    · push_neg at hje
      obtain ⟨hj, he⟩ := hje
      by_cases hkp : keyFor 0 (normStr pr.2.jobId) (normEmail pr.2.email) ∈
          acc.processed
      · rw [reconcileStep_processed reqs reqIdx now acc pr hj he hkp]
        obtain ⟨g1, g2, g3, g4⟩ := ih acc h1 h2 h3 h4'
        refine ⟨g1, g2, g3, fun k' => ?_⟩
        rw [g4 k',
          upsKeys_cons_processed reqs reqIdx acc.processed pr rest hj he hkp]
      · cases hlook : mapGet reqIdx (normStr pr.2.jobId) with
        | none =>
          rw [reconcileStep_nolookup reqs reqIdx now acc pr hj he hkp hlook]
          obtain ⟨g1, g2, g3, g4⟩ := ih
            { acc with
                processed :=
                  keyFor 0 (normStr pr.2.jobId) (normEmail pr.2.email) ::
                    acc.processed } h1 h2 h3 h4'
          refine ⟨g1, g2, g3, fun k' => ?_⟩
          rw [g4 k',
            upsKeys_cons_none reqs reqIdx acc.processed pr rest hj he hkp hlook]
        | some p =>
          by_cases hopen : isOpenForActive
              (canonReqStatus (getReqAt reqs p).jobStatus) = true
          · obtain ⟨a1, d1, w1, x1, n1, hstep, hidp, hd1j, hd1e⟩ :=
              reconcileStep_open_shape reqs reqIdx now acc pr hj he hkp p
                hlook hopen
            rw [hstep]
            have hd1jid : normStr d1.jobId ≠ "" := by
              show trimS d1.jobId ≠ ""
              rw [hd1j]
              exact hj
            have hd1eml : normEmail d1.email ≠ "" := by
              rw [hd1e]
              exact he
            have hd1stable : emailStable d1 := by
              unfold emailStable
              rw [hd1e]
              exact hstP
            have hd1bar : '|' ∉ (trimS d1.jobId).data := by
              rw [hd1j]
              exact hbarP
            obtain ⟨hu1, hu2, hu3⟩ := upsert_keys a1 acc.actRows pr.1 d1
              (extractUrlVal (getCRowAt a1 pr.1).resume)
              (extractUrlVal (getCRowAt a1 pr.1).linkedin)
              hd1jid hd1eml hd1stable hd1bar h2 h3
            have hkeq : keyFor 0 (normStr d1.jobId) (normEmail d1.email) =
                keyFor 0 (normStr pr.2.jobId) (normEmail pr.2.email) := by
              show keyFor 0 (trimS d1.jobId) (normEmail d1.email) = _
              rw [hd1j, hd1e]
              rfl
            obtain ⟨g1, g2, g3, g4⟩ := ih
              { allRows := a1,
                actRows := (upsertActiveRow a1 acc.actRows pr.1 d1
                  (extractUrlVal (getCRowAt a1 pr.1).resume)
                  (extractUrlVal (getCRowAt a1 pr.1).linkedin)).1,
                processed :=
                  keyFor 0 (normStr pr.2.jobId) (normEmail pr.2.email) ::
                    acc.processed,
                allWrites := w1, actWrites := x1, inserted := n1 }
              (idPreserved_trans baseAll acc.allRows a1 h1 hidp) hu2 hu3 h4'
            refine ⟨g1, g2, g3, fun k' => ?_⟩
            rw [g4 k']
            show k' ∈ keysOf (upsertActiveRow a1 acc.actRows pr.1 d1
                (extractUrlVal (getCRowAt a1 pr.1).resume)
                (extractUrlVal (getCRowAt a1 pr.1).linkedin)).1 ∨
              k' ∈ upsKeys reqs reqIdx
                (keyFor 0 (normStr pr.2.jobId) (normEmail pr.2.email) ::
                  acc.processed) rest ↔ _
            rw [hu1 k', hkeq,
              upsKeys_cons_open reqs reqIdx acc.processed pr rest hj he hkp p
                hlook hopen, List.mem_cons, or_assoc]
          · by_cases hdiff : diffPairs
                [(CField.jobTitle, (getReqAt reqs p).jobTitle),
                  (CField.jobStatus,
                    canonReqStatus (getReqAt reqs p).jobStatus)] pr.2 = []
            · rw [reconcileStep_notopen_nowr reqs reqIdx now acc pr hj he hkp p
                hlook hopen hdiff]
              obtain ⟨g1, g2, g3, g4⟩ := ih
                { acc with
                    processed :=
                      keyFor 0 (normStr pr.2.jobId) (normEmail pr.2.email) ::
                        acc.processed } h1 h2 h3 h4'
              refine ⟨g1, g2, g3, fun k' => ?_⟩
              rw [g4 k',
                upsKeys_cons_notopen reqs reqIdx acc.processed pr rest hj he
                  hkp p hlook hopen]
            · rw [reconcileStep_notopen_wr reqs reqIdx now acc pr hj he hkp p
                hlook hopen hdiff]
              obtain ⟨g1, g2, g3, g4⟩ := ih
                { acc with
                  allRows :=
                    writeCRowAt acc.allRows pr.1
                      (diffPairs [(CField.jobTitle, (getReqAt reqs p).jobTitle),
                        (CField.jobStatus,
                          canonReqStatus (getReqAt reqs p).jobStatus)] pr.2 ++
                        [(CField.updated, now)]),
                  allWrites := acc.allWrites + 1,
                  processed :=
                    keyFor 0 (normStr pr.2.jobId) (normEmail pr.2.email) ::
                      acc.processed }
                (idPreserved_trans baseAll acc.allRows _ h1
                  (idPreserved_write acc.allRows pr.1 _
                    (diffAllFields (getReqAt reqs p).jobTitle
                      (canonReqStatus (getReqAt reqs p).jobStatus) now pr.2)))
                h2 h3 h4'
              refine ⟨g1, g2, g3, fun k' => ?_⟩
              rw [g4 k',
                upsKeys_cons_notopen reqs reqIdx acc.processed pr rest hj he
                  hkp p hlook hopen]


/-!
## Canonical status idempotence -/

theorem isWs_toUpper (c : Char) : isWs c.toUpper = isWs c := by
  simp only [Char.toUpper]
  by_cases h : c.toNat ≥ 97 ∧ c.toNat ≤ 122
  · rw [if_pos h]
    have hv : (Char.ofNat (c.toNat - 32)).toNat = c.toNat - 32 :=
      toNat_ofNat_valid (by omega)
    have h1 : isWs (Char.ofNat (c.toNat - 32)) = false := by
      simp only [isWs, Bool.or_eq_false_iff, decide_eq_false_iff_not]
      refine ⟨⟨⟨?_, ?_⟩, ?_⟩, ?_⟩ <;>
        · intro hc
          have := congrArg Char.toNat hc
          simp [hv] at this <;> omega
    have h2 : isWs c = false := by
      simp only [isWs, Bool.or_eq_false_iff, decide_eq_false_iff_not]
      refine ⟨⟨⟨?_, ?_⟩, ?_⟩, ?_⟩ <;>
        · intro hc
          subst hc
          simp at h
    rw [h1, h2]
  · rw [if_neg h]

theorem toLower_toUpper (c : Char) : (c.toUpper).toLower = c.toLower := by
  simp only [Char.toUpper, Char.toLower]
  by_cases h : c.toNat ≥ 97 ∧ c.toNat ≤ 122
  · rw [if_pos h]
    have hv : (Char.ofNat (c.toNat - 32)).toNat = c.toNat - 32 :=
      toNat_ofNat_valid (by omega)
    rw [if_pos (by omega), if_neg (by omega)]
    have harg : c.toNat - 32 + 32 = c.toNat := by omega
    rw [hv, harg, Char.ofNat_toNat]
  · rw [if_neg h]

theorem dropWhile_eq_self_of_head (p : α → Bool) (l : List α)
    (h : ∀ c, l.head? = some c → p c = false) : l.dropWhile p = l := by
  cases l with
  | nil => rfl
  | cons c t =>
    rw [List.dropWhile_cons_of_neg (by simp [h c rfl])]

theorem trimL_eq_self (l : List Char)
    (hhead : ∀ c, l.head? = some c → isWs c = false)
    (hlast : ∀ c, l.getLast? = some c → isWs c = false) : trimL l = l := by
  unfold trimL dropWs
  rw [dropWhile_eq_self_of_head isWs l hhead,
    dropWhile_eq_self_of_head isWs l.reverse (fun c hc => hlast c (by
      rw [← List.head?_reverse]
      exact hc)), List.reverse_reverse]

theorem getLast?_trimL_ws (l : List Char) {c : Char}
    (h : (trimL l).getLast? = some c) : isWs c = false := by
  unfold trimL at h
  rw [List.getLast?_reverse] at h
  exact head?_dropWhile_not _ _ h

theorem canonReqStatus_idem (s : String) :
    canonReqStatus (canonReqStatus s) = canonReqStatus s := by
  by_cases h1 : (trimL s.data).map Char.toLower = []
  · have hs : canonReqStatus s = "" := by
      unfold canonReqStatus
      rw [if_pos h1]
    rw [hs]
    decide
  · by_cases h2 : (trimL s.data).map Char.toLower = "open".data
    · have hs : canonReqStatus s = "Open" := by
        unfold canonReqStatus
        rw [if_neg h1, if_pos h2]
      rw [hs]
      decide
    · by_cases h3 : (trimL s.data).map Char.toLower = "on hold".data
      · have hs : canonReqStatus s = "On Hold" := by
          unfold canonReqStatus
          rw [if_neg h1, if_neg h2, if_pos h3]
        rw [hs]
        decide
      · by_cases h4 : (trimL s.data).map Char.toLower = "closed".data
        · have hs : canonReqStatus s = "Closed" := by
            unfold canonReqStatus
            rw [if_neg h1, if_neg h2, if_neg h3, if_pos h4]
          rw [hs]
          decide
        · by_cases h5 : (trimL s.data).map Char.toLower = "pending approval".data
          · have hs : canonReqStatus s = "Pending Approval" := by
              unfold canonReqStatus
              rw [if_neg h1, if_neg h2, if_neg h3, if_neg h4, if_pos h5]
            rw [hs]
            decide
          · by_cases h6 : (trimL s.data).map Char.toLower = "hired".data
            · have hs : canonReqStatus s = "Hired" := by
                unfold canonReqStatus
                rw [if_neg h1, if_neg h2, if_neg h3, if_neg h4, if_neg h5,
                  if_pos h6]
              rw [hs]
              decide
            · have hs : canonReqStatus s =
                  ⟨(((trimL s.data).map Char.toLower).headD ' ').toUpper ::
                    ((trimL s.data).map Char.toLower).tail⟩ := by
                unfold canonReqStatus
                rw [if_neg h1, if_neg h2, if_neg h3, if_neg h4, if_neg h5,
                  if_neg h6]
              obtain ⟨h0, tt, ht⟩ : ∃ h0 tt,
                  (trimL s.data).map Char.toLower = h0 :: tt := by
                cases hc : (trimL s.data).map Char.toLower with
                | nil => exact absurd hc h1
                | cons a b => exact ⟨a, b, rfl⟩
              have hlowid : ((trimL s.data).map Char.toLower).map Char.toLower =
                  (trimL s.data).map Char.toLower := map_toLower_idem _
              have htrimid : trimL ((trimL s.data).map Char.toLower) =
                  (trimL s.data).map Char.toLower := by
                rw [← trimL_map_toLower, trimL_idem, trimL_map_toLower]
              have hheadlow : h0.toLower = h0 := by
                rw [ht] at hlowid
                simpa using congrArg List.head? hlowid
              have httlow : tt.map Char.toLower = tt := by
                rw [ht] at hlowid
                simpa using congrArg List.tail hlowid
              have hheadws : isWs h0 = false := by
                apply head?_trimL_ws ((trimL s.data).map Char.toLower)
                rw [htrimid, ht]
                rfl
              have hlastws : ∀ c, (h0 :: tt).getLast? = some c →
                  isWs c = false := by
                intro c hc
                apply getLast?_trimL_ws ((trimL s.data).map Char.toLower)
                rw [htrimid, ht]
                exact hc
              have hA : trimL (h0.toUpper :: tt) = h0.toUpper :: tt := by
                apply trimL_eq_self
                · intro c hc
                  simp only [List.head?_cons, Option.some.injEq] at hc
                  subst hc
                  rw [isWs_toUpper]
                  exact hheadws
                · intro c hc
                  cases tt with
                  | nil =>
                    simp only [List.getLast?_singleton, Option.some.injEq] at hc
                    subst hc
                    rw [isWs_toUpper]
                    exact hheadws
                  | cons b bt =>
                    rw [List.getLast?_cons_cons] at hc
                    exact hlastws c (by rw [List.getLast?_cons_cons]; exact hc)
              have hB : (h0.toUpper :: tt).map Char.toLower = h0 :: tt := by
                simp only [List.map_cons]
                rw [toLower_toUpper, hheadlow, httlow]
              rw [hs, ht]
              unfold canonReqStatus
              have hdata : (⟨((h0 :: tt).headD ' ').toUpper ::
                  (h0 :: tt).tail⟩ : String).data = h0.toUpper :: tt := rfl
              rw [hdata, hA, hB]
              rw [ht] at h1 h2 h3 h4 h5 h6
              rw [if_neg h1, if_neg h2, if_neg h3, if_neg h4, if_neg h5,
                if_neg h6]

theorem isOpen_canon (s : String) :
    isOpenForActive (canonReqStatus s) = isOpenForActive s := by
  unfold isOpenForActive
  rw [canonReqStatus_idem]


/-!
## Membership in the upserted key set -/

theorem keyFor_norm_eval (x y : String) (hx : normStr x ≠ "")
    (hsty : normEmail (normEmail y) = normEmail y) :
    keyFor 0 (normStr x) (normEmail y) = trimS x ++ "|" ++ normEmail y := by
  rw [keyFor_eval 0 (normStr x) (normEmail y) (by
    rintro ⟨h1, _⟩
    apply hx
    have h2 : trimS (trimS x) = "" := h1
    rw [trimS_idem x] at h2
    exact h2),
    show trimS (normStr x) = trimS x from trimS_idem x, hsty]

theorem key_eq_jid (a b : CRow)
    (hba : '|' ∈ (trimS a.jobId).data → False) (hsta : emailStable a)
    (hbb : '|' ∈ (trimS b.jobId).data → False) (hstb : emailStable b)
    (hja : normStr a.jobId ≠ "") (hjb : normStr b.jobId ≠ "")
    (hk : keyFor 0 (normStr a.jobId) (normEmail a.email) =
      keyFor 0 (normStr b.jobId) (normEmail b.email)) :
    normStr a.jobId = normStr b.jobId := by
  rw [keyFor_norm_eval a.jobId a.email hja hsta,
    keyFor_norm_eval b.jobId b.email hjb hstb] at hk
  exact (string_bar_inj (trimS a.jobId) (trimS b.jobId) (normEmail a.email)
    (normEmail b.email) hba hbb hk).1

theorem mem_upsKeys (reqs : List ReqRow) (reqIdx : List (String × Nat))
    (rows : List (Nat × CRow)) :
    ∀ processed : List String,
      (∀ pr ∈ rows, ('|' ∈ (trimS pr.2.jobId).data → False) ∧
        emailStable pr.2) →
      ∀ k', (k' ∈ upsKeys reqs reqIdx processed rows ↔
        (k' ∉ processed ∧ ∃ pr ∈ rows,
          normStr pr.2.jobId ≠ "" ∧ normEmail pr.2.email ≠ "" ∧
          keyFor 0 (normStr pr.2.jobId) (normEmail pr.2.email) = k' ∧
          ∃ p, mapGet reqIdx (normStr pr.2.jobId) = some p ∧
            isOpenForActive (canonReqStatus (getReqAt reqs p).jobStatus) =
              true)) := by
  induction rows with
  | nil =>
    intro processed _ k'
    simp [upsKeys]
  | cons pr rest ih =>
    intro processed h4 k'
    obtain ⟨hbarP, hstP⟩ := h4 pr (List.mem_cons_self pr rest)
    have h4' : ∀ q ∈ rest, ('|' ∈ (trimS q.2.jobId).data → False) ∧
        emailStable q.2 := fun q hq => h4 q (List.mem_cons_of_mem pr hq)
    by_cases hje : normStr pr.2.jobId = "" ∨ normEmail pr.2.email = ""
    · rw [upsKeys_cons_skip reqs reqIdx processed pr rest hje, ih processed h4' k']
      constructor
      · rintro ⟨hnp, q, hq, props⟩
        exact ⟨hnp, q, List.mem_cons_of_mem pr hq, props⟩
      · rintro ⟨hnp, q, hq, props⟩
        rcases List.mem_cons.mp hq with h | h
        · subst h
          rcases hje with h | h
          · exact absurd h props.1
          · exact absurd h props.2.1
        · exact ⟨hnp, q, h, props⟩
    · push_neg at hje
      obtain ⟨hj, he⟩ := hje
      by_cases hkp : keyFor 0 (normStr pr.2.jobId) (normEmail pr.2.email) ∈
          processed
      · rw [upsKeys_cons_processed reqs reqIdx processed pr rest hj he hkp,
          ih processed h4' k']
        constructor
        · rintro ⟨hnp, q, hq, props⟩
          exact ⟨hnp, q, List.mem_cons_of_mem pr hq, props⟩
        · rintro ⟨hnp, q, hq, props⟩
          rcases List.mem_cons.mp hq with h | h
          · subst h
            rw [props.2.2.1] at hkp
            exact absurd hkp hnp
          · exact ⟨hnp, q, h, props⟩
      · cases hlook : mapGet reqIdx (normStr pr.2.jobId) with
        | none =>
          rw [upsKeys_cons_none reqs reqIdx processed pr rest hj he hkp hlook,
            ih _ h4' k']
          constructor
          · rintro ⟨hnp, q, hq, props⟩
            exact ⟨fun hc => hnp (List.mem_cons_of_mem _ hc), q,
              List.mem_cons_of_mem pr hq, props⟩
          · rintro ⟨hnp, q, hq, hqj, hqe, hqk, p, hqlook, hqopen⟩
            rcases List.mem_cons.mp hq with h | h
            · subst h
              rw [hlook] at hqlook
              cases hqlook
            · refine ⟨?_, q, h, hqj, hqe, hqk, p, hqlook, hqopen⟩
              intro hc
              rcases List.mem_cons.mp hc with h1 | h1
              · subst hqk
                have hjq : normStr q.2.jobId = normStr pr.2.jobId :=
                  key_eq_jid q.2 pr.2 (h4' q h).1 (h4' q h).2 hbarP hstP hqj hj
                    h1
                rw [hjq, hlook] at hqlook
                cases hqlook
              · exact hnp h1
        | some p =>
          by_cases hopen : isOpenForActive
              (canonReqStatus (getReqAt reqs p).jobStatus) = true
          · rw [upsKeys_cons_open reqs reqIdx processed pr rest hj he hkp p
              hlook hopen, List.mem_cons, ih _ h4' k']
            constructor
            · rintro (h | ⟨hnp, q, hq, props⟩)
              · subst h
                exact ⟨hkp, pr, List.mem_cons_self pr rest, hj, he, rfl, p,
                  hlook, hopen⟩
              · exact ⟨fun hc => hnp (List.mem_cons_of_mem _ hc), q,
                  List.mem_cons_of_mem pr hq, props⟩
            · rintro ⟨hnp, q, hq, hqj, hqe, hqk, p', hqlook, hqopen⟩
              rcases List.mem_cons.mp hq with h | h
              · subst h
                exact Or.inl hqk.symm
              · by_cases hkk : k' =
                    keyFor 0 (normStr pr.2.jobId) (normEmail pr.2.email)
                · exact Or.inl hkk
                · refine Or.inr ⟨?_, q, h, hqj, hqe, hqk, p', hqlook, hqopen⟩
                  intro hc
                  rcases List.mem_cons.mp hc with h1 | h1
                  · exact hkk h1
                  · exact hnp h1
          · rw [upsKeys_cons_notopen reqs reqIdx processed pr rest hj he hkp p
              hlook hopen, ih _ h4' k']
            constructor
            · rintro ⟨hnp, q, hq, props⟩
              exact ⟨fun hc => hnp (List.mem_cons_of_mem _ hc), q,
                List.mem_cons_of_mem pr hq, props⟩
            · rintro ⟨hnp, q, hq, hqj, hqe, hqk, p', hqlook, hqopen⟩
              rcases List.mem_cons.mp hq with h | h
              · subst h
                rw [hlook] at hqlook
                cases hqlook
                exact absurd hqopen hopen
              · refine ⟨?_, q, h, hqj, hqe, hqk, p', hqlook, hqopen⟩
                intro hc
                rcases List.mem_cons.mp hc with h1 | h1
                · subst hqk
                  have hjq : normStr q.2.jobId = normStr pr.2.jobId :=
                    key_eq_jid q.2 pr.2 (h4' q h).1 (h4' q h).2 hbarP hstP hqj
                      hj h1
                  rw [hjq, hlook] at hqlook
                  cases hqlook
                  exact absurd hqopen hopen
                · exact hnp h1


/-!
## Claim C1: membership invariant -/

theorem key_data (jid em : String) :
    (jid ++ "|" ++ em).data = jid.data ++ '|' :: em.data := by
  rw [String.data_append, String.data_append]
  simp

theorem delKey_open (st : SyncState) (hndReq : (reqKeysOf st.reqs).Nodup)
    (jid em : String) (hjbar : '|' ∉ jid.data)
    (hkeep : delKeepB st (jid ++ "|" ++ em) = true) :
    (∃ c ∈ st.allRows, rowKeyOpt c = some (jid ++ "|" ++ em)) ∧
      ∃ q ∈ st.reqs, trimS q.jobId = jid ∧
        isOpenForActive q.jobStatus = true := by
  unfold delKeepB at hkeep
  rw [Bool.and_eq_true] at hkeep
  obtain ⟨hin, hopen⟩ := hkeep
  constructor
  · exact (mapGet_candIdx_isSome st.allRows _).mp hin
  · have hjd : (⟨takeUntilC '|' (jid ++ "|" ++ em).data⟩ : String) = jid := by
      rw [key_data, takeUntilC_bar _ _ hjbar, string_mk_data]
    rw [hjd] at hopen
    cases hlq : mapGet (buildReqIdx st.reqs) jid with
    | none =>
      rw [hlq] at hopen
      have hopen' : isOpenForActive "" = true := hopen
      exact absurd hopen' (by decide)
    | some prq =>
      rw [hlq] at hopen
      obtain ⟨iq, hiq, _, hjq, hgetq⟩ := reqLookup_spec st.reqs hndReq jid prq hlq
      refine ⟨st.reqs.get ⟨iq, hiq⟩, List.get_mem _ _ _, hjq, ?_⟩
      rw [← hgetq]
      exact hopen

/-- C1 (amended): after a full-table reconciliation run with no guard
entries, provided the Active and Requisition tables are uniquely keyed, job
IDs contain no `|`, and email cells are stable under renormalization, an
Active row with identity components (`jid`, `em`) — both non-empty — exists
exactly when a Candidate Database row with those components exists and some
requisition with that trimmed job ID has canonical status Open or On Hold. -/
theorem C1_membership_amended (st : SyncState) (now : String)
    (hndAct : (keysOf st.actRows).Nodup)
    (hndReq : (reqKeysOf st.reqs).Nodup)
    (hbarAll : ∀ c ∈ st.allRows, barFree c)
    (hstAll : ∀ c ∈ st.allRows, emailStable c)
    (hbarAct : ∀ a ∈ st.actRows, barFree a)
    (hstAct : ∀ a ∈ st.actRows, emailStable a)
    (jid em : String) (hjid : jid ≠ "") (hem : em ≠ "") :
    (∃ a ∈ (reconcileFull [] now st).1.actRows,
        rowJid a = jid ∧ rowEm a = em) ↔
      ((∃ c ∈ (reconcileFull [] now st).1.allRows,
          rowJid c = jid ∧ rowEm c = em) ∧
        ∃ q ∈ st.reqs, trimS q.jobId = jid ∧
          isOpenForActive q.jobStatus = true) := by
  have hact0 : applyDeletes st.actRows (reconcileDeletePass st []) =
      st.actRows.filter (delSurvives (delKeepB st)) := actAfterDel_eq st hndAct
  have hsub : ∀ r ∈ st.actRows.filter (delSurvives (delKeepB st)),
      r ∈ st.actRows := fun r hr => List.mem_of_mem_filter hr
  have hnd0 : (keysOf (st.actRows.filter (delSurvives (delKeepB st)))).Nodup :=
    hndAct.sublist ((List.filter_sublist _).filterMap rowKeyOpt)
  obtain ⟨g1, g2, g3, g4⟩ := recLoop_keys st.reqs (buildReqIdx st.reqs) now
    st.allRows (buildCandRows dataStart st.allRows)
    ⟨st.allRows, applyDeletes st.actRows (reconcileDeletePass st []),
      [], 0, 0, 0⟩
    (idPreserved_refl st.allRows)
    (by
      show (keysOf (applyDeletes st.actRows (reconcileDeletePass st []))).Nodup
      rw [hact0]
      exact hnd0)
    (by
      intro r hr
      have hr' : r ∈ applyDeletes st.actRows (reconcileDeletePass st []) := hr
      rw [hact0] at hr'
      exact ⟨hbarAct r (hsub r hr'), hstAct r (hsub r hr')⟩)
    (by
      intro pr hpr
      have hm := mem_buildCandRows st.allRows dataStart pr hpr
      exact ⟨hbarAll pr.2 hm.1, hstAll pr.2 hm.1⟩)
  have houtAct : (reconcileFull [] now st).1.actRows =
      ((buildCandRows dataStart st.allRows).foldl
        (reconcileStep st.reqs (buildReqIdx st.reqs) [] now [])
        ⟨st.allRows, applyDeletes st.actRows (reconcileDeletePass st []),
          [], 0, 0, 0⟩).actRows := rfl
  have houtAll : (reconcileFull [] now st).1.allRows =
      ((buildCandRows dataStart st.allRows).foldl
        (reconcileStep st.reqs (buildReqIdx st.reqs) [] now [])
        ⟨st.allRows, applyDeletes st.actRows (reconcileDeletePass st []),
          [], 0, 0, 0⟩).allRows := rfl
  have hallIff : (∃ c ∈ (reconcileFull [] now st).1.allRows,
      rowJid c = jid ∧ rowEm c = em) ↔
      (∃ c ∈ st.allRows, rowJid c = jid ∧ rowEm c = em) := by
    rw [houtAll]
    exact (idPreserved_exists st.allRows _ g1
      (fun j e => trimS j = jid ∧ normEmail e = em)).symm
  constructor
  · rintro ⟨a, ha, haj, hae⟩
    have ha' : a ∈ ((buildCandRows dataStart st.allRows).foldl
        (reconcileStep st.reqs (buildReqIdx st.reqs) [] now [])
        ⟨st.allRows, applyDeletes st.actRows (reconcileDeletePass st []),
          [], 0, 0, 0⟩).actRows := by
      rw [← houtAct]
      exact ha
    obtain ⟨hbarA, hstA⟩ := g3 a ha'
    have hjbar : '|' ∉ jid.data := by
      rw [← haj]
      exact hbarA
    have hkeyedA : rowKeyed a = true := rowKeyed_of_jid a (by rw [haj]; exact hjid)
    have hkeyA : rowKeyOpt a = some (jid ++ "|" ++ em) := by
      rw [rowKeyOpt_eval a hstA hkeyedA, haj, hae]
    have hk0 : (jid ++ "|" ++ em) ∈ keysOf ((buildCandRows dataStart
        st.allRows).foldl (reconcileStep st.reqs (buildReqIdx st.reqs) [] now [])
        ⟨st.allRows, applyDeletes st.actRows (reconcileDeletePass st []),
          [], 0, 0, 0⟩).actRows :=
      (mem_keysOf _ _).mpr ⟨a, ha', hkeyA⟩
    rw [g4] at hk0
    rcases hk0 with hk0 | hk0
    · -- the key survived the deletion pass
      have hk0' : (jid ++ "|" ++ em) ∈
          keysOf (st.actRows.filter (delSurvives (delKeepB st))) := by
        rw [← hact0]
        exact hk0
      obtain ⟨a0, ha0, hka0⟩ := (mem_keysOf _ _).mp hk0'
      have ha0f := List.of_mem_filter ha0
      have hkeep : delKeepB st (jid ++ "|" ++ em) = true := by
        obtain ⟨hkd0, hks0⟩ := rowKeyOpt_some a0 _ hka0
        have hsurv : delSurvives (delKeepB st) a0 = true := ha0f
        unfold delSurvives at hsurv
        rw [hkd0, hks0] at hsurv
        simpa using hsurv
      obtain ⟨⟨c, hc, hkc⟩, hreq⟩ := delKey_open st hndReq jid em hjbar hkeep
      refine ⟨?_, hreq⟩
      rw [hallIff]
      obtain ⟨hkdc, hksc⟩ := rowKeyOpt_some c _ hkc
      obtain ⟨hcj, hce⟩ := rowKey_components c (hbarAll c hc) (hstAll c hc)
        hkdc jid em hjbar hksc
      exact ⟨c, hc, hcj, hce⟩
    · -- the key was upserted by the loop
      rw [mem_upsKeys st.reqs (buildReqIdx st.reqs)
        (buildCandRows dataStart st.allRows) [] (by
          intro pr hpr
          have hm := mem_buildCandRows st.allRows dataStart pr hpr
          exact ⟨hbarAll pr.2 hm.1, hstAll pr.2 hm.1⟩)] at hk0
      obtain ⟨-, pr, hpr, hprj, hpre, hprk, p, hplook, hpopen⟩ := hk0
      have hcmem := (mem_buildCandRows st.allRows dataStart pr hpr).1
      have hkeyc : trimS pr.2.jobId ++ "|" ++ normEmail pr.2.email =
          jid ++ "|" ++ em := by
        rw [← keyFor_norm_eval pr.2.jobId pr.2.email hprj (hstAll pr.2 hcmem)]
        exact hprk
      obtain ⟨hcj, hce⟩ := string_bar_inj (trimS pr.2.jobId) jid
        (normEmail pr.2.email) em (hbarAll pr.2 hcmem) hjbar hkeyc
      have hplook' : mapGet (buildReqIdx st.reqs) jid = some p := by
        rw [← hcj]
        exact hplook
      obtain ⟨iq, hiq, _, hjq, hgetq⟩ := reqLookup_spec st.reqs hndReq jid p
        hplook'
      refine ⟨?_, st.reqs.get ⟨iq, hiq⟩, List.get_mem _ _ _, hjq, ?_⟩
      · rw [hallIff]
        exact ⟨pr.2, hcmem, hcj, hce⟩
      · rw [← isOpen_canon, ← hgetq]
        exact hpopen
  · rintro ⟨hcex, q, hq, hqj, hqopen⟩
    rw [hallIff] at hcex
    obtain ⟨c, hc, hcj, hce⟩ := hcex
    have hcj' : trimS c.jobId = jid := hcj
    have hce' : normEmail c.email = em := hce
    have hjbar : '|' ∉ jid.data := by
      rw [← hcj]
      exact hbarAll c hc
    have hkeyedC : rowKeyed c = true :=
      rowKeyed_of_jid c (by rw [hcj]; exact hjid)
    obtain ⟨pos, hposmem⟩ := buildCandRows_of_mem st.allRows dataStart c hc
      hkeyedC
    obtain ⟨p, hp, hgetp⟩ := reqLookup_of_mem st.reqs hndReq q hq jid hqj hjid
    have hup : (jid ++ "|" ++ em) ∈ upsKeys st.reqs (buildReqIdx st.reqs) []
        (buildCandRows dataStart st.allRows) := by
      rw [mem_upsKeys st.reqs (buildReqIdx st.reqs)
        (buildCandRows dataStart st.allRows) [] (by
          intro pr hpr
          have hm := mem_buildCandRows st.allRows dataStart pr hpr
          exact ⟨hbarAll pr.2 hm.1, hstAll pr.2 hm.1⟩)]
      refine ⟨by simp, (pos, c), hposmem, ?_, ?_, ?_, p, ?_, ?_⟩
      · show trimS c.jobId ≠ ""
        rw [hcj']
        exact hjid
      · show normEmail c.email ≠ ""
        rw [hce']
        exact hem
      · rw [keyFor_norm_eval c.jobId c.email (by
          show trimS c.jobId ≠ ""
          rw [hcj']
          exact hjid) (hstAll c hc)]
        rw [hcj', hce']
      · show mapGet (buildReqIdx st.reqs) (trimS c.jobId) = some p
        rw [hcj']
        exact hp
      · rw [hgetp, isOpen_canon]
        exact hqopen
    have hk0 : (jid ++ "|" ++ em) ∈ keysOf ((buildCandRows dataStart
        st.allRows).foldl (reconcileStep st.reqs (buildReqIdx st.reqs) [] now [])
        ⟨st.allRows, applyDeletes st.actRows (reconcileDeletePass st []),
          [], 0, 0, 0⟩).actRows := by
      rw [g4]
      exact Or.inr hup
    obtain ⟨a, ha, hka⟩ := (mem_keysOf _ _).mp hk0
    obtain ⟨hbarA, hstA⟩ := g3 a ha
    obtain ⟨hkdA, hksA⟩ := rowKeyOpt_some a _ hka
    obtain ⟨haj, hae⟩ := rowKey_components a hbarA hstA hkdA jid em hjbar hksA
    refine ⟨a, ?_, haj, hae⟩
    rw [houtAct]
    exact ha


theorem C1_membership_amended_witness :
    (∃ a ∈ (reconcileFull [] "T1"
        { reqs := [{ jobId := "J1", jobTitle := "Engineer",
                     jobStatus := "Open" }],
          allRows := [{ fullName := "John", jobId := "J1",
                        email := "john@x.com" }],
          actRows := [] }).1.actRows,
        rowJid a = "J1" ∧ rowEm a = "john@x.com") ↔
      ((∃ c ∈ (reconcileFull [] "T1"
          { reqs := [{ jobId := "J1", jobTitle := "Engineer",
                       jobStatus := "Open" }],
            allRows := [{ fullName := "John", jobId := "J1",
                          email := "john@x.com" }],
            actRows := [] }).1.allRows,
          rowJid c = "J1" ∧ rowEm c = "john@x.com") ∧
        ∃ q ∈ ({ reqs := [{ jobId := "J1", jobTitle := "Engineer",
                            jobStatus := "Open" }],
                 allRows := [{ fullName := "John", jobId := "J1",
                               email := "john@x.com" }],
                 actRows := [] } : SyncState).reqs,
          trimS q.jobId = "J1" ∧ isOpenForActive q.jobStatus = true) :=
  C1_membership_amended _ "T1" (by decide) (by decide) (by decide) (by decide)
    (by decide) (by decide) "J1" "john@x.com" (by decide) (by decide)


/-!
## Reconciled states: deletion pass and upsert are write-free -/

theorem desired_no_links :
    ∀ f ∈ desiredFields, f ≠ CField.resume ∧ f ≠ CField.linkedin := by
  decide

theorem failPos_nil (g : String → Bool) (rows : List CRow)
    (h : ∀ r ∈ rows, rowKeyed r = true → g (rowKeyStr r) = true) :
    ∀ pos, failPos g pos rows = [] := by
  induction rows with
  | nil => intro pos; rfl
  | cons r rest ih =>
    intro pos
    unfold failPos
    rw [if_neg (by
      rintro ⟨hkd, hg⟩
      rw [h r (List.mem_cons_self r rest) hkd] at hg
      cases hg), List.nil_append]
    exact ih (fun q hq => h q (List.mem_cons_of_mem r hq)) (pos + 1)

theorem reconciled_delKeep (st : SyncState) (h : reconciledState st) :
    ∀ a ∈ st.actRows, rowKeyed a = true →
      delKeepB st (rowKeyStr a) = true := by
  obtain ⟨hndAll, hndAct, hndReq, hAll, hAct, hMirror, hActBack, hComplete⟩ := h
  intro a ha hkd
  obtain ⟨hjne, ⟨c, hc, hcj, hce, hcsync⟩, q, hq, hqj, hqopen⟩ := hActBack a ha hkd
  obtain ⟨hbarA, hstA⟩ := hAct a ha
  rw [rowKeyStr_eval a hstA hkd]
  unfold delKeepB
  rw [Bool.and_eq_true]
  constructor
  · apply (mapGet_candIdx_isSome st.allRows _).mpr
    refine ⟨c, hc, ?_⟩
    have hkdc : rowKeyed c = true := rowKeyed_of_jid c (by rw [hcj]; exact hjne)
    rw [rowKeyOpt_eval c (hAll c hc).2.1 hkdc, hcj, hce]
  · have hjd : (⟨takeUntilC '|' ((rowJid a ++ "|" ++ rowEm a)).data⟩ : String) =
        rowJid a := by
      rw [key_data, takeUntilC_bar (rowJid a).data (rowEm a).data hbarA,
        string_mk_data]
    rw [hjd]
    obtain ⟨p, hp, hgetp⟩ := reqLookup_of_mem st.reqs hndReq q hq (rowJid a)
      hqj hjne
    rw [hp]
    show isOpenForActive (getReqAt st.reqs p).jobStatus = true
    rw [hgetp]
    exact hqopen

theorem reconciled_deletePass_nil (st : SyncState) (h : reconciledState st) :
    reconcileDeletePass st [] = [] := by
  rw [deletePass_eq_failPos st h.2.1]
  exact failPos_nil (delKeepB st) st.actRows (reconciled_delKeep st h) dataStart

theorem upsert_synced (allRows acts : List CRow) (rowNum : Nat) (data : CRow)
    (ru lu : String)
    (hjid : normStr data.jobId ≠ "") (heml : normEmail data.email ≠ "")
    (hnd : (keysOf acts).Nodup)
    (hk : keyFor 0 (normStr data.jobId) (normEmail data.email) ∈ keysOf acts)
    (hsync : ∀ a ∈ acts,
      rowKeyOpt a = some (keyFor 0 (normStr data.jobId) (normEmail data.email)) →
      rowSynced data a) :
    ∃ i, ∃ hi : i < acts.length,
      rowKeyOpt (acts.get ⟨i, hi⟩) =
        some (keyFor 0 (normStr data.jobId) (normEmail data.email)) ∧
      upsertActiveRow allRows acts rowNum data ru lu =
        (acts.set i
          (linkRow allRows acts (dataStart + i) rowNum data ru lu), 0, 0) := by
  have hcond : ¬(normStr data.jobId = "" ∨ normEmail data.email = "") := by
    rintro (h | h)
    · exact hjid h
    · exact heml h
  have hsome : (mapGet (buildCandIdx acts)
      (keyFor 0 (normStr data.jobId) (normEmail data.email))).isSome = true := by
    rw [mapGet_candIdx_isSome]
    exact (mem_keysOf acts _).mp hk
  obtain ⟨er, hlook⟩ := Option.isSome_iff_exists.mp hsome
  obtain ⟨i, hi, hper, hkey, hget⟩ := candLookup_spec acts hnd _ er hlook
  subst hper
  have hdiff : diffPairs (desiredFields.map (fun f => (f, data.get f)))
      (acts.get ⟨i, hi⟩) = [] := by
    apply (diffPairs_eq_nil _ _).mpr
    intro pp hpp
    obtain ⟨f, hf, hfe⟩ := List.mem_map.mp hpp
    subst hfe
    exact hsync (acts.get ⟨i, hi⟩) (acts.get_mem i hi) hkey f hf
  refine ⟨i, hi, hkey, ?_⟩
  simp only [upsertActiveRow, if_neg hcond, hlook, hget]
  rw [if_neg (show ¬ (diffPairs (desiredFields.map (fun f => (f, data.get f)))
      (acts.get ⟨i, hi⟩) ≠ []) from fun hcon => hcon hdiff)]
  rw [if_neg (show ¬ (diffPairs (desiredFields.map (fun f => (f, data.get f)))
      (acts.get ⟨i, hi⟩) ≠ []) from fun hcon => hcon hdiff)]
  unfold applyLinksAt
  rw [show dataStart + i - dataStart = i from by omega]

end ATS
